import Mathlib

/-!
# ftest03: the readv/writev chunk consistency checker

A shallow embedding of `testcases/kernel/fs/ftest/ftest03.c`.

* The write-bitmap `bits` (a `char` array, eight chunks per byte) is a list of
  bytes, each byte a natural number holding its bit pattern.
* The worker `dotest` and the perturbation injector `domisc` are state
  transformers over `State K`, where `K` is the state of the kernel the worker
  talks to; every system call of the source is a field of `Sys K`.
* `rand()` is a stream `rand : Nat → Nat` together with the number of draws
  made so far (`State.nrand`).
* `tst_exit()` ends the process: it is the result `Res.exit`, which keeps the
  state the worker was in when it gave up.
* All integers of the source stay far below `INT_MAX` (offsets are bounded by
  `max_size + csize`), so they are natural numbers here; those that can be
  negative (`whenmisc`, `last_trunc`, the values system calls return) are integers.
-/

namespace Ftest03

/-! ## Constants and configuration -/

def K_1 : Nat := 1024
def K_2 : Nat := 2048
def K_4 : Nat := 4096
def MAXCHILD : Nat := 25
def MAXIOVCNT : Nat := 16
def NMISC : Nat := 4

/-- The enumerators of `enum m_type`, as the integers they stand for. -/
def m_fsync : Nat := 0
def m_trunc : Nat := 1
def m_fstat : Nat := 2

/-- The run conditions: file-scope variables that `dotest` only reads
(`iterations` is the value on entry). -/
structure Config where
  csize : Nat
  iterations : Nat
  max_size : Nat
  misc_intvl : Nat
  nchild : Nat
deriving DecidableEq

/-- The default values that `setup` assigns. -/
def setup : Config :=
  { iterations := 10, nchild := 5, csize := K_2, max_size := K_1 * K_1, misc_intvl := 10 }

/-- The global `nchunks`, assigned once as `nchunks = max_size / csize` on entry to `dotest`. -/
def Config.nchunks (cfg : Config) : Nat := cfg.max_size / cfg.csize

/-- The macro `CHUNK(i)`, that is `((i) * csize)`. -/
def CHUNK (cfg : Config) (i : Nat) : Nat := i * cfg.csize

/-- The size `(nchunks + 7) / 8` of both bitmaps. -/
def Config.nbytes (cfg : Config) : Nat := (cfg.nchunks + 7) / 8

/-! ## The bitmap -/

/-- The statement `bits[chunk / 8] |= (1 << (chunk % 8))`, stored back into a `char`. -/
def set_bit (bits : List Nat) (chunk : Nat) : List Nat :=
  bits.set (chunk / 8) ((bits.getD (chunk / 8) 0 ||| (1 <<< (chunk % 8))) % 256)

/-- The test `(bits[chunk / 8] & (1 << (chunk % 8))) != 0`. -/
def test_bit (bits : List Nat) (chunk : Nat) : Bool :=
  (bits.getD (chunk / 8) 0 &&& (1 <<< (chunk % 8))) != 0

/-- The statement `bits[chunk / 8] &= ~(1 << (chunk % 8))`; on the eight bits of a `char`
the complement of the mask is `255 ^^^ mask`. -/
def clear_bit (bits : List Nat) (chunk : Nat) : List Nat :=
  bits.set (chunk / 8) (bits.getD (chunk / 8) 0 &&& (255 ^^^ (1 <<< (chunk % 8))))

/-- The loop `for (; chunk % 8 != 0; chunk++) bits[chunk / 8] &= ~(1 << (chunk % 8));`.
The first argument bounds the number of passes; the loop needs at most seven. Returns the
bitmap and the final value of `chunk`. -/
def clear_to_byte : Nat → List Nat → Nat → List Nat × Nat
  | 0, bits, chunk => (bits, chunk)
  | fuel + 1, bits, chunk =>
    if chunk % 8 != 0 then clear_to_byte fuel (clear_bit bits chunk) (chunk + 1)
    else (bits, chunk)

/-- The loop `for (; chunk < nchunks; chunk += 8) bits[chunk / 8] = 0;`.
The second argument bounds the number of passes; the loop needs at most `nchunks`. -/
def clear_bytes (nchunks : Nat) : Nat → List Nat → Nat → List Nat × Nat
  | 0, bits, chunk => (bits, chunk)
  | fuel + 1, bits, chunk =>
    if chunk < nchunks then clear_bytes nchunks fuel (bits.set (chunk / 8) 0) (chunk + 8)
    else (bits, chunk)

/-- The two clearing loops at the end of the truncate case of `domisc`, one after the other. -/
def clear_from (nchunks : Nat) (bits : List Nat) (chunk : Nat) : List Nat :=
  (clear_bytes nchunks nchunks (clear_to_byte 8 bits chunk).1 (clear_to_byte 8 bits chunk).2).1

/-- Modelled from the spec: `ft_orbits(hold, bits, n)` of libftest, which is not among the
sources; the spec calls it the OR-merge of the bitmap into the history bitmap, over the
first `n` bytes. -/
def ft_orbits (hold bits : List Nat) (n : Nat) : List Nat :=
  (List.zipWith (fun h b => h ||| b) (hold.take n) (bits.take n)) ++ hold.drop n

/-! ## Scatter/gather buffers -/

/-- What `readv` does to the buffers of an iovec array: the bytes delivered fill the buffers
in order, and what is not overwritten keeps its old content. -/
def scatter : List (List Nat) → List Nat → List (List Nat)
  | [], _ => []
  | buf :: rest, data =>
    (data.take buf.length ++ buf.drop data.length) :: scatter rest (data.drop buf.length)

/-- The call `memcmp(a, b, n) != 0`. -/
def memcmp (a b : List Nat) (n : Nat) : Bool := a.take n != b.take n

/-- The verification loop over the `MAXIOVCNT` buffers: true when some
`memcmp(r_iovec[i].iov_base, w_iovec[i].iov_base, r_iovec[i].iov_len)` is non-zero. -/
def iov_differ (r_iovec w_iovec : List (List Nat)) : Bool :=
  (List.range MAXIOVCNT).any fun i =>
    memcmp (r_iovec.getD i []) (w_iovec.getD i []) (r_iovec.getD i []).length

/-! ## The kernel, the trace and the worker state -/

/-- The system calls the worker makes on its file, as functions of a kernel state `K`.
Each returns the new kernel state and the value of the call. -/
structure Sys (K : Type) where
  /-- The call `lseek(fd, offset, whence)`. -/
  lseek : K → Int → Nat → K × Int
  /-- The call `readv(fd, iov, MAXIOVCNT)`, given the total length of the buffers: the value
  returned and the bytes delivered. -/
  readv : K → Nat → K × Int × List Nat
  /-- The call `writev(fd, iov, MAXIOVCNT)`, given the bytes of the buffers: the value returned
  and whether `errno` is `ENOSPC` afterwards. -/
  writev : K → List Nat → K × Int × Bool
  /-- The call `fsync(fd)`. -/
  fsync : K → K × Int
  /-- The call `ftruncate(fd, length)`. -/
  ftruncate : K → Nat → K × Int
  /-- The call `truncate(test_name, length)`. -/
  truncate : K → Nat → K × Int
  /-- The call `fstat(fd, &sb)`: the value returned and `sb.st_size`. -/
  fstat : K → K × Int × Int

/-- What the worker did, for stating properties of its history. -/
inductive Ev where
  /-- The top of an iteration of the outer loop. -/
  | reset
  /-- A pass of the inner chunk loop began and picked this chunk. -/
  | pick (chunk : Nat)
  /-- The chunk took the branch `CHUNK(chunk) >= file_max`. -/
  | virgin (chunk : Nat)
  /-- The chunk took the branch "bit off" and passed the zero check. -/
  | zero (chunk : Nat)
  /-- The chunk took the branch "bit on" and passed the pattern check. -/
  | seen (chunk : Nat)
  /-- The chunk was written in full. -/
  | write (chunk : Nat)
  /-- An invocation of `domisc` did `fsync` and returned. -/
  | fsync
  /-- An invocation of `domisc` truncated the file to this chunk and returned;
  the flag says whether it used `ftruncate`. -/
  | trunc (chunk : Nat) (by_fd : Bool)
  /-- An invocation of `domisc` did the `fstat` check and returned. -/
  | fstat
deriving DecidableEq

/-- The reasons for which the worker ends through `tst_exit()` (or a trap). -/
inductive Fail where
  | sigfpe
  | lseek_read
  | readv
  | zero_read
  | bad_zero
  | val_read
  | bad_val
  | lseek_write
  | no_space
  | writev
  | fsync
  | ftruncate
  | truncate
  | fstat
  | fstat_mismatch
deriving DecidableEq

/-- The variables of the worker: the file-scope variables that `dotest` and `domisc` assign,
the locals of `dotest`, and the world around it. -/
structure State (K : Type) where
  misc_cnt : List Nat
  file_max : Nat
  last_trunc : Int
  tr_flag : Nat
  type : Nat
  bits : List Nat
  hold_bits : List Nat
  val : Nat
  chunk : Nat
  whenmisc : Int
  xfr : Int
  count : Nat
  collide : Nat
  r_iovec : List (List Nat)
  val_iovec : List (List Nat)
  zero_iovec : List (List Nat)
  /-- The number of calls of `rand()` made so far. -/
  nrand : Nat
  /-- The state of the kernel. -/
  kern : K
  /-- The history, newest event first. -/
  trace : List Ev
deriving DecidableEq

/-- The result of a piece of the worker. -/
inductive Res (σ : Type) where
  /-- Control reached the end of the piece. -/
  | ok : σ → Res σ
  /-- The process ended, in this state. -/
  | exit : Fail → σ → Res σ
  /-- The bound on the number of loop passes of the model was too small. -/
  | out_of_fuel : Res σ
deriving DecidableEq

/-- Sequencing: the second piece runs when the first reached its end. -/
def Res.bind {σ : Type} (r : Res σ) (f : σ → Res σ) : Res σ :=
  match r with
  | .ok s => f s
  | .exit e s => .exit e s
  | .out_of_fuel => .out_of_fuel

/-- The state a result carries, when it carries one. -/
def Res.state? {σ : Type} : Res σ → Option σ
  | .ok s => some s
  | .exit _ s => some s
  | .out_of_fuel => none

/-- The macro `NEXTMISC`, `((rand() % misc_intvl) + 5)`, on the draw `r`. -/
def NEXTMISC (cfg : Config) (r : Nat) : Int := ((r % cfg.misc_intvl + 5 : Nat) : Int)

/-! ## The perturbation injector `domisc` -/

/-- The statement `++misc_cnt[type]`. -/
def count_misc (misc_cnt : List Nat) (type : Nat) : List Nat :=
  misc_cnt.set type (misc_cnt.getD type 0 + 1)

/-- The case `m_fsync` of the switch in `domisc`. -/
def fsync_case {K : Type} (sys : Sys K) (s : State K) : Res (State K) :=
  let r := sys.fsync s.kern
  let s := { s with kern := r.1 }
  if r.2 < 0 then .exit .fsync s
  else .ok { s with trace := .fsync :: s.trace }

/-- The case `m_trunc` of the switch in `domisc`. The division `file_max / csize` and the
remainder by it trap when the divisor is zero. -/
def trunc_case {K : Type} (cfg : Config) (sys : Sys K) (rand : Nat → Nat) (s : State K) :
    Res (State K) :=
  if cfg.csize = 0 ∨ s.file_max / cfg.csize = 0 then .exit .sigfpe s
  else
    let chunk := rand s.nrand % (s.file_max / cfg.csize)
    let s := { s with nrand := s.nrand + 1, file_max := CHUNK cfg chunk,
                      last_trunc := (CHUNK cfg chunk : Nat) }
    if s.tr_flag ≠ 0 then
      let r := sys.ftruncate s.kern s.file_max
      let s := { s with kern := r.1 }
      if r.2 < 0 then .exit .ftruncate s
      else
        .ok { s with tr_flag := 0, bits := clear_from cfg.nchunks s.bits chunk,
                     trace := .trunc chunk true :: s.trace }
    else
      let r := sys.truncate s.kern s.file_max
      let s := { s with kern := r.1 }
      if r.2 < 0 then .exit .truncate s
      else
        .ok { s with tr_flag := 1, bits := clear_from cfg.nchunks s.bits chunk,
                     trace := .trunc chunk false :: s.trace }

/-- The case `m_fstat` of the switch in `domisc`. -/
def fstat_case {K : Type} (sys : Sys K) (s : State K) : Res (State K) :=
  let r := sys.fstat s.kern
  let s := { s with kern := r.1 }
  if r.2.1 < 0 then .exit .fstat s
  else if r.2.2 ≠ (s.file_max : Int) then .exit .fstat_mismatch s
  else .ok { s with trace := .fstat :: s.trace }

/-- The statement `if (type > m_fstat) type = m_fsync;`. -/
def wrap_type {K : Type} (s : State K) : State K :=
  if s.type > m_fstat then { s with type := m_fsync } else s

/-- The statement `switch (type) { ... }`. After `wrap_type` the cursor is one of the three
enumerators, so the last branch is the case `m_fstat`. -/
def misc_switch {K : Type} (cfg : Config) (sys : Sys K) (rand : Nat → Nat) (s : State K) :
    Res (State K) :=
  if s.type = m_fsync then fsync_case sys s
  else if s.type = m_trunc then trunc_case cfg sys rand s
  else fstat_case sys s

/-- The statements `++misc_cnt[type]; ++type;`. -/
def next_type {K : Type} (s : State K) : State K :=
  { s with misc_cnt := count_misc s.misc_cnt s.type, type := s.type + 1 }

/-- The function `domisc`: wrap the cursor `type`, do the operation it names, count it and
advance the cursor. -/
def domisc {K : Type} (cfg : Config) (sys : Sys K) (rand : Nat → Nat) (s : State K) :
    Res (State K) :=
  (misc_switch cfg sys rand (wrap_type s)).bind fun s => .ok (next_type s)

/-! ## The worker `dotest` -/

/-- The top of a pass of the inner loop: pick a chunk, seek to it and read it. -/
def read_it {K : Type} (cfg : Config) (sys : Sys K) (rand : Nat → Nat) (s : State K) :
    Res (State K) :=
  let chunk := rand s.nrand % cfg.nchunks
  let s := { s with chunk := chunk, nrand := s.nrand + 1, trace := .pick chunk :: s.trace }
  let r := sys.lseek s.kern (CHUNK cfg chunk : Nat) 0
  let s := { s with kern := r.1 }
  if r.2 < 0 then .exit .lseek_read s
  else
    let v := sys.readv s.kern (s.r_iovec.map List.length).sum
    let s := { s with kern := v.1, xfr := v.2.1, r_iovec := scatter s.r_iovec v.2.2 }
    if v.2.1 < 0 then .exit .readv s
    else .ok s

/-- The three-way classification of the chunk just read, with its checks. -/
def verify_it {K : Type} (cfg : Config) (s : State K) : Res (State K) :=
  if CHUNK cfg s.chunk ≥ s.file_max then
    .ok { s with bits := set_bit s.bits s.chunk, count := s.count + 1,
                 trace := .virgin s.chunk :: s.trace }
  else if test_bit s.bits s.chunk = false then
    if s.xfr ≠ (cfg.csize : Int) then .exit .zero_read s
    else if iov_differ s.r_iovec s.zero_iovec then
      .exit .bad_zero { s with hold_bits := ft_orbits s.hold_bits s.bits cfg.nbytes }
    else
      .ok { s with bits := set_bit s.bits s.chunk, count := s.count + 1,
                   trace := .zero s.chunk :: s.trace }
  else
    if s.xfr ≠ (cfg.csize : Int) then .exit .val_read s
    else
      let s := { s with collide := s.collide + 1 }
      if iov_differ s.r_iovec s.val_iovec then
        .exit .bad_val { s with hold_bits := ft_orbits s.hold_bits s.bits cfg.nbytes }
      else .ok { s with trace := .seen s.chunk :: s.trace }

/-- Seek back over what was read, write the pattern and move `file_max` up. -/
def write_it {K : Type} (cfg : Config) (sys : Sys K) (s : State K) : Res (State K) :=
  let r := sys.lseek s.kern (-s.xfr) 1
  let s := { s with kern := r.1 }
  if r.2 < 0 then .exit .lseek_write s
  else
    let w := sys.writev s.kern s.val_iovec.flatten
    let s := { s with kern := w.1, xfr := w.2.1 }
    if w.2.1 < (cfg.csize : Int) then
      if w.2.2 then .exit .no_space { s with kern := (sys.fsync s.kern).1 }
      else .exit .writev s
    else
      let s := { s with trace := .write s.chunk :: s.trace }
      if CHUNK cfg s.chunk + cfg.csize > s.file_max then
        .ok { s with file_max := CHUNK cfg s.chunk + cfg.csize }
      else .ok s

/-- The statement `if (misc_intvl && --whenmisc <= 0) { ... }`. -/
def misc_it {K : Type} (cfg : Config) (sys : Sys K) (rand : Nat → Nat) (s : State K) :
    Res (State K) :=
  if cfg.misc_intvl ≠ 0 then
    let s := { s with whenmisc := s.whenmisc - 1 }
    if s.whenmisc ≤ 0 then
      (domisc cfg sys rand
          { s with hold_bits := ft_orbits s.hold_bits s.bits cfg.nbytes }).bind fun s =>
        .ok { s with whenmisc := NEXTMISC cfg (rand s.nrand), nrand := s.nrand + 1 }
    else .ok s
  else .ok s

/-- The part of a pass before the perturbation: read, classify and check, write. -/
def pass_body {K : Type} (cfg : Config) (sys : Sys K) (rand : Nat → Nat) (s : State K) :
    Res (State K) :=
  ((read_it cfg sys rand s).bind (verify_it cfg)).bind (write_it cfg sys)

/-- One pass of the inner chunk loop, up to but without the test
`count + collide > 2 * nchunks`. -/
def pass {K : Type} (cfg : Config) (sys : Sys K) (rand : Nat → Nat) (s : State K) :
    Res (State K) :=
  (pass_body cfg sys rand s).bind (misc_it cfg sys rand)

/-- The loop `while (count < nchunks) { ...; if (count + collide > 2 * nchunks) break; }`.
The first argument bounds the number of passes. -/
def chunk_loop {K : Type} (cfg : Config) (sys : Sys K) (rand : Nat → Nat) :
    Nat → State K → Res (State K)
  | 0, s => if s.count < cfg.nchunks then .out_of_fuel else .ok s
  | fuel + 1, s =>
    if s.count < cfg.nchunks then
      match pass cfg sys rand s with
      | .ok s1 =>
        if s1.count + s1.collide > 2 * cfg.nchunks then .ok s1
        else chunk_loop cfg sys rand fuel s1
      | r => r
    else .ok s

/-- The top of an iteration of the outer loop, down to `count = 0; collide = 0;`. -/
def iter_init {K : Type} (cfg : Config) (sys : Sys K) (s : State K) : State K :=
  { s with
    misc_cnt := List.replicate NMISC 0
    kern := (sys.ftruncate s.kern 0).1
    file_max := 0
    bits := List.replicate cfg.nbytes 0
    hold_bits := List.replicate cfg.nbytes 0
    val_iovec := List.replicate MAXIOVCNT (List.replicate (cfg.csize / MAXIOVCNT) s.val)
    zero_iovec := List.replicate MAXIOVCNT (List.replicate (cfg.csize / MAXIOVCNT) 0)
    count := 0
    collide := 0
    trace := .reset :: s.trace }

/-- The end of an iteration: `fsync(fd); ++misc_cnt[m_fsync]; ++val;` on a `char`. -/
def iter_end {K : Type} (sys : Sys K) (s : State K) : State K :=
  { s with
    kern := (sys.fsync s.kern).1
    misc_cnt := count_misc s.misc_cnt m_fsync
    val := (s.val + 1) % 256 }

/-- One iteration of the outer loop. The inner loop gets `2 * nchunks + 1` passes. -/
def iteration {K : Type} (cfg : Config) (sys : Sys K) (rand : Nat → Nat) (s : State K) :
    Res (State K) :=
  (chunk_loop cfg sys rand (2 * cfg.nchunks + 1) (iter_init cfg sys s)).bind fun s =>
    .ok (iter_end sys s)

/-- The loop `while (iterations-- > 0) { ... }`. -/
def iterate {K : Type} (cfg : Config) (sys : Sys K) (rand : Nat → Nat) :
    Nat → State K → Res (State K)
  | 0, s => .ok s
  | iterations + 1, s => (iteration cfg sys rand s).bind (iterate cfg sys rand iterations)

/-- The state of the worker when it reaches `srand(getpid())`: the initial values of the
file-scope variables, the freshly allocated buffers (`calloc` gives zeros; the bitmaps come
from `malloc` and are overwritten before their first use) and `val = (64 / testers) * me + 1`
in a `char`. -/
def start {K : Type} (cfg : Config) (testers me : Nat) (k : K) : State K :=
  { misc_cnt := List.replicate NMISC 0
    file_max := 0
    last_trunc := -1
    tr_flag := 0
    type := m_fsync
    bits := List.replicate cfg.nbytes 0
    hold_bits := List.replicate cfg.nbytes 0
    val := ((64 / testers) * me + 1) % 256
    chunk := 0
    whenmisc := 0
    xfr := 0
    count := 0
    collide := 0
    r_iovec := List.replicate MAXIOVCNT (List.replicate (cfg.csize / MAXIOVCNT) 0)
    val_iovec := List.replicate MAXIOVCNT (List.replicate (cfg.csize / MAXIOVCNT) 0)
    zero_iovec := List.replicate MAXIOVCNT (List.replicate (cfg.csize / MAXIOVCNT) 0)
    nrand := 0
    kern := k
    trace := [] }

/-- The statement `if (misc_intvl) whenmisc = NEXTMISC;`. -/
def first_misc {K : Type} (cfg : Config) (rand : Nat → Nat) (s : State K) : State K :=
  if cfg.misc_intvl ≠ 0 then
    { s with whenmisc := NEXTMISC cfg (rand s.nrand), nrand := s.nrand + 1 }
  else s

/-- The function `dotest(testers, me, fd)` on a kernel in state `k`. The divisions
`max_size / csize` and `64 / testers` trap when the divisor is zero. -/
def dotest {K : Type} (cfg : Config) (sys : Sys K) (rand : Nat → Nat) (testers me : Nat)
    (k : K) : Res (State K) :=
  if cfg.csize = 0 ∨ testers = 0 then .exit .sigfpe (start cfg testers me k)
  else iterate cfg sys rand cfg.iterations (first_misc cfg rand (start cfg testers me k))

/-! ## The orchestrator `runtest` -/

def PASSED : Int := 1
def FAILED : Int := 0

/-- What one call of `wait(&status)` gives: the value returned, the status stored (the code
looks at it only when the call succeeded) and `errno` (looked at only when it failed). -/
structure WaitRes where
  child : Int
  status : Int
  errno : Int
deriving DecidableEq

/-- The variables of `runtest` that the collection of the children assigns. -/
structure Collect where
  count : Nat
  local_flag : Int
deriving DecidableEq

/-- The loop `while (1) { if ((child = wait(&status)) >= 0) { ... } else { if (errno !=
EINTR) break; } }` of `runtest`, run on the results that the successive calls of `wait` give.
The value of `EINTR` comes from the system headers and is an argument. The result is `none`
when the results given run out before the loop breaks. -/
def wait_loop (EINTR : Int) : List WaitRes → Collect → Option Collect
  | [], _ => none
  | w :: ws, c =>
    if w.child ≥ 0 then
      wait_loop EINTR ws
        { count := c.count + 1, local_flag := if w.status ≠ 0 then FAILED else c.local_flag }
    else if w.errno ≠ EINTR then some c
    else wait_loop EINTR ws c

/-- The statement `if (count != nwait) { ...; local_flag = FAILED; }` of `runtest`. -/
def check_count (nwait : Nat) (c : Collect) : Collect :=
  if c.count ≠ nwait then { c with local_flag := FAILED } else c

/-- The part of `runtest` from `count = 0;` to the check of the count, entered with the
`local_flag` that `main` set and with `nwait` children forked. -/
def collect_children (EINTR : Int) (nwait : Nat) (ws : List WaitRes) (local_flag : Int) :
    Option Collect :=
  (wait_loop EINTR ws { count := 0, local_flag := local_flag }).map (check_count nwait)

/-! ## An ideal sparse file -/

/-- An ideal sparse file seen through one open descriptor: its length, its bytes by offset,
and the file offset of the descriptor. This is the file the statements on an ideal file
speak of: a write stores its bytes and zero-fills any gap, a truncation discards everything
past the new length, a read returns the stored bytes and is short only at end of file. -/
structure File where
  size : Nat
  byte : Nat → Nat
  pos : Nat

namespace File

/-- The empty file, as `open(..., O_RDWR | O_CREAT | O_TRUNC, 0666)` leaves it. -/
def empty : File := { size := 0, byte := fun _ => 0, pos := 0 }

/-- Seeking: from the start (`whence = 0`), from the file offset (`1`) or from the end;
a negative target is an error and moves nothing. -/
def lseek (f : File) (offset : Int) (whence : Nat) : File × Int :=
  let target : Int :=
    if whence = 0 then offset
    else if whence = 1 then (f.pos : Int) + offset
    else (f.size : Int) + offset
  if target < 0 then (f, -1) else ({ f with pos := target.toNat }, target)

/-- Reading returns the stored bytes from the file offset on and is short only at end of
file. -/
def readv (f : File) (len : Nat) : File × Int × List Nat :=
  let n := min len (f.size - f.pos)
  ({ f with pos := f.pos + n }, (n : Int), (List.range n).map fun i => f.byte (f.pos + i))

/-- Writing stores its bytes at the file offset and zero-fills any gap between the old end
of file and the file offset. -/
def writev (f : File) (data : List Nat) : File × Int × Bool :=
  if data.length = 0 then (f, 0, false)
  else
    ({ size := max f.size (f.pos + data.length)
       byte := fun o =>
         if f.pos ≤ o ∧ o < f.pos + data.length then data.getD (o - f.pos) 0
         else if o < f.size then f.byte o
         else 0
       pos := f.pos + data.length },
     (data.length : Int), false)

/-- Truncating discards everything past the new length (and zero-fills when it extends). -/
def truncate (f : File) (length : Nat) : File × Int :=
  ({ f with size := length, byte := fun o => if o < length ∧ o < f.size then f.byte o else 0 },
   0)

/-- Nothing to do on an ideal file. -/
def fsync (f : File) : File × Int := (f, 0)

/-- The length of the file as `st_size`. -/
def fstat (f : File) : File × Int × Int := (f, 0, (f.size : Int))

end File

/-- The kernel of the ideal sparse file. -/
def ideal : Sys File :=
  { lseek := File.lseek
    readv := File.readv
    writev := File.writev
    fsync := File.fsync
    ftruncate := File.truncate
    truncate := File.truncate
    fstat := File.fstat }

/-! ## Vocabulary of the statements -/

/-- Bit `i` of byte `q` of a bitmap (false outside the bitmap). -/
def raw (bits : List Nat) (q i : Nat) : Bool := (bits.getD q 0).testBit i

/-- The chunk index the truncate case of `domisc` picks in state `s`. -/
def trunc_chunk {K : Type} (cfg : Config) (rand : Nat → Nat) (s : State K) : Nat :=
  rand s.nrand % (s.file_max / cfg.csize)

/-- The truncation call that the truncate case of `domisc` makes in state `s` returns
without error. -/
def TruncCallOk {K : Type} (cfg : Config) (sys : Sys K) (rand : Nat → Nat) (s : State K) :
    Prop :=
  (s.tr_flag ≠ 0 → 0 ≤ (sys.ftruncate s.kern (CHUNK cfg (trunc_chunk cfg rand s))).2) ∧
  (s.tr_flag = 0 → 0 ≤ (sys.truncate s.kern (CHUNK cfg (trunc_chunk cfg rand s))).2)

/-- The chunk a pass of the inner loop picks in state `s`. -/
def picked {K : Type} (cfg : Config) (rand : Nat → Nat) (s : State K) : Nat :=
  rand s.nrand % cfg.nchunks

/-- The kernel state and the value of the `lseek` that opens the pass begun in state `s`. -/
def seek_res {K : Type} (cfg : Config) (sys : Sys K) (rand : Nat → Nat) (s : State K) :
    K × Int :=
  sys.lseek s.kern (CHUNK cfg (picked cfg rand s) : Nat) 0

/-- The kernel state, the value and the bytes delivered of the `readv` of the pass begun in
state `s`. -/
def read_res {K : Type} (cfg : Config) (sys : Sys K) (rand : Nat → Nat) (s : State K) :
    K × Int × List Nat :=
  sys.readv (seek_res cfg sys rand s).1 (s.r_iovec.map List.length).sum

/-- The state in which `read_it` reaches its end when the seek and the read do not fail. -/
def after_read {K : Type} (cfg : Config) (sys : Sys K) (rand : Nat → Nat) (s : State K) :
    State K :=
  { s with chunk := picked cfg rand s, nrand := s.nrand + 1,
           trace := .pick (picked cfg rand s) :: s.trace,
           kern := (read_res cfg sys rand s).1, xfr := (read_res cfg sys rand s).2.1,
           r_iovec := scatter s.r_iovec (read_res cfg sys rand s).2.2 }

/-- The buffers as `dotest` allocates and fills them: `MAXIOVCNT` read buffers of
`csize / MAXIOVCNT` bytes each, and as many zero buffers of that size. -/
def Buffers {K : Type} (cfg : Config) (s : State K) : Prop :=
  s.r_iovec.map List.length = List.replicate MAXIOVCNT (cfg.csize / MAXIOVCNT) ∧
  s.zero_iovec = List.replicate MAXIOVCNT (List.replicate (cfg.csize / MAXIOVCNT) 0)

/-- A bitmap transformer that keeps the length and only clears bits, the same ones whatever
the bitmap it is given. -/
def Masking (f : List Nat → List Nat) : Prop :=
  (∀ bits, (f bits).length = bits.length) ∧
    ∃ G : Nat → Nat → Bool, ∀ bits q i, raw (f bits) q i = (raw bits q i && G q i)

/-- The predicate holds of the state a result carries, whether the piece reached its end or
the process ended. -/
def Res.All {σ : Type} (P : σ → Prop) : Res σ → Prop
  | .ok s => P s
  | .exit _ s => P s
  | .out_of_fuel => True

/-- The predicate holds of the state in which the piece reached its end, if it did. -/
def Res.AllOk {σ : Type} (P : σ → Prop) : Res σ → Prop
  | .ok s => P s
  | .exit _ _ => True
  | .out_of_fuel => True

/-- The number of passes of the inner chunk loop begun in a history. -/
def picks : List Ev → Nat
  | [] => 0
  | .pick _ :: t => picks t + 1
  | _ :: t => picks t

/-- The operations that the invocations of `domisc` in a history performed, as the values of
`enum m_type`, newest first. -/
def misc_ops : List Ev → List Nat
  | [] => []
  | .fsync :: t => m_fsync :: misc_ops t
  | .trunc _ _ :: t => m_trunc :: misc_ops t
  | .fstat :: t => m_fstat :: misc_ops t
  | _ :: t => misc_ops t

/-- The history of the state a result carries; the empty history when it carries none. -/
def Res.trace {K : Type} (r : Res (State K)) : List Ev :=
  match r with
  | .ok s => s.trace
  | .exit _ s => s.trace
  | .out_of_fuel => []

/-- The cursor `type` agrees with the history: it is at most one past `m_fstat`, it is
congruent modulo three to the number of operations done, and the operations done, oldest
first, are `0, 1, 2, 0, 1, 2, ...`. -/
def Cursor {K : Type} (s : State K) : Prop :=
  s.type ≤ 3 ∧ s.type % 3 = (misc_ops s.trace).length % 3 ∧
    (misc_ops s.trace).reverse = (List.range (misc_ops s.trace).length).map (· % 3)

/-- The states of the worker at the boundaries of the passes of the inner chunk loop, in a
run of `dotest(testers, me, fd)` on a kernel in state `k`: the top of the loop in the first
iteration, the end of every completed pass, and the top of the loop in every later
iteration. The number of iterations is left open, so the pass boundaries of every run are
among these states whatever `iterations` is. -/
inductive Reach {K : Type} (cfg : Config) (sys : Sys K) (rand : Nat → Nat)
    (testers me : Nat) (k : K) : State K → Prop
  /-- The top of the inner loop in the first iteration. -/
  | first : cfg.csize ≠ 0 → testers ≠ 0 →
      Reach cfg sys rand testers me k
        (iter_init cfg sys (first_misc cfg rand (start cfg testers me k)))
  /-- The end of a pass, begun because `count < nchunks` and the `break` was not taken. -/
  | pass {s s1 : State K} : Reach cfg sys rand testers me k s →
      s.count < cfg.nchunks → s.count + s.collide ≤ 2 * cfg.nchunks →
      pass cfg sys rand s = .ok s1 → Reach cfg sys rand testers me k s1
  /-- The top of the inner loop in the next iteration, after the loop ended. -/
  | next {s : State K} : Reach cfg sys rand testers me k s →
      (cfg.nchunks ≤ s.count ∨ 2 * cfg.nchunks < s.count + s.collide) →
      Reach cfg sys rand testers me k (iter_init cfg sys (iter_end sys s))

/-- Following the words of the specification: chunk `i` has been written in the current
iteration, and no truncate perturbation with a chosen chunk index `≤ i` has occurred since
its most recent write. The history is read from the newest event back. -/
def live_written (i : Nat) : List Ev → Bool
  | [] => false
  | .reset :: _ => false
  | .write c :: t => decide (c = i) || live_written i t
  | .trunc c _ :: t => !decide (c ≤ i) && live_written i t
  | _ :: t => live_written i t

/-- The bitmap has its allocated size and agrees with the history on every chunk. -/
def Agree {K : Type} (cfg : Config) (s : State K) : Prop :=
  s.bits.length = cfg.nbytes ∧
    ∀ i, i < cfg.nchunks → test_bit s.bits i = live_written i s.trace

/-- The worker on the ideal file is in a sound state, with `m` chunks below `file_max`:
`file_max` is `m` chunks and is the length of the file, no bit is set at or above chunk
`m`, every chunk below `m` holds the pattern if its bit is set and zeros if not, and the
buffers have the shape and content `dotest` gave them. -/
structure Sound (cfg : Config) (s : State File) (m : Nat) : Prop where
  le : m ≤ cfg.nchunks
  file_max : s.file_max = m * cfg.csize
  size : s.kern.size = m * cfg.csize
  length : s.bits.length = cfg.nbytes
  below : ∀ i, test_bit s.bits i = true → i < m
  bytes : ∀ i o, i < m → o < cfg.csize →
    s.kern.byte (i * cfg.csize + o) = if test_bit s.bits i then s.val else 0
  r_shape : s.r_iovec.map List.length = List.replicate MAXIOVCNT (cfg.csize / MAXIOVCNT)
  val_buf : s.val_iovec = List.replicate MAXIOVCNT (List.replicate (cfg.csize / MAXIOVCNT) s.val)
  zero_buf : s.zero_iovec = List.replicate MAXIOVCNT (List.replicate (cfg.csize / MAXIOVCNT) 0)

/-- The reasons that are failed verifications of a chunk: a short read where a full one was
required, or content that differs from what the bitmap promises. -/
def Fail.is_verify : Fail → Bool
  | .zero_read => true
  | .bad_zero => true
  | .val_read => true
  | .bad_val => true
  | _ => false

/-- The reason for which the process ended, when it did. -/
def Res.fail? {σ : Type} : Res σ → Option Fail
  | .exit e _ => some e
  | _ => none

/-- The state with the history bitmap `hold_bits` blanked: everything the worker holds but
the history bitmap. -/
def State.erase {K : Type} (s : State K) : State K := { s with hold_bits := [] }

/-- The result with a function applied to the state it carries: the same kind of result, for
the same reason. -/
def Res.map {σ τ : Type} (f : σ → τ) : Res σ → Res τ
  | .ok s => .ok (f s)
  | .exit e s => .exit e (f s)
  | .out_of_fuel => .out_of_fuel

/-- The number of set bits of the write-bitmap among the chunks of the file. -/
def set_bits {K : Type} (cfg : Config) (s : State K) : Nat :=
  (List.range cfg.nchunks).countP (test_bit s.bits)

/-- Whether a truncate perturbation has run in the current iteration of a history. -/
def truncated : List Ev → Bool
  | [] => false
  | .reset :: _ => false
  | .trunc _ _ :: _ => true
  | _ :: t => truncated t

/-- The bookkeeping of the worker is tidy, with `m` chunks below `file_max`: `file_max` is
`m` chunks, at most the whole file; the bitmap has its allocated size and no bit is set at
or above chunk `m`; and `count` is at least the number of set bits, and equal to it as long
as no truncation has run in the iteration. -/
structure Tidy {K : Type} (cfg : Config) (s : State K) (m : Nat) : Prop where
  le : m ≤ cfg.nchunks
  file_max : s.file_max = m * cfg.csize
  length : s.bits.length = cfg.nbytes
  below : ∀ i, test_bit s.bits i = true → i < m
  count_ge : set_bits cfg s ≤ s.count
  count_eq : truncated s.trace = false → s.count = set_bits cfg s

/-- The number of iterations of the outer loop begun in a history. -/
def resets : List Ev → Nat
  | [] => 0
  | .reset :: t => resets t + 1
  | _ :: t => resets t

/-- The results of `wait` that are children collected. -/
def collected (ws : List WaitRes) : List WaitRes := ws.filter fun w => decide (0 ≤ w.child)

/-- Following the words of the specification: the invocation of `domisc` that took the worker
from state `s` to state `s1` performed the operation `op` of `enum m_type`. Flush: the
kernel went through `fsync`, which did not fail. Truncate: `file_max` is at the chunk
picked, the kernel went through `ftruncate` or `truncate` to that length, and the bitmap is
cleared from that chunk on. Stat check: the kernel went through `fstat`, which gave
`file_max` as the size. In every case the operation, and nothing else, is added to the
history. -/
def Performed {K : Type} (cfg : Config) (sys : Sys K) (rand : Nat → Nat) (op : Nat)
    (s s1 : State K) : Prop :=
  if op = m_fsync then
    s1.kern = (sys.fsync s.kern).1 ∧ 0 ≤ (sys.fsync s.kern).2 ∧
      s1.trace = .fsync :: s.trace ∧ s1.file_max = s.file_max ∧ s1.bits = s.bits
  else if op = m_trunc then
    s1.file_max = CHUNK cfg (trunc_chunk cfg rand s) ∧
      s1.kern = (if s.tr_flag ≠ 0 then sys.ftruncate s.kern (CHUNK cfg (trunc_chunk cfg rand s))
                 else sys.truncate s.kern (CHUNK cfg (trunc_chunk cfg rand s))).1 ∧
      s1.trace = .trunc (trunc_chunk cfg rand s) (decide (s.tr_flag ≠ 0)) :: s.trace ∧
      s1.bits = clear_from cfg.nchunks s.bits (trunc_chunk cfg rand s)
  else if op = m_fstat then
    s1.kern = (sys.fstat s.kern).1 ∧ (sys.fstat s.kern).2.2 = (s.file_max : Int) ∧
      s1.trace = .fstat :: s.trace ∧ s1.file_max = s.file_max ∧ s1.bits = s.bits
  else False

/-- The state in which `dotest` invokes `domisc` at the end of a pass whose body ended in
state `s`: `--whenmisc` and `ft_orbits(hold_bits, bits, ...)` are done. -/
def misc_entry {K : Type} (cfg : Config) (s : State K) : State K :=
  { s with whenmisc := s.whenmisc - 1,
           hold_bits := ft_orbits s.hold_bits s.bits cfg.nbytes }

/-! ## Concrete states -/

/-- Scenario C of the specification: the default configuration, `file_max` at ten chunks,
every bit of the bitmap set, the cursor on the truncate case. With the draw `5` the chunk
chosen is `5`. -/
def scenario_C : State File :=
  { start setup 5 0 File.empty with
    type := m_trunc
    file_max := 10 * K_2
    bits := List.replicate 64 255 }

/-- Scenario B of the specification: the default configuration at the top of the inner loop
of the first iteration (`file_max` is `0`); with every draw `20` the chunk picked is `20`. -/
def scenario_B : State File :=
  iter_init setup ideal (first_misc setup (fun _ => 20) (start setup 5 0 File.empty))

/-- A small configuration: chunks of sixteen bytes (one byte per buffer), four chunks, a
perturbation every five or six passes. -/
def tiny : Config :=
  { csize := 16, iterations := 1, max_size := 64, misc_intvl := 2, nchild := 5 }

/-- Scenario D of the specification on the small configuration: `file_max` at three chunks,
chunks `0` and `2` written with the pattern `1`, chunk `1` a hole that should read as
zeros, but the byte at offset `23` of the file is flipped to `128`. With every draw `1` the
chunk picked is `1`. -/
def scenario_D : State File :=
  { iter_init tiny ideal (first_misc tiny (fun _ => 1) (start tiny 5 0 File.empty)) with
    file_max := 48
    bits := [5]
    kern := { size := 48
              byte := fun o => if o = 23 then 128 else if 16 ≤ o ∧ o < 32 then 0 else 1
              pos := 0 } }

/-- The random draws used with the small configuration: `0, 3, 6, 9, ...`. -/
def tiny_rand : Nat → Nat := fun i => 3 * i

/-- The worker `me = 0` of five on the small configuration, at the top of the inner loop of
its first iteration, on an empty ideal file. -/
def tiny_top : State File :=
  iter_init tiny ideal (first_misc tiny tiny_rand (start tiny 5 0 File.empty))

/-- The state a result carries, or the given one when it carries none. -/
def Res.get {σ : Type} (r : Res σ) (d : σ) : σ :=
  match r with
  | .ok s => s
  | .exit _ s => s
  | .out_of_fuel => d

/-- The small worker after its first pass on the ideal file: chunk `3` is written and
`file_max` is at four chunks; the next draw picks chunk `2`, a hole. -/
def tiny_one : State File := (pass tiny ideal tiny_rand tiny_top).get tiny_top

/-- The small worker at the end of the body of its first pass. -/
def tiny_body : State File := (pass_body tiny ideal tiny_rand tiny_top).get tiny_top

/-- Three children collected with status zero and one interrupted wait among them (`EINTR`
is `4`). -/
def three_waits : List WaitRes :=
  [{ child := 101, status := 0, errno := 0 }, { child := -1, status := 0, errno := 4 },
   { child := 102, status := 0, errno := 0 }, { child := 103, status := 0, errno := 0 }]

end Ftest03

/-! # sysctl04: the `ENOTDIR` test of `sysctl(2)`

A shallow embedding of the loop over the test cases in `main` of
`testcases/kernel/syscalls/sysctl/sysctl04.c`. -/

namespace Sysctl04

/-- The constants that the system headers give: `CTL_MAXNAME`, `ENOTDIR` and `ENOSYS`. -/
structure Consts where
  CTL_MAXNAME : Int
  ENOTDIR : Int
  ENOSYS : Int

/-- The type `struct test_case_t`. -/
structure test_case_t where
  size : Int
  error : Int
deriving DecidableEq

/-- The table `TC`. -/
def TC (k : Consts) : List test_case_t :=
  [{ size := 0, error := k.ENOTDIR }, { size := k.CTL_MAXNAME + 1, error := k.ENOTDIR }]

def TST_TOTAL : Nat := 2

/-- The reports `tst_resm` makes in the loop. -/
inductive Report where
  | succeeded_unexpectedly
  | expected_failure
  | need_config
  | unexpected_error
deriving DecidableEq

/-- What a pass of the loop over the test cases does. -/
structure Pass where
  /-- The second argument of the call of `sysctl`, the name length. -/
  nlen : Int
  report : Report
deriving DecidableEq

/-- The body of `for (i = 0; i < TST_TOTAL; i++)`: the call
`TEST(sysctl(name, 0, osname, &osnamelth, 0, 0))` and the report on its outcome. The kernel
gives `TEST_RETURN` and `TEST_ERRNO` for a name length. -/
def test_case (k : Consts) (kernel : Int → Int × Int) (i : Nat) : Pass :=
  let nlen : Int := 0
  let r := kernel nlen
  { nlen := nlen
    report :=
      if r.1 ≠ -1 then .succeeded_unexpectedly
      else if r.2 = ((TC k).getD i { size := 0, error := 0 }).error then .expected_failure
      else if r.2 = k.ENOSYS then .need_config
      else .unexpected_error }

/-- The loop over the test cases in `main`. -/
def test_cases (k : Consts) (kernel : Int → Int × Int) : List Pass :=
  (List.range TST_TOTAL).map (test_case k kernel)

/-- The constants as Linux has them. -/
def linux : Consts := { CTL_MAXNAME := 10, ENOTDIR := 20, ENOSYS := 38 }

end Sysctl04

namespace Ftest03

/-- The small worker at the top of its first iteration, with another history bitmap. -/
def tiny_top_held : State File := { tiny_top with hold_bits := [255] }

/-- A configuration of five chunks of sixteen bytes, two iterations and a perturbation every
five passes. -/
def leaky : Config :=
  { csize := 16, iterations := 2, max_size := 80, misc_intvl := 1, nchild := 1 }

/-- Random draws for `leaky`: each iteration picks the chunks `0, 1, 2, 3, 4` in turn; the
first perturbation (a flush) ends the first iteration, the second (a truncation, for which
the draw `0` chooses chunk `0`) ends the second. -/
def leaky_rand : Nat → Nat := fun i => [0, 0, 1, 2, 3, 4, 0, 0, 1, 2, 3, 4, 0, 0].getD i 0

/-- The state in which the single worker of `leaky` ends on the ideal file. -/
def leaky_end : State File :=
  (dotest leaky ideal leaky_rand 1 0 File.empty).get (start leaky 1 0 File.empty)

/-- The configuration `leaky` with three iterations. -/
def cyclic : Config := { leaky with iterations := 3 }

/-! # Theorems -/

/-! ## Lemmas on the bitmap -/

theorem and_shift_ne_zero (n i : Nat) : (n &&& (1 <<< i) != 0) = n.testBit i := by
  rw [Nat.one_shiftLeft, Nat.and_two_pow]
  cases n.testBit i <;> simp

theorem test_bit_eq_raw (bits : List Nat) (j : Nat) :
    test_bit bits j = raw bits (j / 8) (j % 8) := by
  unfold test_bit raw
  exact and_shift_ne_zero _ _

theorem getD_set_nat (bits : List Nat) (p q a : Nat) :
    (bits.set p a).getD q 0 = if p = q ∧ p < bits.length then a else bits.getD q 0 := by
  simp only [List.getD_eq_getElem?_getD, List.getElem?_set]
  by_cases hpq : p = q
  · by_cases hp : p < bits.length
    · subst hpq
      simp [hp]
    · subst hpq
      simp [hp, List.getElem?_eq_none (Nat.le_of_not_lt hp)]
  · simp [hpq]

theorem raw_out (bits : List Nat) (q i : Nat) (h : bits.length ≤ q) : raw bits q i = false := by
  unfold raw
  rw [List.getD_eq_getElem?_getD, List.getElem?_eq_none h]
  simp

theorem raw_clear_bit (bits : List Nat) (c q i : Nat) :
    raw (clear_bit bits c) q i
      = (raw bits q i && !(decide (q = c / 8) && (decide (i = c % 8) || decide (8 ≤ i)))) := by
  unfold clear_bit
  by_cases hq : q = c / 8
  · subst hq
    by_cases hlen : c / 8 < bits.length
    · unfold raw
      rw [getD_set_nat, if_pos ⟨rfl, hlen⟩, Nat.testBit_and, Nat.testBit_xor,
        Nat.one_shiftLeft, Nat.testBit_two_pow,
        show (255 : Nat) = 2 ^ 8 - 1 from rfl, Nat.testBit_two_pow_sub_one]
      by_cases h8 : i < 8
      · by_cases hi : i = c % 8
        · subst hi
          simp [h8]
        · have hi2 : ¬ c % 8 = i := fun h => hi h.symm
          simp [hi, hi2, h8]
      · have hi : ¬ c % 8 = i := by omega
        have h8b : 8 ≤ i := by omega
        simp [h8, hi, h8b]
    · rw [raw_out _ _ _ (by rw [List.length_set]; omega), raw_out _ _ _ (by omega)]
      simp
  · unfold raw
    rw [getD_set_nat]
    have : ¬ (c / 8 = q ∧ c / 8 < bits.length) := fun h => hq h.1.symm
    simp [this, hq]

theorem raw_set_zero (bits : List Nat) (p q i : Nat) :
    raw (bits.set p 0) q i = (raw bits q i && !decide (q = p)) := by
  by_cases hq : q = p
  · subst hq
    by_cases hlen : q < bits.length
    · unfold raw
      rw [getD_set_nat, if_pos ⟨rfl, hlen⟩]
      simp
    · rw [raw_out _ _ _ (by rw [List.length_set]; omega)]
      simp
  · unfold raw
    rw [getD_set_nat]
    have : ¬ (p = q ∧ p < bits.length) := fun h => hq h.1.symm
    simp [this, hq]

theorem raw_set_bit (bits : List Nat) (c q i : Nat) (hlen : c / 8 < bits.length) :
    raw (set_bit bits c) q i
      = if q = c / 8 then (decide (i < 8) && (raw bits q i || decide (i = c % 8)))
        else raw bits q i := by
  unfold set_bit raw
  rw [getD_set_nat]
  by_cases hq : q = c / 8
  · subst hq
    rw [if_pos ⟨rfl, hlen⟩, if_pos rfl, show (256 : Nat) = 2 ^ 8 from rfl,
      Nat.testBit_mod_two_pow, Nat.testBit_or, Nat.one_shiftLeft, Nat.testBit_two_pow]
    by_cases hi : i = c % 8
    · simp [hi]
    · have hi2 : ¬ c % 8 = i := fun h => hi h.symm
      simp [hi, hi2]
  · have : ¬ (c / 8 = q ∧ c / 8 < bits.length) := fun h => hq h.1.symm
    simp [this, hq]

theorem length_set_bit (bits : List Nat) (c : Nat) : (set_bit bits c).length = bits.length := by
  unfold set_bit
  rw [List.length_set]

theorem length_clear_bit (bits : List Nat) (c : Nat) :
    (clear_bit bits c).length = bits.length := by
  unfold clear_bit
  rw [List.length_set]

theorem test_bit_set_bit (bits : List Nat) (c j : Nat) (hlen : c / 8 < bits.length) :
    test_bit (set_bit bits c) j = (test_bit bits j || decide (j = c)) := by
  rw [test_bit_eq_raw, test_bit_eq_raw, raw_set_bit _ _ _ _ hlen]
  have h8 : j % 8 < 8 := Nat.mod_lt _ (by decide)
  by_cases hq : j / 8 = c / 8
  · rw [if_pos hq]
    by_cases hj : j = c
    · subst hj; simp [h8]
    · have : ¬ j % 8 = c % 8 := by omega
      simp [h8, hj, this]
  · rw [if_neg hq]
    have : ¬ j = c := fun h => hq (by rw [h])
    simp [this]

theorem test_bit_clear_bit (bits : List Nat) (c j : Nat) :
    test_bit (clear_bit bits c) j = (test_bit bits j && !decide (j = c)) := by
  rw [test_bit_eq_raw, test_bit_eq_raw, raw_clear_bit]
  have h8 : ¬ 8 ≤ j % 8 := by omega
  by_cases hj : j = c
  · subst hj; simp
  · have : ¬ (j / 8 = c / 8 ∧ j % 8 = c % 8) := by omega
    by_cases hq : j / 8 = c / 8
    · have hm : ¬ j % 8 = c % 8 := fun h => this ⟨hq, h⟩
      simp [hq, hm, h8, hj]
    · simp [hq, hj]

theorem bits_ext (l₁ l₂ : List Nat) (hlen : l₁.length = l₂.length)
    (h : ∀ q i, raw l₁ q i = raw l₂ q i) : l₁ = l₂ := by
  apply List.ext_getElem?
  intro q
  by_cases hq : q < l₁.length
  · have hq2 : q < l₂.length := hlen ▸ hq
    rw [List.getElem?_eq_getElem hq, List.getElem?_eq_getElem hq2]
    congr 1
    apply Nat.eq_of_testBit_eq
    intro i
    have := h q i
    unfold raw at this
    simpa [List.getD_eq_getElem?_getD, List.getElem?_eq_getElem hq,
      List.getElem?_eq_getElem hq2] using this
  · rw [List.getElem?_eq_none (by omega), List.getElem?_eq_none (by omega)]

/-! ### The first clearing loop -/

theorem clear_to_byte_length (fuel : Nat) (bits : List Nat) (c : Nat) :
    (clear_to_byte fuel bits c).1.length = bits.length := by
  induction fuel generalizing bits c with
  | zero => rfl
  | succ f ih =>
    unfold clear_to_byte
    split
    · rw [ih, length_clear_bit]
    · rfl

/-- With enough passes the first loop stops at the next multiple of eight. -/
theorem clear_to_byte_stop (fuel : Nat) (bits : List Nat) (c : Nat)
    (h : c % 8 = 0 ∨ 8 ≤ fuel + c % 8) :
    (clear_to_byte fuel bits c).2 = (c + 7) / 8 * 8 := by
  induction fuel generalizing bits c with
  | zero =>
    unfold clear_to_byte
    simp only
    omega
  | succ f ih =>
    unfold clear_to_byte
    by_cases hc : c % 8 = 0
    · simp only [hc, bne_self_eq_false, Bool.false_eq_true, if_false]
      omega
    · have hb : (c % 8 != 0) = true := by simp [hc]
      simp only [hb, if_true]
      rw [ih _ _ (by omega)]
      omega

theorem clear_to_byte_stop8 (bits : List Nat) (c : Nat) :
    (clear_to_byte 8 bits c).2 = (c + 7) / 8 * 8 :=
  clear_to_byte_stop 8 bits c (by omega)

theorem clear_to_byte_le (fuel : Nat) (bits : List Nat) (c : Nat) :
    c ≤ (clear_to_byte fuel bits c).2 := by
  induction fuel generalizing bits c with
  | zero => exact Nat.le_refl _
  | succ f ih =>
    unfold clear_to_byte
    split
    · exact Nat.le_trans (Nat.le_succ c) (ih _ _)
    · exact Nat.le_refl _

/-- The first loop clears exactly the bits from `c` up to where it stops. -/
theorem test_bit_clear_to_byte (fuel : Nat) (bits : List Nat) (c j : Nat) :
    test_bit (clear_to_byte fuel bits c).1 j
      = (test_bit bits j && !(decide (c ≤ j) && decide (j < (clear_to_byte fuel bits c).2))) := by
  induction fuel generalizing bits c with
  | zero =>
    simp only [clear_to_byte]
    cases test_bit bits j
    · rfl
    · simp
      omega
  | succ f ih =>
    unfold clear_to_byte
    split
    · rw [ih, test_bit_clear_bit]
      have hle := clear_to_byte_le f (clear_bit bits c) (c + 1)
      generalize (clear_to_byte f (clear_bit bits c) (c + 1)).2 = e at hle
      by_cases h1 : j = c
      · have : c + 1 ≤ e := hle
        subst h1
        simp
        omega
      · by_cases h2 : c ≤ j
        · have h3 : c + 1 ≤ j := by omega
          simp [h1, h2, h3]
        · have h3 : ¬ c + 1 ≤ j := by omega
          simp [h1, h2, h3]
    · cases test_bit bits j
      · rfl
      · simp
        omega

/-! ### The second clearing loop -/

theorem clear_bytes_length (n fuel : Nat) (bits : List Nat) (c : Nat) :
    (clear_bytes n fuel bits c).1.length = bits.length := by
  induction fuel generalizing bits c with
  | zero => rfl
  | succ f ih =>
    unfold clear_bytes
    split
    · rw [ih, List.length_set]
    · rfl

theorem clear_bytes_le (n fuel : Nat) (bits : List Nat) (c : Nat) :
    c ≤ (clear_bytes n fuel bits c).2 := by
  induction fuel generalizing bits c with
  | zero => exact Nat.le_refl _
  | succ f ih =>
    unfold clear_bytes
    split
    · exact Nat.le_trans (Nat.le_add_right c 8) (ih _ _)
    · exact Nat.le_refl _

/-- With enough passes the second loop stops at or beyond `nchunks`. -/
theorem clear_bytes_stop (n fuel : Nat) (bits : List Nat) (c : Nat) (h : n ≤ fuel + c) :
    n ≤ (clear_bytes n fuel bits c).2 := by
  induction fuel generalizing bits c with
  | zero =>
    unfold clear_bytes
    simp only
    omega
  | succ f ih =>
    unfold clear_bytes
    split
    · exact ih _ _ (by omega)
    · simp only
      omega

theorem test_bit_set_zero (bits : List Nat) (c j : Nat) (hc : c % 8 = 0) :
    test_bit (bits.set (c / 8) 0) j
      = (test_bit bits j && !(decide (c ≤ j) && decide (j < c + 8))) := by
  rw [test_bit_eq_raw, test_bit_eq_raw, raw_set_zero]
  by_cases hq : j / 8 = c / 8
  · have h1 : c ≤ j := by omega
    have h2 : j < c + 8 := by omega
    simp [hq, h1, h2]
  · cases raw bits (j / 8) (j % 8)
    · rfl
    · simp [hq]
      omega

/-- Started on a byte boundary, the second loop clears exactly the bits from `c` up to where
it stops. -/
theorem test_bit_clear_bytes (n fuel : Nat) (bits : List Nat) (c j : Nat) (hc : c % 8 = 0) :
    test_bit (clear_bytes n fuel bits c).1 j
      = (test_bit bits j && !(decide (c ≤ j) && decide (j < (clear_bytes n fuel bits c).2))) := by
  induction fuel generalizing bits c with
  | zero =>
    simp only [clear_bytes]
    cases test_bit bits j
    · rfl
    · simp
      omega
  | succ f ih =>
    unfold clear_bytes
    split
    · rw [ih _ _ (by omega), test_bit_set_zero _ _ _ hc]
      have hle := clear_bytes_le n f (bits.set (c / 8) 0) (c + 8)
      generalize (clear_bytes n f (bits.set (c / 8) 0) (c + 8)).2 = e at hle
      by_cases h1 : c ≤ j
      · by_cases h2 : j < c + 8
        · have h3 : j < e := by omega
          simp [h1, h2, h3]
        · have h3 : c + 8 ≤ j := by omega
          simp [h1, h2, h3]
      · have h3 : ¬ c + 8 ≤ j := by omega
        simp [h1, h3]
    · cases test_bit bits j
      · rfl
      · simp
        omega

/-! ### Both loops -/

theorem clear_from_length (n : Nat) (bits : List Nat) (c : Nat) :
    (clear_from n bits c).length = bits.length := by
  unfold clear_from
  rw [clear_bytes_length, clear_to_byte_length]

/-- Bits at or above `c` and below `nchunks` are clear after `clear_from`. -/
theorem test_bit_clear_from_ge (n : Nat) (bits : List Nat) (c j : Nat) (h1 : c ≤ j)
    (h2 : j < n) : test_bit (clear_from n bits c) j = false := by
  unfold clear_from
  have hstop := clear_to_byte_stop8 bits c
  rw [test_bit_clear_bytes _ _ _ _ _ (by rw [hstop]; omega), test_bit_clear_to_byte]
  have hs2 := clear_bytes_stop n n (clear_to_byte 8 bits c).1 (clear_to_byte 8 bits c).2
    (by omega)
  generalize (clear_bytes n n (clear_to_byte 8 bits c).1 (clear_to_byte 8 bits c).2).2 = e at hs2
  generalize (clear_to_byte 8 bits c).2 = d at hstop
  by_cases h3 : j < d
  · simp [h1, h3]
  · have h4 : d ≤ j := by omega
    have h5 : j < e := by omega
    simp [h4, h5]

/-- Bits below `c` keep their value through `clear_from`. -/
theorem test_bit_clear_from_lt (n : Nat) (bits : List Nat) (c j : Nat) (h : j < c) :
    test_bit (clear_from n bits c) j = test_bit bits j := by
  unfold clear_from
  have hstop := clear_to_byte_stop8 bits c
  rw [test_bit_clear_bytes _ _ _ _ _ (by rw [hstop]; omega), test_bit_clear_to_byte]
  generalize (clear_bytes n n (clear_to_byte 8 bits c).1 (clear_to_byte 8 bits c).2).2 = e
  generalize (clear_to_byte 8 bits c).2 = d at hstop
  have h3 : ¬ c ≤ j := by omega
  have h4 : ¬ d ≤ j := by omega
  simp [h3, h4]

/-! ### Clearing twice -/

theorem masking_idem (f : List Nat → List Nat) (h : Masking f) (bits : List Nat) :
    f (f bits) = f bits := by
  obtain ⟨hlen, G, hG⟩ := h
  apply bits_ext _ _ (hlen _)
  intro q i
  rw [hG (f bits), hG bits, Bool.and_assoc, Bool.and_self]

theorem masking_comp (f g : List Nat → List Nat) (hf : Masking f) (hg : Masking g) :
    Masking (fun bits => g (f bits)) := by
  obtain ⟨hlf, F, hF⟩ := hf
  obtain ⟨hlg, G, hG⟩ := hg
  refine ⟨fun bits => by rw [hlg, hlf], fun q i => F q i && G q i, ?_⟩
  intro bits q i
  rw [hG, hF, Bool.and_assoc]

theorem masking_id : Masking (fun bits => bits) :=
  ⟨fun _ => rfl, fun _ _ => true, fun _ _ _ => by simp⟩

theorem masking_clear_bit (c : Nat) : Masking (fun bits => clear_bit bits c) :=
  ⟨fun bits => length_clear_bit bits c,
   fun q i => !(decide (q = c / 8) && (decide (i = c % 8) || decide (8 ≤ i))),
   fun bits q i => raw_clear_bit bits c q i⟩

theorem masking_set_zero (p : Nat) : Masking (fun bits => bits.set p 0) :=
  ⟨fun bits => List.length_set bits p 0, fun q _ => !decide (q = p),
   fun bits q i => raw_set_zero bits p q i⟩

theorem masking_clear_to_byte (fuel c : Nat) :
    Masking (fun bits => (clear_to_byte fuel bits c).1) := by
  induction fuel generalizing c with
  | zero => exact masking_id
  | succ f ih =>
    by_cases hc : (c % 8 != 0) = true
    · have : (fun bits => (clear_to_byte (f + 1) bits c).1)
          = fun bits => (clear_to_byte f (clear_bit bits c) (c + 1)).1 := by
        funext bits
        rw [clear_to_byte, if_pos hc]
      rw [this]
      exact masking_comp _ _ (masking_clear_bit c) (ih (c + 1))
    · have : (fun bits => (clear_to_byte (f + 1) bits c).1) = fun bits => bits := by
        funext bits
        rw [clear_to_byte, if_neg hc]
      rw [this]
      exact masking_id

theorem masking_clear_bytes (n fuel c : Nat) :
    Masking (fun bits => (clear_bytes n fuel bits c).1) := by
  induction fuel generalizing c with
  | zero => exact masking_id
  | succ f ih =>
    by_cases hc : c < n
    · have : (fun bits => (clear_bytes n (f + 1) bits c).1)
          = fun bits => (clear_bytes n f (bits.set (c / 8) 0) (c + 8)).1 := by
        funext bits
        rw [clear_bytes, if_pos hc]
      rw [this]
      exact masking_comp _ _ (masking_set_zero (c / 8)) (ih (c + 8))
    · have : (fun bits => (clear_bytes n (f + 1) bits c).1) = fun bits => bits := by
        funext bits
        rw [clear_bytes, if_neg hc]
      rw [this]
      exact masking_id

theorem masking_clear_from (n c : Nat) : Masking (fun bits => clear_from n bits c) := by
  have : (fun bits => clear_from n bits c)
      = fun bits => (clear_bytes n n (clear_to_byte 8 bits c).1 ((c + 7) / 8 * 8)).1 := by
    funext bits
    unfold clear_from
    rw [clear_to_byte_stop8]
  rw [this]
  exact masking_comp _ _ (masking_clear_to_byte 8 c) (masking_clear_bytes n n ((c + 7) / 8 * 8))

/-- Claim C10 (idempotence of clear-from). The clearing step of the truncate case, bits one
by one from `i` to the next multiple of eight and then whole bytes up to `nchunks`, applied
twice with the same `i` gives the same bitmap as applied once; this holds for every bitmap
and every `i`, in particular for `i < nchunks`. -/
theorem C10_clear_from_idempotent (nchunks : Nat) (bits : List Nat) (i : Nat) :
    clear_from nchunks (clear_from nchunks bits i) i = clear_from nchunks bits i :=
  masking_idem (fun bits => clear_from nchunks bits i) (masking_clear_from nchunks i) bits

/-! ## The truncate case of `domisc` -/

theorem csize_pos_of_div {K : Type} (cfg : Config) (s : State K)
    (hfm : 1 ≤ s.file_max / cfg.csize) : cfg.csize ≠ 0 := by
  intro h
  rw [h, Nat.div_zero] at hfm
  omega

/-- When its truncation call succeeds, the truncate case returns, with `file_max` at the
chosen chunk and the bitmap cleared from that chunk on; the rest of the state is described
field by field. -/
theorem trunc_case_ok {K : Type} (cfg : Config) (sys : Sys K) (rand : Nat → Nat) (s : State K)
    (hfm : 1 ≤ s.file_max / cfg.csize) (hcall : TruncCallOk cfg sys rand s) :
    ∃ s', trunc_case cfg sys rand s = .ok s' ∧
      s'.file_max = CHUNK cfg (trunc_chunk cfg rand s) ∧
      s'.bits = clear_from cfg.nchunks s.bits (trunc_chunk cfg rand s) ∧
      s'.type = s.type ∧ s'.count = s.count ∧ s'.collide = s.collide ∧
      s'.hold_bits = s.hold_bits ∧ s'.nrand = s.nrand + 1 ∧
      s'.trace = .trunc (trunc_chunk cfg rand s) (decide (s.tr_flag ≠ 0)) :: s.trace ∧
      s'.kern = (if s.tr_flag ≠ 0 then sys.ftruncate s.kern (CHUNK cfg (trunc_chunk cfg rand s))
                 else sys.truncate s.kern (CHUNK cfg (trunc_chunk cfg rand s))).1 ∧
      s'.val = s.val ∧ s'.r_iovec = s.r_iovec ∧ s'.val_iovec = s.val_iovec ∧
      s'.zero_iovec = s.zero_iovec := by
  have hcs := csize_pos_of_div cfg s hfm
  have hdiv : ¬ (cfg.csize = 0 ∨ s.file_max / cfg.csize = 0) := by omega
  unfold trunc_case
  rw [if_neg hdiv]
  by_cases hflag : s.tr_flag ≠ 0
  · have h := hcall.1 hflag
    unfold trunc_chunk at h
    simp only [hflag, ne_eq, not_false_eq_true, if_true, not_lt.mpr h, if_false]
    exact ⟨_, rfl, rfl, rfl, rfl, rfl, rfl, rfl, rfl, by simp [trunc_chunk], rfl, rfl, rfl,
      rfl, rfl⟩
  · have hflag0 : s.tr_flag = 0 := by simpa using hflag
    have h := hcall.2 hflag0
    unfold trunc_chunk at h
    simp only [hflag0, ne_eq, not_true_eq_false, if_false, not_lt.mpr h]
    exact ⟨_, rfl, rfl, rfl, rfl, rfl, rfl, rfl, rfl, by simp [trunc_chunk], rfl, rfl, rfl,
      rfl, rfl⟩

/-- The same for `domisc` with the cursor on `m_trunc`. -/
theorem domisc_trunc_ok {K : Type} (cfg : Config) (sys : Sys K) (rand : Nat → Nat)
    (s : State K) (htype : s.type = m_trunc) (hfm : 1 ≤ s.file_max / cfg.csize)
    (hcall : TruncCallOk cfg sys rand s) :
    ∃ s', domisc cfg sys rand s = .ok s' ∧
      s'.file_max = CHUNK cfg (trunc_chunk cfg rand s) ∧
      s'.bits = clear_from cfg.nchunks s.bits (trunc_chunk cfg rand s) ∧
      s'.type = m_fstat ∧ s'.count = s.count ∧ s'.collide = s.collide := by
  obtain ⟨s1, h1, hmax, hbits, hty, hcnt, hcol, -, -, -⟩ := trunc_case_ok cfg sys rand s hfm hcall
  have hwrap : wrap_type s = s := by
    unfold wrap_type
    rw [if_neg (by rw [htype]; decide)]
  have hsw : misc_switch cfg sys rand s = .ok s1 := by
    unfold misc_switch
    rw [if_neg (by rw [htype]; decide), if_pos htype, h1]
  refine ⟨next_type s1, ?_, hmax, hbits, ?_, hcnt, hcol⟩
  · unfold domisc
    rw [hwrap, hsw]
    rfl
  · show s1.type + 1 = m_fstat
    rw [hty, htype]
    rfl

/-- When its truncation call fails, the truncate case ends the process, with `file_max`
already at the chosen chunk and the bitmap untouched. -/
theorem trunc_case_exit {K : Type} (cfg : Config) (sys : Sys K) (rand : Nat → Nat) (s : State K)
    (hfm : 1 ≤ s.file_max / cfg.csize) (hcall : ¬ TruncCallOk cfg sys rand s) :
    ∃ e s', trunc_case cfg sys rand s = .exit e s' ∧
      s'.file_max = CHUNK cfg (trunc_chunk cfg rand s) ∧ s'.bits = s.bits ∧
      s'.type = s.type := by
  have hcs := csize_pos_of_div cfg s hfm
  have hdiv : ¬ (cfg.csize = 0 ∨ s.file_max / cfg.csize = 0) := by omega
  unfold trunc_case
  rw [if_neg hdiv]
  unfold TruncCallOk trunc_chunk at hcall
  by_cases hflag : s.tr_flag ≠ 0
  · have h : (sys.ftruncate s.kern (CHUNK cfg (rand s.nrand % (s.file_max / cfg.csize)))).2 < 0 := by
      by_contra hc
      exact hcall ⟨fun _ => not_lt.mp hc, fun h0 => absurd h0 hflag⟩
    simp only [hflag, ne_eq, not_false_eq_true, if_true, h]
    exact ⟨_, _, rfl, rfl, rfl, rfl⟩
  · have hflag0 : s.tr_flag = 0 := by simpa using hflag
    have h : (sys.truncate s.kern (CHUNK cfg (rand s.nrand % (s.file_max / cfg.csize)))).2 < 0 := by
      by_contra hc
      exact hcall ⟨fun h0 => absurd hflag0 h0, fun _ => not_lt.mp hc⟩
    simp only [hflag0, ne_eq, not_true_eq_false, if_false, h, if_true]
    exact ⟨_, _, rfl, rfl, rfl, rfl⟩

theorem domisc_trunc_exit {K : Type} (cfg : Config) (sys : Sys K) (rand : Nat → Nat)
    (s : State K) (htype : s.type = m_trunc) (hfm : 1 ≤ s.file_max / cfg.csize)
    (hcall : ¬ TruncCallOk cfg sys rand s) :
    ∃ e s', domisc cfg sys rand s = .exit e s' ∧
      s'.file_max = CHUNK cfg (trunc_chunk cfg rand s) ∧ s'.bits = s.bits := by
  obtain ⟨e, s1, h1, hmax, hbits, -⟩ := trunc_case_exit cfg sys rand s hfm hcall
  have hwrap : wrap_type s = s := by
    unfold wrap_type
    rw [if_neg (by rw [htype]; decide)]
  refine ⟨e, s1, ?_, hmax, hbits⟩
  unfold domisc misc_switch
  rw [hwrap, if_neg (by rw [htype]; decide), if_pos htype, h1]
  rfl

/-- Claim C1 (truncation clears state). In `domisc` with the cursor on the truncate case,
for every bitmap, every `file_max` with `file_max / csize ≥ 1` and every random draw, with
`c = rand() % (file_max / csize)`: the case leaves `file_max = c * csize`, whether it
returns or ends the process on a failed truncation call; when it returns, every bit `j`
with `c ≤ j < nchunks` tests as clear; and it returns whenever the truncation call
succeeds. -/
theorem C1_truncate_clears_state {K : Type} (cfg : Config) (sys : Sys K) (rand : Nat → Nat)
    (s : State K) (htype : s.type = m_trunc) (hfm : 1 ≤ s.file_max / cfg.csize) :
    (domisc cfg sys rand s).All
      (fun s' => s'.file_max = (rand s.nrand % (s.file_max / cfg.csize)) * cfg.csize) ∧
    (domisc cfg sys rand s).AllOk
      (fun s' => ∀ j, rand s.nrand % (s.file_max / cfg.csize) ≤ j → j < cfg.nchunks →
        test_bit s'.bits j = false) ∧
    (TruncCallOk cfg sys rand s → ∃ s', domisc cfg sys rand s = .ok s') := by
  by_cases hcall : TruncCallOk cfg sys rand s
  · obtain ⟨s1, h1, hmax, hbits, -⟩ := domisc_trunc_ok cfg sys rand s htype hfm hcall
    rw [h1]
    refine ⟨hmax, ?_, fun _ => ⟨s1, rfl⟩⟩
    intro j hj hn
    rw [hbits]
    exact test_bit_clear_from_ge _ _ _ _ hj hn
  · obtain ⟨e, s1, h1, hmax, -⟩ := domisc_trunc_exit cfg sys rand s htype hfm hcall
    rw [h1]
    exact ⟨hmax, trivial, fun h => absurd h hcall⟩

/-- Claim C2 (frame of the truncation). In the truncate case of `domisc` with chosen chunk
`c`, every bit `j < c` tests after the case as it did before, also when it shares its byte
with `c`, and whether the case returns or ends the process; the case returns whenever the
truncation call succeeds. -/
theorem C2_truncate_keeps_lower_bits {K : Type} (cfg : Config) (sys : Sys K)
    (rand : Nat → Nat) (s : State K) (htype : s.type = m_trunc)
    (hfm : 1 ≤ s.file_max / cfg.csize) :
    (domisc cfg sys rand s).All
      (fun s' => ∀ j, j < rand s.nrand % (s.file_max / cfg.csize) →
        test_bit s'.bits j = test_bit s.bits j) ∧
    (TruncCallOk cfg sys rand s → ∃ s', domisc cfg sys rand s = .ok s') := by
  by_cases hcall : TruncCallOk cfg sys rand s
  · obtain ⟨s1, h1, -, hbits, -⟩ := domisc_trunc_ok cfg sys rand s htype hfm hcall
    rw [h1]
    refine ⟨?_, fun _ => ⟨s1, rfl⟩⟩
    intro j hj
    rw [hbits]
    exact test_bit_clear_from_lt _ _ _ _ hj
  · obtain ⟨e, s1, h1, -, hbits⟩ := domisc_trunc_exit cfg sys rand s htype hfm hcall
    rw [h1]
    refine ⟨?_, fun h => absurd h hcall⟩
    intro j _
    rw [hbits]

theorem scenario_C_call_ok : TruncCallOk setup ideal (fun _ => 5) scenario_C :=
  ⟨fun _ => by decide, fun _ => by decide⟩

theorem C1_witness :
    (∃ s', domisc setup ideal (fun _ => 5) scenario_C = .ok s') ∧
    (domisc setup ideal (fun _ => 5) scenario_C).All
      (fun s' => s'.file_max = (5 % (scenario_C.file_max / setup.csize)) * setup.csize) ∧
    (domisc setup ideal (fun _ => 5) scenario_C).AllOk
      (fun s' => ∀ j, 5 % (scenario_C.file_max / setup.csize) ≤ j → j < setup.nchunks →
        test_bit s'.bits j = false) :=
  have h := C1_truncate_clears_state setup ideal (fun _ => 5) scenario_C rfl (by decide)
  ⟨h.2.2 scenario_C_call_ok, h.1, h.2.1⟩

theorem C2_witness :
    (∃ s', domisc setup ideal (fun _ => 5) scenario_C = .ok s') ∧
    (domisc setup ideal (fun _ => 5) scenario_C).All
      (fun s' => ∀ j, j < 5 % (scenario_C.file_max / setup.csize) →
        test_bit s'.bits j = test_bit scenario_C.bits j) :=
  have h := C2_truncate_keeps_lower_bits setup ideal (fun _ => 5) scenario_C rfl (by decide)
  ⟨h.2 scenario_C_call_ok, h.1⟩

/-! ## Results and invariants -/

theorem Res.All.bind {σ : Type} {P : σ → Prop} {r : Res σ} {f : σ → Res σ}
    (h : r.All P) (hf : ∀ s, P s → (f s).All P) : (r.bind f).All P := by
  cases r with
  | ok s => exact hf s h
  | exit e s => exact h
  | out_of_fuel => trivial

theorem Res.All.mono {σ : Type} {P Q : σ → Prop} {r : Res σ} (h : r.All P)
    (hpq : ∀ s, P s → Q s) : r.All Q := by
  cases r with
  | ok s => exact hpq s h
  | exit e s => exact hpq s h
  | out_of_fuel => trivial

theorem Res.AllOk.step {σ : Type} {P Q : σ → Prop} {r : Res σ} {f : σ → Res σ}
    (h : r.AllOk P) (hf : ∀ s, P s → (f s).AllOk Q) : (r.bind f).AllOk Q := by
  cases r with
  | ok s => exact hf s h
  | exit e s => trivial
  | out_of_fuel => trivial

theorem Res.AllOk.of_eq {σ : Type} {P : σ → Prop} {r : Res σ} {s : σ} (h : r.AllOk P)
    (hr : r = .ok s) : P s := by
  subst hr
  exact h

theorem Res.AllOk.weaken {σ : Type} {P Q : σ → Prop} {r : Res σ} (h : r.AllOk P)
    (hpq : ∀ s, P s → Q s) : r.AllOk Q := by
  cases r with
  | ok s => exact hpq s h
  | exit e s => trivial
  | out_of_fuel => trivial

theorem Res.All.of_state {σ : Type} {P : σ → Prop} {r : Res σ} {s : σ} (h : r.All P)
    (hr : r.state? = some s) : P s := by
  cases r with
  | ok s1 => simp only [Res.state?, Option.some.injEq] at hr; subst hr; exact h
  | exit e s1 => simp only [Res.state?, Option.some.injEq] at hr; subst hr; exact h
  | out_of_fuel => simp [Res.state?] at hr

/-- An invariant of the pieces of a pass is an invariant of the inner loop. -/
theorem chunk_loop_all {K : Type} (cfg : Config) (sys : Sys K) (rand : Nat → Nat)
    (P : State K → Prop)
    (hpass : ∀ s, P s → s.count < cfg.nchunks → (pass cfg sys rand s).All P)
    (fuel : Nat) (s : State K) (hs : P s) : (chunk_loop cfg sys rand fuel s).All P := by
  induction fuel generalizing s with
  | zero =>
    unfold chunk_loop
    split
    · trivial
    · exact hs
  | succ f ih =>
    unfold chunk_loop
    split
    · rename_i hc
      have hp := hpass s hs hc
      split
      · rename_i s1 heq
        rw [heq] at hp
        split
        · exact hp
        · exact ih s1 hp
      · exact hp
    · exact hs

/-- An invariant of the pieces of an iteration is an invariant of the outer loop. -/
theorem iterate_all {K : Type} (cfg : Config) (sys : Sys K) (rand : Nat → Nat)
    (P : State K → Prop)
    (hinit : ∀ s, P s → P (iter_init cfg sys s))
    (hpass : ∀ s, P s → s.count < cfg.nchunks → (pass cfg sys rand s).All P)
    (hend : ∀ s, P s → P (iter_end sys s))
    (n : Nat) (s : State K) (hs : P s) : (iterate cfg sys rand n s).All P := by
  induction n generalizing s with
  | zero => exact hs
  | succ n ih =>
    unfold iterate iteration
    apply Res.All.bind
    · apply Res.All.bind
      · exact chunk_loop_all cfg sys rand P hpass _ _ (hinit s hs)
      · intro s1 h1
        exact hend s1 h1
    · intro s1 h1
      exact ih s1 h1

/-! ## Counting passes -/

section Passes

variable {K : Type} (cfg : Config) (sys : Sys K) (rand : Nat → Nat)

theorem read_it_picks (s : State K) :
    (read_it cfg sys rand s).All (fun s' => picks s'.trace = picks s.trace + 1) := by
  unfold read_it
  simp only
  split_ifs <;> simp [Res.All, picks]

theorem verify_it_picks (s : State K) :
    (verify_it cfg s).All (fun s' => picks s'.trace = picks s.trace) := by
  unfold verify_it
  simp only
  split_ifs <;> simp [Res.All, picks]

theorem write_it_picks (s : State K) :
    (write_it cfg sys s).All (fun s' => picks s'.trace = picks s.trace) := by
  unfold write_it
  simp only
  split_ifs <;> simp [Res.All, picks]

theorem domisc_picks (s : State K) :
    (domisc cfg sys rand s).All (fun s' => picks s'.trace = picks s.trace) := by
  unfold domisc misc_switch wrap_type fsync_case trunc_case fstat_case next_type
  simp only
  split_ifs <;> simp [Res.All, Res.bind, picks]

theorem misc_it_picks (s : State K) :
    (misc_it cfg sys rand s).All (fun s' => picks s'.trace = picks s.trace) := by
  unfold misc_it
  simp only
  split_ifs
  · have h := domisc_picks cfg sys rand
      { s with whenmisc := s.whenmisc - 1,
               hold_bits := ft_orbits s.hold_bits s.bits cfg.nbytes }
    revert h
    cases domisc cfg sys rand
      { s with whenmisc := s.whenmisc - 1,
               hold_bits := ft_orbits s.hold_bits s.bits cfg.nbytes } <;>
      simp [Res.All, Res.bind]
  · simp [Res.All]
  · simp [Res.All]

theorem pass_picks (s : State K) :
    (pass cfg sys rand s).All (fun s' => picks s'.trace = picks s.trace + 1) := by
  unfold pass pass_body
  apply Res.All.bind
  · apply Res.All.bind
    · apply Res.All.bind (read_it_picks cfg sys rand s)
      intro s1 h1
      exact (verify_it_picks cfg s1).mono fun s2 h2 => by rw [h2, h1]
    · intro s1 h1
      exact (write_it_picks cfg sys s1).mono fun s2 h2 => by rw [h2, h1]
  · intro s1 h1
    exact (misc_it_picks cfg sys rand s1).mono fun s2 h2 => by rw [h2, h1]

/-! ### The sum `count + collide` -/

theorem read_it_sum (s : State K) :
    (read_it cfg sys rand s).AllOk
      (fun s' => s'.count = s.count ∧ s'.collide = s.collide) := by
  unfold read_it
  simp only
  split_ifs <;> simp [Res.AllOk]

theorem verify_it_sum (s : State K) :
    (verify_it cfg s).AllOk
      (fun s' => s'.count + s'.collide = s.count + s.collide + 1) := by
  unfold verify_it
  simp only
  split_ifs <;> simp [Res.AllOk] <;> omega

theorem write_it_sum (s : State K) :
    (write_it cfg sys s).AllOk
      (fun s' => s'.count = s.count ∧ s'.collide = s.collide) := by
  unfold write_it
  simp only
  split_ifs <;> simp [Res.AllOk]

theorem domisc_sum (s : State K) :
    (domisc cfg sys rand s).AllOk
      (fun s' => s'.count = s.count ∧ s'.collide = s.collide) := by
  unfold domisc misc_switch wrap_type fsync_case trunc_case fstat_case next_type
  simp only
  split_ifs <;> simp [Res.AllOk, Res.bind]

theorem misc_it_sum (s : State K) :
    (misc_it cfg sys rand s).AllOk
      (fun s' => s'.count = s.count ∧ s'.collide = s.collide) := by
  unfold misc_it
  simp only
  split_ifs
  · have h := domisc_sum cfg sys rand
      { s with whenmisc := s.whenmisc - 1,
               hold_bits := ft_orbits s.hold_bits s.bits cfg.nbytes }
    revert h
    cases domisc cfg sys rand
      { s with whenmisc := s.whenmisc - 1,
               hold_bits := ft_orbits s.hold_bits s.bits cfg.nbytes } <;>
      simp [Res.AllOk, Res.bind]
  · simp [Res.AllOk]
  · simp [Res.AllOk]

/-- A pass that does not abort adds exactly one to `count + collide`. -/
theorem pass_sum (s : State K) :
    (pass cfg sys rand s).AllOk
      (fun s' => s'.count + s'.collide = s.count + s.collide + 1) := by
  unfold pass pass_body
  apply Res.AllOk.step (P := fun s' => s'.count + s'.collide = s.count + s.collide + 1)
  · apply Res.AllOk.step (P := fun s' => s'.count + s'.collide = s.count + s.collide + 1)
    · apply Res.AllOk.step (read_it_sum cfg sys rand s)
      intro s1 h1
      have := verify_it_sum cfg s1
      revert this
      cases verify_it cfg s1 <;> simp [Res.AllOk]
      omega
    · intro s1 h1
      have := write_it_sum cfg sys s1
      revert this
      cases write_it cfg sys s1 <;> simp [Res.AllOk]
      omega
  · intro s1 h1
    have := misc_it_sum cfg sys rand s1
    revert this
    cases misc_it cfg sys rand s1 <;> simp [Res.AllOk]
    omega

theorem bind_ne_fuel {σ : Type} (r : Res σ) (f : σ → Res σ) (hr : r ≠ .out_of_fuel)
    (hf : ∀ s, f s ≠ .out_of_fuel) : r.bind f ≠ .out_of_fuel := by
  cases r with
  | ok s => exact hf s
  | exit e s => simp [Res.bind]
  | out_of_fuel => exact absurd rfl hr

theorem domisc_ne_fuel (s : State K) : domisc cfg sys rand s ≠ .out_of_fuel := by
  unfold domisc
  apply bind_ne_fuel
  · unfold misc_switch fsync_case trunc_case fstat_case
    simp only
    split_ifs <;> simp
  · intro s1
    simp

/-- A pass has no loop of its own: it never runs out of passes. -/
theorem pass_ne_fuel (s : State K) : pass cfg sys rand s ≠ .out_of_fuel := by
  unfold pass pass_body
  apply bind_ne_fuel
  · apply bind_ne_fuel
    · apply bind_ne_fuel
      · unfold read_it
        simp only
        split_ifs <;> simp
      · intro s1
        unfold verify_it
        simp only
        split_ifs <;> simp
    · intro s1
      unfold write_it
      simp only
      split_ifs <;> simp
  · intro s1
    unfold misc_it
    simp only
    split_ifs
    · apply bind_ne_fuel
      · exact domisc_ne_fuel cfg sys rand _
      · intro s2
        simp
    · simp
    · simp

/-- The inner loop, entered with `count + collide ≤ 2 * nchunks` and given at least
`2 * nchunks + 1 - (count + collide)` passes, does not run out of them, and begins at most
that many passes. -/
theorem chunk_loop_bound (fuel : Nat) (s : State K)
    (hs : s.count + s.collide ≤ 2 * cfg.nchunks)
    (hfuel : 2 * cfg.nchunks + 1 ≤ fuel + (s.count + s.collide)) :
    chunk_loop cfg sys rand fuel s ≠ .out_of_fuel ∧
      (chunk_loop cfg sys rand fuel s).All
        (fun s' => picks s'.trace + (s.count + s.collide)
          ≤ picks s.trace + (2 * cfg.nchunks + 1)) := by
  induction fuel generalizing s with
  | zero => omega
  | succ f ih =>
    unfold chunk_loop
    by_cases hc : s.count < cfg.nchunks
    · rw [if_pos hc]
      have hp := pass_picks cfg sys rand s
      have hm := pass_sum cfg sys rand s
      cases hpass : pass cfg sys rand s with
      | ok s1 =>
        rw [hpass] at hp hm
        simp only [Res.All, Res.AllOk] at hp hm
        simp only
        split
        · refine ⟨by simp, ?_⟩
          simp only [Res.All]
          omega
        · rename_i hle
          obtain ⟨h1, h2⟩ := ih s1 (by omega) (by omega)
          refine ⟨h1, h2.mono ?_⟩
          intro s2 h
          omega
      | exit e s1 =>
        rw [hpass] at hp
        simp only [Res.All] at hp
        refine ⟨by simp, ?_⟩
        simp only [Res.All]
        omega
      | out_of_fuel => exact absurd hpass (pass_ne_fuel cfg sys rand s)
    · rw [if_neg hc]
      refine ⟨by simp, ?_⟩
      simp only [Res.All]
      omega

theorem iter_init_picks (s : State K) : picks (iter_init cfg sys s).trace = picks s.trace := rfl

/-- One iteration of the outer loop does not run out of passes and begins at most
`2 * nchunks + 1` of them. -/
theorem iteration_bound (s : State K) :
    iteration cfg sys rand s ≠ .out_of_fuel ∧
      (iteration cfg sys rand s).All
        (fun s' => picks s'.trace ≤ picks s.trace + (2 * cfg.nchunks + 1)) := by
  obtain ⟨h1, h2⟩ := chunk_loop_bound cfg sys rand (2 * cfg.nchunks + 1) (iter_init cfg sys s)
    (Nat.zero_le _) (Nat.le_add_right _ _)
  unfold iteration
  constructor
  · exact bind_ne_fuel _ _ h1 (fun s1 => by simp)
  · apply Res.All.bind
    · exact h2.mono fun s1 h => by
        rw [iter_init_picks] at h
        exact h
    · intro s1 h
      exact h

theorem iterate_bound (n : Nat) (s : State K) :
    iterate cfg sys rand n s ≠ .out_of_fuel ∧
      (iterate cfg sys rand n s).All
        (fun s' => picks s'.trace ≤ picks s.trace + n * (2 * cfg.nchunks + 1)) := by
  induction n generalizing s with
  | zero =>
    refine ⟨by simp [iterate], ?_⟩
    simp [iterate, Res.All]
  | succ n ih =>
    obtain ⟨h1, h2⟩ := iteration_bound cfg sys rand s
    unfold iterate
    cases hit : iteration cfg sys rand s with
    | ok s1 =>
      rw [hit] at h2
      simp only [Res.All] at h2
      obtain ⟨h3, h4⟩ := ih s1
      refine ⟨h3, h4.mono ?_⟩
      intro s2 h
      rw [Nat.succ_mul]
      omega
    | exit e s1 =>
      rw [hit] at h2
      simp only [Res.All] at h2
      refine ⟨by simp [Res.bind], ?_⟩
      simp only [Res.bind, Res.All]
      rw [Nat.succ_mul]
      omega
    | out_of_fuel => exact absurd hit h1

theorem dotest_bound (testers me : Nat) (k : K) :
    dotest cfg sys rand testers me k ≠ .out_of_fuel ∧
      (dotest cfg sys rand testers me k).All
        (fun s' => picks s'.trace ≤ cfg.iterations * (2 * cfg.nchunks + 1)) := by
  unfold dotest
  split
  · refine ⟨by simp, ?_⟩
    simp [Res.All, start, picks]
  · obtain ⟨h1, h2⟩ := iterate_bound cfg sys rand cfg.iterations
      (first_misc cfg rand (start cfg testers me k))
    refine ⟨h1, h2.mono ?_⟩
    intro s h
    have : picks (first_misc cfg rand (start cfg testers me k)).trace = 0 := by
      unfold first_misc
      split <;> rfl
    omega

/-- Claim C6 (termination). Whatever the random draws and whatever the system calls return,
a pass of the inner chunk loop that does not abort adds exactly one to `count + collide`;
one iteration of the outer loop, begun in any state `s0`, ends (by finishing or by
`tst_exit`) after at most `2 * nchunks + 1` passes; and the whole of `dotest` ends after at
most `iterations * (2 * nchunks + 1)` passes. The passes the model allots to the inner loop
are never used up. -/
theorem C6_worker_terminates (s s' s0 : State K) (testers me : Nat) (k : K)
    (hpass : pass cfg sys rand s = .ok s') :
    s'.count + s'.collide = s.count + s.collide + 1 ∧
    (iteration cfg sys rand s0 ≠ .out_of_fuel ∧
      (iteration cfg sys rand s0).All
        (fun t => picks t.trace ≤ picks s0.trace + (2 * cfg.nchunks + 1))) ∧
    (dotest cfg sys rand testers me k ≠ .out_of_fuel ∧
      (dotest cfg sys rand testers me k).All
        (fun t => picks t.trace ≤ cfg.iterations * (2 * cfg.nchunks + 1))) :=
  ⟨(pass_sum cfg sys rand s).of_eq hpass, iteration_bound cfg sys rand s0,
    dotest_bound cfg sys rand testers me k⟩

theorem C6_witness :
    tiny_one.count + tiny_one.collide = tiny_top.count + tiny_top.collide + 1 ∧
    (iteration tiny ideal tiny_rand (start tiny 5 0 File.empty) ≠ .out_of_fuel ∧
      (iteration tiny ideal tiny_rand (start tiny 5 0 File.empty)).All
        (fun t => picks t.trace
          ≤ picks (start tiny 5 0 File.empty).trace + (2 * tiny.nchunks + 1))) ∧
    (dotest tiny ideal tiny_rand 5 0 File.empty ≠ .out_of_fuel ∧
      (dotest tiny ideal tiny_rand 5 0 File.empty).All
        (fun t => picks t.trace ≤ tiny.iterations * (2 * tiny.nchunks + 1))) :=
  C6_worker_terminates tiny ideal tiny_rand tiny_top tiny_one (start tiny 5 0 File.empty)
    5 0 File.empty rfl

end Passes

/-! ## One pass: the virgin branch -/

section Pass

variable {K : Type} (cfg : Config) (sys : Sys K) (rand : Nat → Nat)

/-- When the seek and the read return without error, `read_it` reaches its end. -/
theorem read_it_ok (s : State K) (hseek : 0 ≤ (seek_res cfg sys rand s).2)
    (hread : 0 ≤ (read_res cfg sys rand s).2.1) :
    read_it cfg sys rand s = .ok (after_read cfg sys rand s) := by
  unfold read_it after_read
  unfold read_res seek_res picked at *
  simp only [not_lt.mpr hseek, not_lt.mpr hread, if_false]

theorem read_it_seek_fail (s : State K) (hseek : (seek_res cfg sys rand s).2 < 0) :
    read_it cfg sys rand s = .exit .lseek_read
      { s with chunk := picked cfg rand s, nrand := s.nrand + 1,
               trace := .pick (picked cfg rand s) :: s.trace,
               kern := (seek_res cfg sys rand s).1 } := by
  unfold read_it
  unfold seek_res picked at *
  simp only [hseek, if_true]

theorem read_it_read_fail (s : State K) (hseek : 0 ≤ (seek_res cfg sys rand s).2)
    (hread : (read_res cfg sys rand s).2.1 < 0) :
    read_it cfg sys rand s = .exit .readv
      { s with chunk := picked cfg rand s, nrand := s.nrand + 1,
               trace := .pick (picked cfg rand s) :: s.trace,
               kern := (read_res cfg sys rand s).1, xfr := (read_res cfg sys rand s).2.1,
               r_iovec := scatter s.r_iovec (read_res cfg sys rand s).2.2 } := by
  unfold read_it
  unfold read_res seek_res picked at *
  simp only [not_lt.mpr hseek, hread, if_true, if_false]

theorem verify_it_virgin (s : State K) (hvirgin : CHUNK cfg s.chunk ≥ s.file_max) :
    verify_it cfg s = .ok
      { s with bits := set_bit s.bits s.chunk, count := s.count + 1,
               trace := .virgin s.chunk :: s.trace } := by
  unfold verify_it
  rw [if_pos hvirgin]

theorem verify_it_short_zero (s : State K) (hnv : ¬ CHUNK cfg s.chunk ≥ s.file_max)
    (hclear : test_bit s.bits s.chunk = false) (hx : s.xfr ≠ (cfg.csize : Int)) :
    verify_it cfg s = .exit .zero_read s := by
  unfold verify_it
  rw [if_neg hnv, if_pos hclear, if_pos hx]

theorem verify_it_bad_zero (s : State K) (hnv : ¬ CHUNK cfg s.chunk ≥ s.file_max)
    (hclear : test_bit s.bits s.chunk = false) (hx : s.xfr = (cfg.csize : Int))
    (hdiff : iov_differ s.r_iovec s.zero_iovec = true) :
    verify_it cfg s = .exit .bad_zero
      { s with hold_bits := ft_orbits s.hold_bits s.bits cfg.nbytes } := by
  unfold verify_it
  rw [if_neg hnv, if_pos hclear, if_neg (not_not.mpr hx), if_pos hdiff]

theorem picked_lt (s : State K) (hloop : s.count < cfg.nchunks) :
    picked cfg rand s < cfg.nchunks :=
  Nat.mod_lt _ (by omega)

theorem byte_in_bitmap (n c : Nat) (h : c < n) : c / 8 < (n + 7) / 8 := by omega

/-- Claim C8 (virgin chunk). In a pass of the inner loop that picks a chunk with
`CHUNK(chunk) >= file_max`, whatever the read delivered and however many bytes it
transferred (the seek and the read not failing), the chunk is classified as virgin: the
checks are passed over, the chunk's bit is set and no other bit changes, `count` goes up by
one, `collide` stays, no system call is made after the read, and the pass goes on with the
write of that chunk; when the seek back and the write succeed the chunk is written. -/
theorem C8_virgin_chunk (s : State K) (hloop : s.count < cfg.nchunks)
    (hlen : s.bits.length = cfg.nbytes)
    (hvirgin : CHUNK cfg (picked cfg rand s) ≥ s.file_max)
    (hseek : 0 ≤ (seek_res cfg sys rand s).2) (hread : 0 ≤ (read_res cfg sys rand s).2.1) :
    ∃ s1 s2, read_it cfg sys rand s = .ok s1 ∧ verify_it cfg s1 = .ok s2 ∧
      s2.chunk = picked cfg rand s ∧
      test_bit s2.bits (picked cfg rand s) = true ∧
      (∀ j, j ≠ picked cfg rand s → test_bit s2.bits j = test_bit s.bits j) ∧
      s2.count = s.count + 1 ∧ s2.collide = s.collide ∧
      s2.kern = (read_res cfg sys rand s).1 ∧
      s2.trace = .virgin (picked cfg rand s) :: .pick (picked cfg rand s) :: s.trace ∧
      pass cfg sys rand s = (write_it cfg sys s2).bind (misc_it cfg sys rand) ∧
      (0 ≤ (sys.lseek s2.kern (-s2.xfr) 1).2 →
        (cfg.csize : Int) ≤
          (sys.writev (sys.lseek s2.kern (-s2.xfr) 1).1 s2.val_iovec.flatten).2.1 →
        ∃ s3, write_it cfg sys s2 = .ok s3 ∧ s3.bits = s2.bits ∧ s3.count = s2.count ∧
          s3.trace = .write (picked cfg rand s) :: s2.trace) := by
  have hrd := read_it_ok cfg sys rand s hseek hread
  have hin : picked cfg rand s / 8 < s.bits.length := by
    rw [hlen]
    exact byte_in_bitmap _ _ (picked_lt cfg rand s hloop)
  have hv := verify_it_virgin cfg (after_read cfg sys rand s) hvirgin
  refine ⟨_, _, hrd, hv, ?_, ?_, ?_, ?_, ?_, ?_, ?_, ?_, ?_⟩
  · rfl
  · show test_bit (set_bit s.bits (picked cfg rand s)) (picked cfg rand s) = true
    rw [test_bit_set_bit _ _ _ hin]
    simp
  · intro j hj
    show test_bit (set_bit s.bits (picked cfg rand s)) j = test_bit s.bits j
    rw [test_bit_set_bit _ _ _ hin]
    simp [hj]
  · rfl
  · rfl
  · rfl
  · rfl
  · unfold pass pass_body
    rw [hrd]
    simp only [Res.bind]
    rw [hv]
  · intro hback hwr
    unfold write_it
    simp only [not_lt.mpr hback, not_lt.mpr hwr, if_false]
    split <;> exact ⟨_, rfl, rfl, rfl, rfl⟩

theorem C8_witness :
    picked setup (fun _ => 20) scenario_B = 20 ∧ scenario_B.file_max = 0 ∧
    ∃ s1 s2, read_it setup ideal (fun _ => 20) scenario_B = .ok s1 ∧
      verify_it setup s1 = .ok s2 ∧ test_bit s2.bits 20 = true ∧
      s2.count = scenario_B.count + 1 ∧ s2.collide = scenario_B.collide ∧
      s2.trace = .virgin 20 :: .pick 20 :: scenario_B.trace := by
  obtain ⟨s1, s2, h1, h2, -, h4, -, h6, h7, -, h9, -⟩ :=
    C8_virgin_chunk setup ideal (fun _ => 20) scenario_B (by decide) (by decide) (by decide)
      (by decide) (by decide)
  exact ⟨by decide, rfl, s1, s2, h1, h2, h4, h6, h7, h9⟩

/-! ## One pass: the zero check -/

theorem scatter_lengths (r : List (List Nat)) (data : List Nat) :
    (scatter r data).map List.length = r.map List.length := by
  induction r generalizing data with
  | nil => rfl
  | cons buf rest ih =>
    simp only [scatter, List.map_cons, ih, List.length_append, List.length_take,
      List.length_drop]
    congr 1
    omega

/-- A read that fills the buffers exactly leaves in them, in order, the bytes delivered. -/
theorem scatter_flatten (r : List (List Nat)) (data : List Nat)
    (h : data.length = (r.map List.length).sum) : (scatter r data).flatten = data := by
  induction r generalizing data with
  | nil =>
    simp only [List.map_nil, List.sum_nil, List.length_eq_zero] at h
    simp [scatter, h]
  | cons buf rest ih =>
    simp only [List.map_cons, List.sum_cons] at h
    have h1 : buf.drop data.length = [] := List.drop_eq_nil_of_le (by omega)
    have h2 : (data.drop buf.length).length = (rest.map List.length).sum := by
      rw [List.length_drop]
      omega
    simp only [scatter, List.flatten_cons, h1, List.append_nil, ih _ h2, List.take_append_drop]

theorem memcmp_self_length (a b : List Nat) (hlen : b.length = a.length)
    (h : memcmp a b a.length = false) : a = b := by
  unfold memcmp at h
  have h2 : List.take a.length a = List.take a.length b := by simpa using h
  rw [List.take_length] at h2
  rw [h2]
  exact List.take_of_length_le (by omega)

/-- When the verification loop finds no difference, every byte of the read buffers is a byte
of a comparison buffer. -/
theorem iov_same_mem (r z : List (List Nat)) (m v : Nat)
    (hr : r.map List.length = List.replicate MAXIOVCNT m)
    (hz : z = List.replicate MAXIOVCNT (List.replicate m v))
    (h : iov_differ r z = false) : ∀ x ∈ r.flatten, x = v := by
  intro x hx
  obtain ⟨b, hb, hxb⟩ := List.mem_flatten.mp hx
  obtain ⟨i, hi, hbi⟩ := List.getElem_of_mem hb
  have hrl : r.length = MAXIOVCNT := by
    have := congrArg List.length hr
    simpa using this
  have hi16 : i < MAXIOVCNT := by omega
  unfold iov_differ at h
  rw [List.any_eq_false] at h
  have hm := h i (List.mem_range.mpr hi16)
  have hbl : b.length = m := by
    have h1 : (r.map List.length)[i]? = some b.length := by
      rw [List.getElem?_map, List.getElem?_eq_getElem hi, hbi]
      rfl
    rw [hr, List.getElem?_replicate, if_pos hi16] at h1
    exact (Option.some.inj h1).symm
  have hrd : r.getD i [] = b := by
    rw [List.getD_eq_getElem?_getD, List.getElem?_eq_getElem hi, hbi]
    rfl
  have hzd : z.getD i [] = List.replicate m v := by
    rw [hz, List.getD_eq_getElem?_getD, List.getElem?_replicate, if_pos hi16]
    rfl
  rw [hrd, hzd] at hm
  have hm2 : memcmp b (List.replicate m v) b.length = false := by simpa using hm
  have := memcmp_self_length b (List.replicate m v) (by simp [hbl]) hm2
  rw [this] at hxb
  exact List.eq_of_mem_replicate hxb

theorem shape_sum (r : List (List Nat)) (m : Nat)
    (hr : r.map List.length = List.replicate MAXIOVCNT m) :
    (r.map List.length).sum = MAXIOVCNT * m := by
  rw [hr, List.sum_replicate]
  rfl

theorem csize_split (cfg : Config) (hdiv : cfg.csize % MAXIOVCNT = 0) :
    MAXIOVCNT * (cfg.csize / MAXIOVCNT) = cfg.csize := by
  unfold MAXIOVCNT at *
  omega

/-- A full read with a non-zero byte in it makes the zero check find a difference. -/
theorem iov_differ_of_nonzero (s : State K) (data : List Nat)
    (hdiv : cfg.csize % MAXIOVCNT = 0) (hbuf : Buffers cfg s)
    (hlen : data.length = cfg.csize) (p : Nat) (hp : p < cfg.csize) (hnz : data.getD p 0 ≠ 0) :
    iov_differ (scatter s.r_iovec data) s.zero_iovec = true := by
  by_contra hcon
  have hfalse : iov_differ (scatter s.r_iovec data) s.zero_iovec = false := by
    simpa using hcon
  have hall := iov_same_mem (scatter s.r_iovec data) s.zero_iovec (cfg.csize / MAXIOVCNT) 0
    (by rw [scatter_lengths]; exact hbuf.1) hbuf.2 hfalse
  have hsum : data.length = (s.r_iovec.map List.length).sum := by
    rw [shape_sum _ _ hbuf.1, csize_split cfg hdiv, hlen]
  rw [scatter_flatten _ _ hsum] at hall
  have hpl : p < data.length := by omega
  apply hnz
  rw [List.getD_eq_getElem?_getD, List.getElem?_eq_getElem hpl]
  exact hall _ (List.getElem_mem hpl)

/-- Claim C7 (corrupted hole). With `csize` divisible by `MAXIOVCNT`, in a pass that picks a
chunk below `file_max` whose bit is clear, when the read transfers something else than
`csize` bytes, or transfers `csize` bytes of which one, at any position, is not zero, the
worker ends in that pass through `tst_exit`: the bitmap and `count` are as before the pass,
the chunk is not written (the last system call made is the seek or the read), and the
reason is one of the four that precede the write. -/
theorem C7_corrupt_hole_aborts (s : State K) (hdiv : cfg.csize % MAXIOVCNT = 0)
    (hbuf : Buffers cfg s)
    (hbelow : CHUNK cfg (picked cfg rand s) < s.file_max)
    (hclear : test_bit s.bits (picked cfg rand s) = false)
    (hbad : (read_res cfg sys rand s).2.1 ≠ (cfg.csize : Int) ∨
      ((read_res cfg sys rand s).2.2.length = cfg.csize ∧
        ∃ p, p < cfg.csize ∧ (read_res cfg sys rand s).2.2.getD p 0 ≠ 0)) :
    ∃ e s', pass cfg sys rand s = .exit e s' ∧
      s'.bits = s.bits ∧ s'.count = s.count ∧
      s'.trace = .pick (picked cfg rand s) :: s.trace ∧
      (s'.kern = (seek_res cfg sys rand s).1 ∨ s'.kern = (read_res cfg sys rand s).1) ∧
      (e = .lseek_read ∨ e = .readv ∨ e = .zero_read ∨ e = .bad_zero) ∧
      (0 ≤ (seek_res cfg sys rand s).2 → 0 ≤ (read_res cfg sys rand s).2.1 →
        e = .zero_read ∨ e = .bad_zero) := by
  by_cases hseek : (seek_res cfg sys rand s).2 < 0
  · have hp := congrArg (fun r => (r.bind (verify_it cfg)).bind (write_it cfg sys))
      (read_it_seek_fail cfg sys rand s hseek)
    have hp2 := congrArg (fun r => r.bind (misc_it cfg sys rand)) hp
    exact ⟨_, _, hp2, rfl, rfl, rfl, Or.inl rfl, Or.inl rfl, fun h => by omega⟩
  · by_cases hread : (read_res cfg sys rand s).2.1 < 0
    · have hp := congrArg (fun r => (r.bind (verify_it cfg)).bind (write_it cfg sys))
        (read_it_read_fail cfg sys rand s (not_lt.mp hseek) hread)
      have hp2 := congrArg (fun r => r.bind (misc_it cfg sys rand)) hp
      exact ⟨_, _, hp2, rfl, rfl, rfl, Or.inr rfl, Or.inr (Or.inl rfl), fun _ h => by omega⟩
    · have hrd := read_it_ok cfg sys rand s (not_lt.mp hseek) (not_lt.mp hread)
      have hnv : ¬ CHUNK cfg (picked cfg rand s) ≥ s.file_max := by omega
      have hpass : pass cfg sys rand s
          = ((verify_it cfg (after_read cfg sys rand s)).bind (write_it cfg sys)).bind
              (misc_it cfg sys rand) := by
        unfold pass pass_body
        rw [hrd]
        rfl
      by_cases hx : (read_res cfg sys rand s).2.1 ≠ (cfg.csize : Int)
      · rw [verify_it_short_zero cfg (after_read cfg sys rand s) hnv hclear hx] at hpass
        exact ⟨_, _, hpass, rfl, rfl, rfl, Or.inr rfl, Or.inr (Or.inr (Or.inl rfl)),
          fun _ _ => Or.inl rfl⟩
      · obtain ⟨hlen, p, hp, hnz⟩ := hbad.resolve_left hx
        have hdiff := iov_differ_of_nonzero cfg s _ hdiv hbuf hlen p hp hnz
        rw [verify_it_bad_zero cfg (after_read cfg sys rand s) hnv hclear (not_not.mp hx)
          hdiff] at hpass
        exact ⟨_, _, hpass, rfl, rfl, rfl, Or.inr rfl, Or.inr (Or.inr (Or.inr rfl)),
          fun _ _ => Or.inr rfl⟩

theorem scenario_D_buffers : Buffers tiny scenario_D := ⟨by decide, by decide⟩

theorem C7_witness :
    ∃ e s', pass tiny ideal (fun _ => 1) scenario_D = .exit e s' ∧
      s'.bits = scenario_D.bits ∧ s'.count = scenario_D.count ∧
      s'.trace = .pick (picked tiny (fun _ => 1) scenario_D) :: scenario_D.trace ∧
      (s'.kern = (seek_res tiny ideal (fun _ => 1) scenario_D).1 ∨
        s'.kern = (read_res tiny ideal (fun _ => 1) scenario_D).1) ∧
      (e = .lseek_read ∨ e = .readv ∨ e = .zero_read ∨ e = .bad_zero) ∧
      (0 ≤ (seek_res tiny ideal (fun _ => 1) scenario_D).2 →
        0 ≤ (read_res tiny ideal (fun _ => 1) scenario_D).2.1 →
        e = .zero_read ∨ e = .bad_zero) :=
  C7_corrupt_hole_aborts tiny ideal (fun _ => 1) scenario_D (by decide) scenario_D_buffers
    (by decide) (by decide) (Or.inr ⟨by decide, 7, by decide, by decide⟩)

end Pass

/-! ## The cursor of `domisc` -/

section CursorProofs

variable {K : Type} (cfg : Config) (sys : Sys K) (rand : Nat → Nat)

theorem cyc_cons (l : List Nat) (x : Nat)
    (h : l.reverse = (List.range l.length).map (· % 3)) (hx : x = l.length % 3) :
    (x :: l).reverse = (List.range (x :: l).length).map (· % 3) := by
  rw [List.reverse_cons, h, List.length_cons, List.range_succ, List.map_append, hx]
  rfl

theorem cursor_wrap (s : State K) (h : Cursor s) :
    Cursor (wrap_type s) ∧ (wrap_type s).type ≤ 2 ∧ (wrap_type s).trace = s.trace := by
  obtain ⟨h1, h2, h3⟩ := h
  unfold wrap_type m_fstat m_fsync
  split
  · refine ⟨⟨by simp, ?_, h3⟩, by simp, rfl⟩
    show 0 % 3 = _
    rw [← h2]
    have : s.type = 3 := by omega
    rw [this]
  · exact ⟨⟨h1, h2, h3⟩, by omega, rfl⟩

/-- Every invocation of `domisc` keeps the cursor in step with the history. -/
theorem domisc_cursor (s : State K) (h : Cursor s) : (domisc cfg sys rand s).All Cursor := by
  obtain ⟨⟨h1, h2, h3⟩, hle, -⟩ := cursor_wrap s h
  unfold domisc misc_switch
  generalize wrap_type s = w at h1 h2 h3 hle
  by_cases ht0 : w.type = m_fsync
  · rw [if_pos ht0]
    unfold m_fsync at ht0
    unfold fsync_case
    simp only
    split
    · exact ⟨h1, h2, h3⟩
    · simp only [Res.bind, Res.All, next_type, Cursor, misc_ops, List.length_cons]
      refine ⟨by omega, by omega, cyc_cons _ _ h3 ?_⟩
      unfold m_fsync
      omega
  · rw [if_neg ht0]
    unfold m_fsync at ht0
    by_cases ht1 : w.type = m_trunc
    · rw [if_pos ht1]
      unfold m_trunc at ht1
      unfold trunc_case
      simp only
      split_ifs
      · exact ⟨h1, h2, h3⟩
      · exact ⟨h1, h2, h3⟩
      · simp only [Res.bind, Res.All, next_type, Cursor, misc_ops, List.length_cons]
        refine ⟨by omega, by omega, cyc_cons _ _ h3 ?_⟩
        unfold m_trunc
        omega
      · exact ⟨h1, h2, h3⟩
      · simp only [Res.bind, Res.All, next_type, Cursor, misc_ops, List.length_cons]
        refine ⟨by omega, by omega, cyc_cons _ _ h3 ?_⟩
        unfold m_trunc
        omega
    · rw [if_neg ht1]
      unfold m_trunc at ht1
      unfold fstat_case
      simp only
      split_ifs
      · exact ⟨h1, h2, h3⟩
      · exact ⟨h1, h2, h3⟩
      · simp only [Res.bind, Res.All, next_type, Cursor, misc_ops, List.length_cons]
        refine ⟨by omega, by omega, cyc_cons _ _ h3 ?_⟩
        unfold m_fstat
        omega

theorem read_it_cursor (s : State K) (h : Cursor s) : (read_it cfg sys rand s).All Cursor := by
  unfold read_it
  simp only
  split_ifs <;> exact h

theorem verify_it_cursor (s : State K) (h : Cursor s) : (verify_it cfg s).All Cursor := by
  unfold verify_it
  simp only
  split_ifs <;> exact h

theorem write_it_cursor (s : State K) (h : Cursor s) : (write_it cfg sys s).All Cursor := by
  unfold write_it
  simp only
  split_ifs <;> exact h

theorem misc_it_cursor (s : State K) (h : Cursor s) : (misc_it cfg sys rand s).All Cursor := by
  unfold misc_it
  simp only
  split_ifs
  · exact Res.All.bind (domisc_cursor cfg sys rand _ h) fun s1 h1 => h1
  · exact h
  · exact h

theorem pass_cursor (s : State K) (h : Cursor s) : (pass cfg sys rand s).All Cursor := by
  unfold pass pass_body
  exact (((read_it_cursor cfg sys rand s h).bind (verify_it_cursor cfg)).bind
    (write_it_cursor cfg sys)).bind (misc_it_cursor cfg sys rand)

theorem dotest_cursor (testers me : Nat) (k : K) :
    (dotest cfg sys rand testers me k).All Cursor := by
  have hstart : Cursor (start cfg testers me k) :=
    ⟨show (0 : Nat) ≤ 3 by omega, rfl, rfl⟩
  unfold dotest
  split
  · exact hstart
  · apply iterate_all cfg sys rand Cursor (fun s h => h)
      (fun s h _ => pass_cursor cfg sys rand s h) (fun s h => h)
    unfold first_misc
    split <;> exact hstart

/-- An invocation of `domisc` that returns has performed the operation that the wrapped
cursor names, has added it to the history and has left the cursor one past it. -/
theorem domisc_performed (s s1 : State K) (h : domisc cfg sys rand s = .ok s1) :
    (wrap_type s).type ≤ m_fstat ∧ Performed cfg sys rand (wrap_type s).type s s1 ∧
      s1.type = (wrap_type s).type + 1 ∧
      misc_ops s1.trace = (wrap_type s).type :: misc_ops s.trace := by
  have hw : (wrap_type s).type ≤ m_fstat ∧ (wrap_type s).kern = s.kern ∧
      (wrap_type s).trace = s.trace ∧ (wrap_type s).file_max = s.file_max ∧
      (wrap_type s).bits = s.bits ∧ (wrap_type s).tr_flag = s.tr_flag ∧
      (wrap_type s).nrand = s.nrand := by
    unfold wrap_type m_fstat m_fsync
    split
    · exact ⟨by simp, rfl, rfl, rfl, rfl, rfl, rfl⟩
    · exact ⟨by omega, rfl, rfl, rfl, rfl, rfl, rfl⟩
  obtain ⟨w0, w1, w2, w3, w4, w5, w6⟩ := hw
  have htc : trunc_chunk cfg rand (wrap_type s) = trunc_chunk cfg rand s := by
    unfold trunc_chunk
    rw [w3, w6]
  unfold Performed
  rw [← w1, ← w2, ← w3, ← w4, ← w5, ← htc]
  unfold domisc misc_switch at h
  generalize wrap_type s = w at *
  refine ⟨w0, ?_⟩
  by_cases ht0 : w.type = m_fsync
  · rw [if_pos ht0] at h
    rw [if_pos ht0]
    unfold fsync_case at h
    simp only at h
    split_ifs at h with hf
    · simp [Res.bind] at h
    · simp only [Res.bind, Res.ok.injEq] at h
      subst h
      refine ⟨⟨rfl, by omega, rfl, rfl, rfl⟩, rfl, ?_⟩
      show m_fsync :: misc_ops w.trace = _
      rw [ht0]
  · rw [if_neg ht0] at h
    rw [if_neg ht0]
    by_cases ht1 : w.type = m_trunc
    · rw [if_pos ht1] at h
      rw [if_pos ht1]
      unfold trunc_case at h
      simp only at h
      split_ifs at h with h1 h2 h3 h4
      · simp [Res.bind] at h
      · simp [Res.bind] at h
      · simp only [Res.bind, Res.ok.injEq] at h
        subst h
        refine ⟨⟨rfl, ?_, ?_, rfl⟩, rfl, ?_⟩
        · rw [if_pos h2]
          rfl
        · rw [decide_eq_true h2]
          rfl
        · show m_trunc :: misc_ops w.trace = _
          rw [ht1]
      · simp [Res.bind] at h
      · simp only [Res.bind, Res.ok.injEq] at h
        subst h
        refine ⟨⟨rfl, ?_, ?_, rfl⟩, rfl, ?_⟩
        · rw [if_neg h2]
          rfl
        · rw [decide_eq_false h2]
          rfl
        · show m_trunc :: misc_ops w.trace = _
          rw [ht1]
    · rw [if_neg ht1] at h
      rw [if_neg ht1]
      have ht2 : w.type = m_fstat := by
        unfold m_fsync at ht0
        unfold m_trunc at ht1
        unfold m_fstat at w0 ⊢
        omega
      rw [if_pos ht2]
      unfold fstat_case at h
      simp only at h
      split_ifs at h with h1 h2
      · simp [Res.bind] at h
      · simp [Res.bind] at h
      · simp only [Res.bind, Res.ok.injEq] at h
        subst h
        refine ⟨⟨rfl, by simpa using h2, rfl, rfl, rfl⟩, rfl, ?_⟩
        show m_fstat :: misc_ops w.trace = _
        rw [ht2]

/-- Invocations of `domisc` that follow one another, from the initial cursor and with the
cursor left alone in between: the invocation number `n` performs operation `n mod 3`. -/
theorem domisc_sequence (n : Nat) (before after : Nat → State K)
    (h0 : (before 0).type = m_fsync)
    (hseq : ∀ j, j < n → domisc cfg sys rand (before j) = .ok (after j) ∧
      (before (j + 1)).type = (after j).type) :
    (wrap_type (before n)).type = n % 3 := by
  have key : ∀ t : State K, (wrap_type t).type = if t.type > 2 then 0 else t.type := by
    intro t
    unfold wrap_type m_fstat m_fsync
    split <;> rfl
  induction n with
  | zero =>
    rw [key, h0]
    rfl
  | succ n ih =>
    have ih1 := ih fun j hj => hseq j (by omega)
    obtain ⟨hd, ht⟩ := hseq n (by omega)
    obtain ⟨-, -, h3, -⟩ := domisc_performed cfg sys rand _ _ hd
    rw [ih1] at h3
    rw [key, ht, h3]
    split <;> omega

theorem read_it_ops (s : State K) :
    (read_it cfg sys rand s).AllOk (fun s1 =>
      misc_ops s1.trace = misc_ops s.trace ∧ s1.type = s.type) := by
  unfold read_it
  simp only
  split_ifs <;> simp [Res.AllOk, misc_ops]

theorem verify_it_ops (s : State K) :
    (verify_it cfg s).AllOk (fun s1 =>
      misc_ops s1.trace = misc_ops s.trace ∧ s1.type = s.type) := by
  unfold verify_it
  simp only
  split_ifs <;> simp [Res.AllOk, misc_ops]

theorem write_it_ops (s : State K) :
    (write_it cfg sys s).AllOk (fun s1 =>
      misc_ops s1.trace = misc_ops s.trace ∧ s1.type = s.type) := by
  unfold write_it
  simp only
  split_ifs <;> simp [Res.AllOk, misc_ops]

/-- The body of a pass performs no operation of `domisc` and leaves the cursor alone. -/
theorem pass_body_ops (s : State K) :
    (pass_body cfg sys rand s).AllOk (fun s1 =>
      misc_ops s1.trace = misc_ops s.trace ∧ s1.type = s.type) := by
  unfold pass_body
  apply Res.AllOk.step
    (P := fun s2 => misc_ops s2.trace = misc_ops s.trace ∧ s2.type = s.type)
  · apply Res.AllOk.step (read_it_ops cfg sys rand s)
    intro s1 h1
    exact (verify_it_ops cfg s1).weaken fun s2 h2 => ⟨h2.1.trans h1.1, h2.2.trans h1.2⟩
  · intro s2 h2
    exact (write_it_ops cfg sys s2).weaken fun s3 h3 => ⟨h3.1.trans h2.1, h3.2.trans h2.2⟩

/-- The perturbation step of a pass either leaves the history and the cursor alone or
invokes `domisc` once, in the state `misc_entry`, and adds nothing to what `domisc` did. -/
theorem misc_it_ops (s1 s3 : State K) (h : misc_it cfg sys rand s1 = .ok s3) :
    (s3.trace = s1.trace ∧ s3.type = s1.type) ∨
      ∃ s2, domisc cfg sys rand (misc_entry cfg s1) = .ok s2 ∧ s3.trace = s2.trace ∧
        s3.type = s2.type := by
  unfold misc_it at h
  simp only at h
  split_ifs at h
  · right
    change (domisc cfg sys rand (misc_entry cfg s1)).bind _ = _ at h
    cases hd : domisc cfg sys rand (misc_entry cfg s1) with
    | ok s2 =>
      rw [hd] at h
      simp only [Res.bind, Res.ok.injEq] at h
      subst h
      exact ⟨s2, rfl, rfl, rfl⟩
    | exit e s2 => rw [hd] at h; simp [Res.bind] at h
    | out_of_fuel => rw [hd] at h; simp [Res.bind] at h
  · left
    cases h
    exact ⟨rfl, rfl⟩
  · left
    cases h
    exact ⟨rfl, rfl⟩

/-- At every pass boundary the cursor is in step with the history. -/
theorem reach_cursor (testers me : Nat) (k : K) (s : State K)
    (h : Reach cfg sys rand testers me k s) : Cursor s := by
  induction h with
  | first _ _ =>
    have hstart : Cursor (start cfg testers me k) :=
      ⟨show (0 : Nat) ≤ 3 by omega, rfl, rfl⟩
    show Cursor (first_misc cfg rand (start cfg testers me k))
    unfold first_misc
    split <;> exact hstart
  | pass _ _ _ hpass ih =>
    exact (pass_cursor cfg sys rand _ ih).of_state (by rw [hpass]; rfl)
  | next _ _ ih => exact ih

/-- Claim C9 (cyclic perturbation cursor). From the initial cursor `m_fsync`, the `n`-th
invocation of `domisc` that returns (`n = 0, 1, 2, ...`) performs flush when `n mod 3 = 0`,
truncate when `n mod 3 = 1` and the stat check when `n mod 3 = 2`, also across the iteration
boundaries of the worker. In turn: (1) the operations in the history of a whole run of
`dotest`, oldest first, are `0, 1, 2, 0, 1, 2, ...` of `enum m_type`, whatever the draws and
the system calls and whether the worker finishes or aborts; (2) for invocations that follow
one another from a state with the cursor on `m_fsync`, with the cursor left alone in
between, the invocation number `n`, if it returns, has performed operation `n mod 3` on the
kernel and the state and has left the cursor one past it; (3) in a run of `dotest`, an
invocation of `domisc` that returns, made when `n` operations are in the history, has
performed operation `n mod 3` and has added it, and nothing else, to the history; (4) the
history counts the invocations that returned and nothing but `domisc` moves the cursor: the
body of a pass adds no operation and leaves the cursor, the perturbation step either leaves
both or invokes `domisc` once and adds nothing to what it did, and the end of an iteration
with the top of the next adds no operation and leaves the cursor. -/
theorem C9_misc_cycle (testers me : Nat) (k : K) :
    (misc_ops (dotest cfg sys rand testers me k).trace).reverse
      = (List.range (misc_ops (dotest cfg sys rand testers me k).trace).length).map
          (fun i => i % 3) ∧
    m_fsync = 0 ∧ m_trunc = 1 ∧ m_fstat = 2 ∧
    (∀ (n : Nat) (before after : Nat → State K), (before 0).type = m_fsync →
      (∀ j, j < n → domisc cfg sys rand (before j) = .ok (after j) ∧
        (before (j + 1)).type = (after j).type) →
      ∀ s1, domisc cfg sys rand (before n) = .ok s1 →
        Performed cfg sys rand (n % 3) (before n) s1 ∧ s1.type = n % 3 + 1) ∧
    (∀ s s1 s2, Reach cfg sys rand testers me k s → s.count < cfg.nchunks →
      pass_body cfg sys rand s = .ok s1 →
      domisc cfg sys rand (misc_entry cfg s1) = .ok s2 →
        Performed cfg sys rand ((misc_ops s1.trace).length % 3) (misc_entry cfg s1) s2 ∧
        misc_ops s2.trace = (misc_ops s1.trace).length % 3 :: misc_ops s1.trace) ∧
    (∀ s s1, pass_body cfg sys rand s = .ok s1 →
      misc_ops s1.trace = misc_ops s.trace ∧ s1.type = s.type) ∧
    (∀ s1 s3, misc_it cfg sys rand s1 = .ok s3 →
      (s3.trace = s1.trace ∧ s3.type = s1.type) ∨
        ∃ s2, domisc cfg sys rand (misc_entry cfg s1) = .ok s2 ∧ s3.trace = s2.trace ∧
          s3.type = s2.type) ∧
    (∀ s : State K, misc_ops (iter_init cfg sys (iter_end sys s)).trace = misc_ops s.trace ∧
      (iter_init cfg sys (iter_end sys s)).type = s.type) := by
  refine ⟨?_, rfl, rfl, rfl, ?_, ?_, ?_, misc_it_ops cfg sys rand, fun s => ⟨rfl, rfl⟩⟩
  · have h := dotest_cursor cfg sys rand testers me k
    cases hr : dotest cfg sys rand testers me k with
    | ok s =>
      rw [hr] at h
      exact h.2.2
    | exit e s =>
      rw [hr] at h
      exact h.2.2
    | out_of_fuel => rfl
  · intro n before after h0 hseq s1 hd
    obtain ⟨-, h2, h3, -⟩ := domisc_performed cfg sys rand _ _ hd
    rw [domisc_sequence cfg sys rand n before after h0 hseq] at h2 h3
    exact ⟨h2, h3⟩
  · intro s s1 s2 hr hloop hb hd
    have hc : Cursor s := reach_cursor cfg sys rand testers me k s hr
    have hc1 : Cursor s1 := by
      have := ((read_it_cursor cfg sys rand s hc).bind (verify_it_cursor cfg)).bind
        (write_it_cursor cfg sys)
      exact this.of_state (by unfold pass_body at hb; rw [hb]; rfl)
    have hce : Cursor (misc_entry cfg s1) := hc1
    obtain ⟨⟨-, w2, -⟩, wle, wtr⟩ := cursor_wrap (misc_entry cfg s1) hce
    have hty : (wrap_type (misc_entry cfg s1)).type = (misc_ops s1.trace).length % 3 := by
      rw [wtr] at w2
      have : (misc_ops (misc_entry cfg s1).trace) = misc_ops s1.trace := rfl
      rw [this] at w2
      omega
    obtain ⟨-, h2, -, h4⟩ := domisc_performed cfg sys rand _ _ hd
    rw [hty] at h2 h4
    exact ⟨h2, h4⟩
  · intro s s1 hb
    exact (pass_body_ops cfg sys rand s).of_eq hb

end CursorProofs

theorem C9_witness :
    (misc_ops (dotest cyclic ideal leaky_rand 1 0 File.empty).trace).reverse = [0, 1, 2, 0] ∧
    Performed tiny ideal tiny_rand m_trunc
      ((domisc tiny ideal tiny_rand tiny_body).get tiny_body)
      ((domisc tiny ideal tiny_rand ((domisc tiny ideal tiny_rand tiny_body).get tiny_body)).get
        tiny_body) :=
  have h := C9_misc_cycle cyclic ideal leaky_rand 1 0 File.empty
  have g := C9_misc_cycle tiny ideal tiny_rand 5 0 File.empty
  ⟨h.1.trans (by decide),
    (g.2.2.2.2.1 1
      (fun j => if j = 0 then tiny_body else (domisc tiny ideal tiny_rand tiny_body).get tiny_body)
      (fun _ => (domisc tiny ideal tiny_rand tiny_body).get tiny_body) rfl
      (fun j hj => by
        have : j = 0 := by omega
        subst this
        exact ⟨rfl, rfl⟩)
      _ rfl).1⟩

/-! ## The pass boundaries and the loops of `dotest` -/

section Link

variable {K : Type} (cfg : Config) (sys : Sys K) (rand : Nat → Nat)

/-- The inner loop, begun at a pass boundary, ends at a pass boundary at which the loop test
or the `break` test stops it. -/
theorem chunk_loop_reach (testers me : Nat) (k : K) (fuel : Nat) (s s' : State K)
    (h : Reach cfg sys rand testers me k s) (hsum : s.count + s.collide ≤ 2 * cfg.nchunks)
    (hrun : chunk_loop cfg sys rand fuel s = .ok s') :
    Reach cfg sys rand testers me k s' ∧
      (cfg.nchunks ≤ s'.count ∨ 2 * cfg.nchunks < s'.count + s'.collide) := by
  induction fuel generalizing s with
  | zero =>
    unfold chunk_loop at hrun
    split at hrun
    · simp at hrun
    · cases hrun
      exact ⟨h, Or.inl (by omega)⟩
  | succ f ih =>
    unfold chunk_loop at hrun
    by_cases hloop : s.count < cfg.nchunks
    · rw [if_pos hloop] at hrun
      cases hp : pass cfg sys rand s with
      | ok s1 =>
        rw [hp] at hrun
        simp only at hrun
        have hr1 := Reach.pass h hloop hsum hp
        split at hrun
        · cases hrun
          rename_i hbreak
          exact ⟨hr1, Or.inr hbreak⟩
        · exact ih s1 hr1 (by omega) hrun
      | exit e s1 =>
        rw [hp] at hrun
        simp at hrun
      | out_of_fuel =>
        rw [hp] at hrun
        simp at hrun
    · rw [if_neg hloop] at hrun
      cases hrun
      exact ⟨h, Or.inl (by omega)⟩

/-- The outer loop, begun where the top of its first iteration is a pass boundary, ends in
the state that the end of an iteration makes of a pass boundary at which the inner loop
stopped. -/
theorem iterate_reach (testers me : Nat) (k : K) (n : Nat) (s0 s' : State K)
    (h : Reach cfg sys rand testers me k (iter_init cfg sys s0))
    (hrun : iterate cfg sys rand (n + 1) s0 = .ok s') :
    ∃ s, Reach cfg sys rand testers me k s ∧
      (cfg.nchunks ≤ s.count ∨ 2 * cfg.nchunks < s.count + s.collide) ∧
      s' = iter_end sys s := by
  induction n generalizing s0 with
  | zero =>
    unfold iterate iteration at hrun
    cases hl : chunk_loop cfg sys rand (2 * cfg.nchunks + 1) (iter_init cfg sys s0) with
    | ok s1 =>
      rw [hl] at hrun
      obtain ⟨hr, hend⟩ := chunk_loop_reach cfg sys rand testers me k _ _ s1 h
        (Nat.zero_le _) hl
      simp only [Res.bind, iterate] at hrun
      cases hrun
      exact ⟨s1, hr, hend, rfl⟩
    | exit e s1 => rw [hl] at hrun; simp [Res.bind] at hrun
    | out_of_fuel => rw [hl] at hrun; simp [Res.bind] at hrun
  | succ n ih =>
    unfold iterate iteration at hrun
    cases hl : chunk_loop cfg sys rand (2 * cfg.nchunks + 1) (iter_init cfg sys s0) with
    | ok s1 =>
      rw [hl] at hrun
      obtain ⟨hr, hend⟩ := chunk_loop_reach cfg sys rand testers me k _ _ s1 h
        (Nat.zero_le _) hl
      simp only [Res.bind] at hrun
      exact ih (iter_end sys s1) (Reach.next hr hend) hrun
    | exit e s1 => rw [hl] at hrun; simp [Res.bind] at hrun
    | out_of_fuel => rw [hl] at hrun; simp [Res.bind] at hrun

/-- A run of `dotest` of at least one iteration that reaches its end does so from a pass
boundary: what is proved of every pass boundary holds of the last state of the inner loop
of the last iteration. -/
theorem dotest_reach (testers me : Nat) (k : K) (s' : State K) (hit : cfg.iterations ≠ 0)
    (hrun : dotest cfg sys rand testers me k = .ok s') :
    ∃ s, Reach cfg sys rand testers me k s ∧
      (cfg.nchunks ≤ s.count ∨ 2 * cfg.nchunks < s.count + s.collide) ∧
      s' = iter_end sys s := by
  unfold dotest at hrun
  split at hrun
  · simp at hrun
  · rename_i hc
    have hcs : cfg.csize ≠ 0 := fun h0 => hc (Or.inl h0)
    have ht : testers ≠ 0 := fun h0 => hc (Or.inr h0)
    obtain ⟨n, hn⟩ := Nat.exists_eq_succ_of_ne_zero hit
    rw [hn] at hrun
    exact iterate_reach cfg sys rand testers me k n _ s' (Reach.first hcs ht) hrun

end Link

/-! ## The bitmap and the history -/

section History

variable {K : Type} (cfg : Config) (sys : Sys K) (rand : Nat → Nat)

theorem test_bit_replicate_zero (n j : Nat) : test_bit (List.replicate n 0) j = false := by
  rw [test_bit_eq_raw]
  unfold raw
  rw [List.getD_eq_getElem?_getD, List.getElem?_replicate]
  split <;> simp

theorem iter_init_agree (s : State K) : Agree cfg (iter_init cfg sys s) := by
  refine ⟨List.length_replicate _ _, ?_⟩
  intro i _
  show test_bit (List.replicate cfg.nbytes 0) i = false
  exact test_bit_replicate_zero _ _

theorem read_it_agree (s : State K) :
    (read_it cfg sys rand s).AllOk (fun s' =>
      s'.bits = s.bits ∧ s'.chunk = picked cfg rand s ∧
        ∀ i, live_written i s'.trace = live_written i s.trace) := by
  unfold read_it picked
  simp only
  split_ifs <;> simp [Res.AllOk, live_written]

theorem verify_it_agree (s : State K) (hin : s.chunk / 8 < s.bits.length) :
    (verify_it cfg s).AllOk (fun s' =>
      s'.bits.length = s.bits.length ∧ s'.chunk = s.chunk ∧
        (∀ i, test_bit s'.bits i = (test_bit s.bits i || decide (i = s.chunk))) ∧
        ∀ i, live_written i s'.trace = live_written i s.trace) := by
  unfold verify_it
  simp only
  split_ifs with h1 h2 h3 h4 h5 h6
  · exact ⟨length_set_bit _ _, rfl, fun i => test_bit_set_bit _ _ _ hin, fun i => rfl⟩
  · trivial
  · trivial
  · exact ⟨length_set_bit _ _, rfl, fun i => test_bit_set_bit _ _ _ hin, fun i => rfl⟩
  · trivial
  · trivial
  · refine ⟨rfl, rfl, ?_, fun i => rfl⟩
    intro i
    by_cases hi : i = s.chunk
    · subst hi
      simpa using h2
    · simp [hi]

theorem write_it_agree (s : State K) :
    (write_it cfg sys s).AllOk (fun s' =>
      s'.bits = s.bits ∧
        ∀ i, live_written i s'.trace = (decide (s.chunk = i) || live_written i s.trace)) := by
  unfold write_it
  simp only
  split_ifs <;> simp [Res.AllOk, live_written]

theorem domisc_agree (s : State K) (h : Agree cfg s) :
    (domisc cfg sys rand s).AllOk (Agree cfg) := by
  obtain ⟨hlen, hag⟩ := h
  have hw : (wrap_type s).bits = s.bits ∧ (wrap_type s).trace = s.trace := by
    unfold wrap_type
    split <;> exact ⟨rfl, rfl⟩
  unfold domisc misc_switch
  rw [← hw.1, ← hw.2] at hag
  rw [← hw.1] at hlen
  generalize wrap_type s = w at hlen hag
  split_ifs
  · unfold fsync_case
    simp only
    split_ifs
    · trivial
    · exact ⟨hlen, fun i hi => hag i hi⟩
  · unfold trunc_case
    simp only
    split_ifs
    · trivial
    · trivial
    · refine ⟨by simp only [Res.bind, next_type, clear_from_length]; exact hlen, ?_⟩
      intro i hi
      simp only [Res.bind, next_type, live_written]
      by_cases hc : rand w.nrand % (w.file_max / cfg.csize) ≤ i
      · rw [test_bit_clear_from_ge _ _ _ _ hc hi]
        simp [hc]
      · rw [test_bit_clear_from_lt _ _ _ _ (by omega), hag i hi]
        simp [hc]
    · trivial
    · refine ⟨by simp only [Res.bind, next_type, clear_from_length]; exact hlen, ?_⟩
      intro i hi
      simp only [Res.bind, next_type, live_written]
      by_cases hc : rand w.nrand % (w.file_max / cfg.csize) ≤ i
      · rw [test_bit_clear_from_ge _ _ _ _ hc hi]
        simp [hc]
      · rw [test_bit_clear_from_lt _ _ _ _ (by omega), hag i hi]
        simp [hc]
  · unfold fstat_case
    simp only
    split_ifs
    · trivial
    · trivial
    · exact ⟨hlen, fun i hi => hag i hi⟩

theorem misc_it_agree (s : State K) (h : Agree cfg s) :
    (misc_it cfg sys rand s).AllOk (Agree cfg) := by
  unfold misc_it
  simp only
  split_ifs
  · exact Res.AllOk.step (domisc_agree cfg sys rand _ h) fun s1 h1 => h1
  · exact h
  · exact h

/-- A completed pass begun inside the loop keeps the bitmap in agreement with the
history. -/
theorem pass_agree (s : State K) (h : Agree cfg s) (hloop : s.count < cfg.nchunks) :
    (pass cfg sys rand s).AllOk (Agree cfg) := by
  obtain ⟨hlen, hag⟩ := h
  unfold pass pass_body
  apply Res.AllOk.step (P := Agree cfg) _ (misc_it_agree cfg sys rand)
  apply Res.AllOk.step
    (P := fun s' => s'.bits.length = s.bits.length ∧ s'.chunk = picked cfg rand s ∧
      (∀ i, test_bit s'.bits i = (test_bit s.bits i || decide (i = picked cfg rand s))) ∧
      ∀ i, live_written i s'.trace = live_written i s.trace)
  · apply Res.AllOk.step (read_it_agree cfg sys rand s)
    intro s1 ⟨hb, hc, hl⟩
    have hin : s1.chunk / 8 < s1.bits.length := by
      rw [hb, hc, hlen]
      exact byte_in_bitmap _ _ (picked_lt cfg rand s hloop)
    have := verify_it_agree cfg s1 hin
    revert this
    cases verify_it cfg s1 with
    | ok s2 =>
      simp only [Res.AllOk]
      intro ⟨h1, h2, h3, h4⟩
      exact ⟨by rw [h1, hb], by rw [h2, hc], fun i => by rw [h3, hb, hc],
        fun i => by rw [h4, hl]⟩
    | exit e s2 => intro _; trivial
    | out_of_fuel => intro _; trivial
  · intro s2 ⟨h1, h2, h3, h4⟩
    have := write_it_agree cfg sys s2
    revert this
    cases write_it cfg sys s2 with
    | ok s3 =>
      simp only [Res.AllOk]
      intro ⟨hb, hl⟩
      refine ⟨by rw [hb, h1, hlen], ?_⟩
      intro i hi
      rw [hb, h3, hl, h4, hag i hi, h2, Bool.or_comm]
      congr 1
      exact decide_eq_decide.mpr ⟨fun h => h.symm, fun h => h.symm⟩
    | exit e s3 => intro _; trivial
    | out_of_fuel => intro _; trivial

theorem reach_agree (testers me : Nat) (k : K) (s : State K)
    (h : Reach cfg sys rand testers me k s) : Agree cfg s := by
  induction h with
  | first _ _ => exact iter_init_agree cfg sys _
  | pass _ hloop _ hpass ih => exact (pass_agree cfg sys rand _ ih hloop).of_eq hpass
  | next _ _ _ => exact iter_init_agree cfg sys _

/-- Claim C3 (write-bitmap invariant). At the end of every completed pass of the inner chunk
loop of `dotest` (and at the top of the loop in every iteration), for every chunk index
`i < nchunks`, bit `i` of the write-bitmap is set if and only if chunk `i` has been written
in the current iteration and no truncate perturbation with chosen chunk index `≤ i` has
occurred since its most recent write. -/
theorem C3_bitmap_tracks_writes (testers me : Nat) (k : K) (s : State K)
    (h : Reach cfg sys rand testers me k s) (i : Nat) (hi : i < cfg.nchunks) :
    test_bit s.bits i = live_written i s.trace :=
  (reach_agree cfg sys rand testers me k s h).2 i hi

end History

/-! ## The worker on the ideal file -/

section Ideal

theorem offset_lt_iff (cs i m o : Nat) (ho : o < cs) : i * cs + o < m * cs ↔ i < m := by
  constructor
  · intro h
    by_contra hc
    have : m * cs ≤ i * cs := Nat.mul_le_mul_right cs (by omega)
    omega
  · intro h
    have : (i + 1) * cs ≤ m * cs := Nat.mul_le_mul_right cs h
    rw [Nat.succ_mul] at this
    omega

theorem offset_in_chunk_iff (cs i c o : Nat) (ho : o < cs) :
    (c * cs ≤ i * cs + o ∧ i * cs + o < c * cs + cs) ↔ i = c := by
  constructor
  · intro ⟨h1, h2⟩
    by_contra hne
    rcases Nat.lt_or_gt_of_ne hne with h | h
    · have : (i + 1) * cs ≤ c * cs := Nat.mul_le_mul_right cs h
      rw [Nat.succ_mul] at this
      omega
    · have : (c + 1) * cs ≤ i * cs := Nat.mul_le_mul_right cs h
      rw [Nat.succ_mul] at this
      omega
  · intro h
    subst h
    omega

theorem chunk_ge_iff (cs c m : Nat) (hcs : cs ≠ 0) : c * cs ≥ m * cs ↔ m ≤ c := by
  constructor
  · intro h
    exact Nat.le_of_mul_le_mul_right h (Nat.pos_of_ne_zero hcs)
  · intro h
    exact Nat.mul_le_mul_right cs h

theorem map_range_const (f : Nat → Nat) (n v : Nat) (h : ∀ i, i < n → f i = v) :
    (List.range n).map f = List.replicate n v := by
  rw [List.eq_replicate_iff]
  refine ⟨by simp, ?_⟩
  intro b hb
  obtain ⟨i, hi, rfl⟩ := List.mem_map.mp hb
  exact h i (List.mem_range.mp hi)

/-- A read that delivers `n * m` equal bytes into `n` buffers of `m` bytes fills each
buffer with that byte. -/
theorem scatter_replicate (r : List (List Nat)) (n m v : Nat)
    (hr : r.map List.length = List.replicate n m) :
    scatter r (List.replicate (n * m) v) = List.replicate n (List.replicate m v) := by
  induction r generalizing n with
  | nil =>
    cases n with
    | zero => rfl
    | succ n => simp [List.replicate_succ] at hr
  | cons buf rest ih =>
    cases n with
    | zero => simp at hr
    | succ n =>
      simp only [List.map_cons, List.replicate_succ, List.cons.injEq] at hr
      obtain ⟨hb, hrest⟩ := hr
      have hle : m ≤ (n + 1) * m := by
        rw [Nat.succ_mul]
        omega
      have hsub : (n + 1) * m - m = n * m := by
        rw [Nat.succ_mul]
        omega
      simp only [scatter, hb, List.take_replicate, List.length_replicate, List.drop_replicate,
        List.replicate_succ, Nat.min_eq_left hle, hsub, ih n hrest,
        List.drop_eq_nil_of_le (show buf.length ≤ (n + 1) * m by omega), List.append_nil]

theorem iov_differ_self (r : List (List Nat)) : iov_differ r r = false := by
  unfold iov_differ memcmp
  rw [List.any_eq_false]
  intro i _
  simp

theorem flatten_replicate (n m v : Nat) :
    (List.replicate n (List.replicate m v)).flatten = List.replicate (n * m) v := by
  induction n with
  | zero => simp
  | succ n ih =>
    rw [List.replicate_succ, List.flatten_cons, ih, Nat.succ_mul, Nat.add_comm (n * m) m,
      List.replicate_add]

theorem ideal_seek_set (f : File) (a : Nat) :
    ideal.lseek f (a : Int) 0 = ({ f with pos := a }, (a : Int)) := by
  show File.lseek f (a : Int) 0 = _
  unfold File.lseek
  simp

theorem ideal_seek_back (f : File) (a n : Nat) (h : f.pos = a + n) :
    ideal.lseek f (-(n : Int)) 1 = ({ f with pos := a }, (a : Int)) := by
  show File.lseek f (-(n : Int)) 1 = _
  unfold File.lseek
  have h1 : (f.pos : Int) + -(n : Int) = (a : Int) := by
    rw [h]
    push_cast
    omega
  simp [h1]

theorem ideal_readv (f : File) (len : Nat) :
    ideal.readv f len = ({ f with pos := f.pos + min len (f.size - f.pos) },
      ((min len (f.size - f.pos) : Nat) : Int),
      (List.range (min len (f.size - f.pos))).map fun i => f.byte (f.pos + i)) := rfl

theorem ideal_writev (f : File) (data : List Nat) (h : data.length ≠ 0) :
    ideal.writev f data = ({ size := max f.size (f.pos + data.length)
                             byte := fun o =>
                               if f.pos ≤ o ∧ o < f.pos + data.length then data.getD (o - f.pos) 0
                               else if o < f.size then f.byte o
                               else 0
                             pos := f.pos + data.length }, (data.length : Int), false) := by
  show File.writev f data = _
  unfold File.writev
  rw [if_neg h]

variable (cfg : Config) (rand : Nat → Nat)

theorem sound_cap (s : State File) (m : Nat) (hs : Sound cfg s m)
    (hdiv : cfg.csize % MAXIOVCNT = 0) : (s.r_iovec.map List.length).sum = cfg.csize := by
  rw [shape_sum _ _ hs.r_shape, csize_split cfg hdiv]

/-- The number of bytes the read of a pass transfers on the ideal file. -/
theorem ideal_read_res (s : State File) (m : Nat) (hs : Sound cfg s m)
    (hdiv : cfg.csize % MAXIOVCNT = 0) (c n : Nat) (hc : c = CHUNK cfg (picked cfg rand s))
    (hn : n = min cfg.csize (m * cfg.csize - c)) :
    (read_res cfg ideal rand s).1 = { s.kern with pos := c + n } ∧
    (read_res cfg ideal rand s).2.1 = (n : Int) ∧
    (read_res cfg ideal rand s).2.2 = (List.range n).map fun i => s.kern.byte (c + i) := by
  unfold read_res seek_res
  rw [ideal_seek_set, ideal_readv, sound_cap cfg s m hs hdiv]
  simp only [hs.size]
  subst hc hn
  exact ⟨rfl, rfl, rfl⟩

theorem ideal_read_ok (s : State File) (m : Nat) (hs : Sound cfg s m)
    (hdiv : cfg.csize % MAXIOVCNT = 0) :
    read_it cfg ideal rand s = .ok (after_read cfg ideal rand s) := by
  apply read_it_ok
  · unfold seek_res
    rw [ideal_seek_set]
    exact Int.natCast_nonneg _
  · rw [(ideal_read_res cfg rand s m hs hdiv _ _ rfl rfl).2.1]
    exact Int.natCast_nonneg _

/-- Below `file_max` the read is full and delivers what the bitmap promises. -/
theorem ideal_read_below (s : State File) (m : Nat) (hs : Sound cfg s m)
    (hdiv : cfg.csize % MAXIOVCNT = 0) (hc : picked cfg rand s < m) :
    (read_res cfg ideal rand s).1
      = { s.kern with pos := CHUNK cfg (picked cfg rand s) + cfg.csize } ∧
    (read_res cfg ideal rand s).2.1 = (cfg.csize : Int) ∧
    (read_res cfg ideal rand s).2.2 = List.replicate cfg.csize
      (if test_bit s.bits (picked cfg rand s) then s.val else 0) := by
  have h1 : (picked cfg rand s + 1) * cfg.csize ≤ m * cfg.csize :=
    Nat.mul_le_mul_right _ hc
  rw [Nat.succ_mul] at h1
  have hmin : cfg.csize = min cfg.csize (m * cfg.csize - CHUNK cfg (picked cfg rand s)) := by
    unfold CHUNK
    omega
  obtain ⟨h2, h3, h4⟩ := ideal_read_res cfg rand s m hs hdiv _ _ rfl hmin
  refine ⟨h2, h3, ?_⟩
  rw [h4]
  apply map_range_const
  intro i hi
  exact hs.bytes _ i hc hi

/-- When the checks of its branch hold, the classification reaches its end and sets the
bit of the chunk. -/
theorem verify_it_passes {K : Type} (s : State K) (hin : s.chunk / 8 < s.bits.length)
    (hzero : ¬ CHUNK cfg s.chunk ≥ s.file_max → test_bit s.bits s.chunk = false →
      s.xfr = (cfg.csize : Int) ∧ iov_differ s.r_iovec s.zero_iovec = false)
    (hval : ¬ CHUNK cfg s.chunk ≥ s.file_max → test_bit s.bits s.chunk = true →
      s.xfr = (cfg.csize : Int) ∧ iov_differ s.r_iovec s.val_iovec = false) :
    ∃ s2, verify_it cfg s = .ok s2 ∧ s2.kern = s.kern ∧ s2.xfr = s.xfr ∧
      s2.chunk = s.chunk ∧ s2.file_max = s.file_max ∧ s2.val = s.val ∧
      s2.val_iovec = s.val_iovec ∧ s2.zero_iovec = s.zero_iovec ∧ s2.r_iovec = s.r_iovec ∧
      s2.bits.length = s.bits.length ∧
      ∀ i, test_bit s2.bits i = (test_bit s.bits i || decide (i = s.chunk)) := by
  by_cases hv : CHUNK cfg s.chunk ≥ s.file_max
  · refine ⟨_, verify_it_virgin cfg s hv, rfl, rfl, rfl, rfl, rfl, rfl, rfl, rfl,
      length_set_bit _ _, fun i => test_bit_set_bit _ _ _ hin⟩
  · by_cases hb : test_bit s.bits s.chunk = false
    · obtain ⟨hx, hd⟩ := hzero hv hb
      refine ⟨{ s with bits := set_bit s.bits s.chunk, count := s.count + 1,
                       trace := .zero s.chunk :: s.trace }, ?_, rfl, rfl, rfl, rfl, rfl,
        rfl, rfl, rfl, length_set_bit _ _, fun i => test_bit_set_bit _ _ _ hin⟩
      unfold verify_it
      rw [if_neg hv, if_pos hb, if_neg (not_not.mpr hx), hd]
      rfl
    · have hb2 : test_bit s.bits s.chunk = true := by simpa using hb
      obtain ⟨hx, hd⟩ := hval hv hb2
      refine ⟨{ s with collide := s.collide + 1, trace := .seen s.chunk :: s.trace }, ?_,
        rfl, rfl, rfl, rfl, rfl, rfl, rfl, rfl, rfl, ?_⟩
      · unfold verify_it
        rw [if_neg hv, if_neg hb, if_neg (not_not.mpr hx)]
        simp only [hd]
        rfl
      · intro i
        by_cases hi : i = s.chunk
        · subst hi
          simp [hb2]
        · simp [hi]

/-- The seek back and the write of a pass on the ideal file. -/
theorem ideal_write_it (s : State File) (a n v : Nat) (hpos : s.kern.pos = a + n)
    (hx : s.xfr = (n : Int)) (hval : s.val_iovec.flatten = List.replicate cfg.csize v)
    (hcs : cfg.csize ≠ 0) (ha : a = CHUNK cfg s.chunk) :
    ∃ s3, write_it cfg ideal s = .ok s3 ∧
      s3.kern.size = max s.kern.size (a + cfg.csize) ∧
      (∀ o, s3.kern.byte o =
        if a ≤ o ∧ o < a + cfg.csize then v
        else if o < s.kern.size then s.kern.byte o else 0) ∧
      s3.file_max = max s.file_max (a + cfg.csize) ∧
      s3.bits = s.bits ∧ s3.val = s.val ∧ s3.val_iovec = s.val_iovec ∧
      s3.zero_iovec = s.zero_iovec ∧ s3.r_iovec = s.r_iovec ∧
      s3.trace = .write s.chunk :: s.trace := by
  have hlen : (List.replicate cfg.csize v).length ≠ 0 := by simpa using hcs
  have hw : write_it cfg ideal s = .ok
      { s with kern := (ideal.writev { s.kern with pos := a } (List.replicate cfg.csize v)).1,
               xfr := (cfg.csize : Int), trace := .write s.chunk :: s.trace,
               file_max := if a + cfg.csize > s.file_max then a + cfg.csize
                           else s.file_max } := by
    unfold write_it
    simp only [hx, ideal_seek_back s.kern a n hpos, hval, ideal_writev _ _ hlen,
      List.length_replicate, not_lt.mpr (Int.natCast_nonneg a), lt_self_iff_false, if_false,
      ← ha]
    split <;> rfl
  refine ⟨_, hw, ?_, ?_, ?_, rfl, rfl, rfl, rfl, rfl, rfl⟩
  · rw [ideal_writev _ _ hlen]
    simp
  · intro o
    rw [ideal_writev _ _ hlen]
    simp only [List.length_replicate]
    split
    · rename_i h
      rw [List.getD_eq_getElem?_getD, List.getElem?_replicate, if_pos (by omega)]
      rfl
    · rfl
  · show (if a + cfg.csize > s.file_max then a + cfg.csize else s.file_max) = _
    split
    · rw [Nat.max_eq_right (by omega)]
    · rw [Nat.max_eq_left (by omega)]

theorem sound_val_flat (s : State File) (m : Nat) (hs : Sound cfg s m)
    (hdiv : cfg.csize % MAXIOVCNT = 0) :
    s.val_iovec.flatten = List.replicate cfg.csize s.val := by
  rw [hs.val_buf, flatten_replicate, csize_split cfg hdiv]

theorem sound_scatter (s : State File) (m : Nat) (hs : Sound cfg s m)
    (hdiv : cfg.csize % MAXIOVCNT = 0) (v : Nat) :
    scatter s.r_iovec (List.replicate cfg.csize v)
      = List.replicate MAXIOVCNT (List.replicate (cfg.csize / MAXIOVCNT) v) := by
  have := scatter_replicate s.r_iovec MAXIOVCNT (cfg.csize / MAXIOVCNT) v hs.r_shape
  rw [csize_split cfg hdiv] at this
  exact this

/-- On the ideal file the body of a pass begun in a sound state reaches its end, in a sound
state whose `file_max` covers the chunk written. -/
theorem pass_body_sound (s : State File) (m : Nat) (hs : Sound cfg s m)
    (hdiv : cfg.csize % MAXIOVCNT = 0) (hcs : cfg.csize ≠ 0)
    (hloop : s.count < cfg.nchunks) :
    ∃ s3, pass_body cfg ideal rand s = .ok s3 ∧
      Sound cfg s3 (max m (picked cfg rand s + 1)) ∧ s3.val = s.val ∧
      test_bit s3.bits (picked cfg rand s) = true := by
  have hcn : picked cfg rand s < cfg.nchunks := picked_lt cfg rand s hloop
  have hrd := ideal_read_ok cfg rand s m hs hdiv
  obtain ⟨hk, hxfr, -⟩ := ideal_read_res cfg rand s m hs hdiv _ _ rfl rfl
  have hin : (after_read cfg ideal rand s).chunk / 8
      < (after_read cfg ideal rand s).bits.length := by
    show picked cfg rand s / 8 < s.bits.length
    rw [hs.length]
    exact byte_in_bitmap _ _ hcn
  have hbelow : ¬ CHUNK cfg (picked cfg rand s) ≥ s.file_max → picked cfg rand s < m := by
    intro h
    rw [hs.file_max] at h
    unfold CHUNK at h
    by_contra hc
    exact h (Nat.mul_le_mul_right _ (by omega))
  obtain ⟨s2, hv, h2k, h2x, h2c, h2f, h2v, h2vi, h2zi, h2ri, h2l, h2b⟩ :=
    verify_it_passes cfg (after_read cfg ideal rand s) hin
      (by
        intro hnv hb
        obtain ⟨-, hx, hd⟩ := ideal_read_below cfg rand s m hs hdiv (hbelow hnv)
        refine ⟨hx, ?_⟩
        show iov_differ (scatter s.r_iovec (read_res cfg ideal rand s).2.2) s.zero_iovec = false
        have hb2 : test_bit s.bits (picked cfg rand s) = false := hb
        rw [hd, hb2, hs.zero_buf]
        simp only [Bool.false_eq_true, if_false]
        rw [sound_scatter cfg s m hs hdiv]
        exact iov_differ_self _)
      (by
        intro hnv hb
        obtain ⟨-, hx, hd⟩ := ideal_read_below cfg rand s m hs hdiv (hbelow hnv)
        refine ⟨hx, ?_⟩
        show iov_differ (scatter s.r_iovec (read_res cfg ideal rand s).2.2) s.val_iovec = false
        have hb2 : test_bit s.bits (picked cfg rand s) = true := hb
        rw [hd, hb2, hs.val_buf]
        simp only [if_true]
        rw [sound_scatter cfg s m hs hdiv]
        exact iov_differ_self _)
  have hpos : s2.kern.pos = CHUNK cfg (picked cfg rand s)
      + min cfg.csize (m * cfg.csize - CHUNK cfg (picked cfg rand s)) := by
    rw [h2k]
    show (read_res cfg ideal rand s).1.pos = _
    rw [hk]
  have hx2 : s2.xfr
      = ((min cfg.csize (m * cfg.csize - CHUNK cfg (picked cfg rand s)) : Nat) : Int) := by
    rw [h2x]
    exact hxfr
  have hvf : s2.val_iovec.flatten = List.replicate cfg.csize s.val := by
    rw [h2vi]
    exact sound_val_flat cfg s m hs hdiv
  obtain ⟨s3, hw, h3s, h3b, h3f, h3bits, h3v, h3vi, h3zi, h3ri, -⟩ :=
    ideal_write_it cfg s2 _ _ s.val hpos hx2 hvf hcs (by rw [h2c]; rfl)
  have hsz : s2.kern.size = m * cfg.csize := by
    rw [h2k]
    show (read_res cfg ideal rand s).1.size = _
    rw [hk]
    exact hs.size
  have hbyte2 : ∀ o, s2.kern.byte o = s.kern.byte o := by
    intro o
    rw [h2k]
    show (read_res cfg ideal rand s).1.byte o = _
    rw [hk]
  have hmax : max (m * cfg.csize) (CHUNK cfg (picked cfg rand s) + cfg.csize)
      = max m (picked cfg rand s + 1) * cfg.csize := by
    unfold CHUNK
    rw [← Nat.succ_mul]
    rcases Nat.le_total m (picked cfg rand s + 1) with h | h
    · rw [Nat.max_eq_right h, Nat.max_eq_right (Nat.mul_le_mul_right _ h)]
    · rw [Nat.max_eq_left h, Nat.max_eq_left (Nat.mul_le_mul_right _ h)]
  refine ⟨s3, ?_, ?_, ?_, ?_⟩
  rotate_left 3
  · rw [h3bits, h2b]
    have : (after_read cfg ideal rand s).chunk = picked cfg rand s := rfl
    simp [this]
  · unfold pass_body
    rw [hrd]
    simp only [Res.bind]
    rw [hv]
    exact hw
  · constructor
    · exact Nat.max_le.mpr ⟨hs.le, hcn⟩
    · rw [h3f, h2f]
      show max s.file_max _ = _
      rw [hs.file_max]
      exact hmax
    · rw [h3s, hsz]
      exact hmax
    · rw [h3bits, h2l]
      exact hs.length
    · intro i hi
      rw [h3bits, h2b] at hi
      by_cases hic : i = picked cfg rand s
      · omega
      · have : test_bit s.bits i = true := by
          have hic2 : ¬ i = (after_read cfg ideal rand s).chunk := hic
          simpa [hic2] using hi
        have := hs.below i this
        omega
    · intro i o hi ho
      rw [h3b, h3bits, h2b, h3v, h2v]
      show (if CHUNK cfg (picked cfg rand s) ≤ i * cfg.csize + o ∧
          i * cfg.csize + o < CHUNK cfg (picked cfg rand s) + cfg.csize then s.val
        else if i * cfg.csize + o < s2.kern.size then s2.kern.byte (i * cfg.csize + o) else 0)
        = if (test_bit s.bits i || decide (i = picked cfg rand s)) = true then s.val else 0
      unfold CHUNK
      by_cases hic : i = picked cfg rand s
      · rw [if_pos ((offset_in_chunk_iff _ _ _ _ ho).mpr hic)]
        simp [hic]
      · rw [if_neg (fun h => hic ((offset_in_chunk_iff _ _ _ _ ho).mp h)), hsz, hbyte2]
        by_cases him : i < m
        · rw [if_pos ((offset_lt_iff _ _ _ _ ho).mpr him), hs.bytes i o him ho]
          simp [hic]
        · rw [if_neg (fun h => him ((offset_lt_iff _ _ _ _ ho).mp h))]
          have hbit : test_bit s.bits i = false := by
            by_contra hb
            exact him (hs.below i (by simpa using hb))
          simp [hic, hbit]
    · rw [h3ri, h2ri]
      show (scatter s.r_iovec _).map List.length = _
      rw [scatter_lengths]
      exact hs.r_shape
    · rw [h3vi, h2vi, h3v, h2v]
      exact hs.val_buf
    · rw [h3zi, h2zi]
      exact hs.zero_buf
  · rw [h3v, h2v]
    rfl

/-- Soundness looks only at `file_max`, the file, the bitmap, the pattern and the buffers. -/
theorem Sound.congr {s t : State File} {m : Nat} (hs : Sound cfg s m)
    (h1 : t.file_max = s.file_max) (h2 : t.kern = s.kern) (h3 : t.bits = s.bits)
    (h4 : t.val = s.val) (h5 : t.r_iovec = s.r_iovec) (h6 : t.val_iovec = s.val_iovec)
    (h7 : t.zero_iovec = s.zero_iovec) : Sound cfg t m := by
  constructor
  · exact hs.le
  · rw [h1]; exact hs.file_max
  · rw [h2]; exact hs.size
  · rw [h3]; exact hs.length
  · rw [h3]; exact hs.below
  · rw [h2, h3, h4]; exact hs.bytes
  · rw [h5]; exact hs.r_shape
  · rw [h6, h4]; exact hs.val_buf
  · rw [h7]; exact hs.zero_buf

/-- The clearing loops never set a bit. -/
theorem test_bit_clear_from_imp (n : Nat) (bits : List Nat) (c j : Nat)
    (h : test_bit (clear_from n bits c) j = true) : test_bit bits j = true := by
  obtain ⟨-, G, hG⟩ := masking_clear_from n c
  rw [test_bit_eq_raw] at h ⊢
  have := hG bits (j / 8) (j % 8)
  simp only at this
  rw [this] at h
  simp only [Bool.and_eq_true] at h
  exact h.1

theorem wrap_type_fields {K : Type} (s : State K) :
    (wrap_type s).file_max = s.file_max ∧ (wrap_type s).kern = s.kern ∧
    (wrap_type s).bits = s.bits ∧ (wrap_type s).val = s.val ∧
    (wrap_type s).r_iovec = s.r_iovec ∧ (wrap_type s).val_iovec = s.val_iovec ∧
    (wrap_type s).zero_iovec = s.zero_iovec ∧ (wrap_type s).type ≤ 2 ∧
    (wrap_type s).nrand = s.nrand := by
  unfold wrap_type m_fstat m_fsync
  split
  · exact ⟨rfl, rfl, rfl, rfl, rfl, rfl, rfl, by simp, rfl⟩
  · exact ⟨rfl, rfl, rfl, rfl, rfl, rfl, rfl, by omega, rfl⟩

theorem sound_truncate (s : State File) (m c : Nat) (hs : Sound cfg s m) (hc : c < m)
    (t : State File) (h1 : t.file_max = c * cfg.csize)
    (h2 : t.kern = (File.truncate s.kern (c * cfg.csize)).1)
    (h3 : t.bits = clear_from cfg.nchunks s.bits c)
    (h4 : t.val = s.val) (h5 : t.r_iovec = s.r_iovec) (h6 : t.val_iovec = s.val_iovec)
    (h7 : t.zero_iovec = s.zero_iovec) : Sound cfg t c := by
  constructor
  · have := hs.le
    omega
  · exact h1
  · rw [h2]
    rfl
  · rw [h3, clear_from_length]
    exact hs.length
  · intro i hi
    rw [h3] at hi
    by_contra hge
    have hm := hs.below i (test_bit_clear_from_imp _ _ _ _ hi)
    have hle := hs.le
    rw [test_bit_clear_from_ge _ _ _ _ (by omega) (by omega)] at hi
    exact Bool.false_ne_true hi
  · intro i o hi ho
    rw [h2, h3, h4, test_bit_clear_from_lt _ _ _ _ hi, ← hs.bytes i o (by omega) ho]
    show (if i * cfg.csize + o < c * cfg.csize ∧ i * cfg.csize + o < s.kern.size
      then s.kern.byte (i * cfg.csize + o) else 0) = _
    rw [if_pos]
    refine ⟨(offset_lt_iff _ _ _ _ ho).mpr hi, ?_⟩
    rw [hs.size]
    exact (offset_lt_iff _ _ _ _ ho).mpr (by omega)
  · rw [h5]; exact hs.r_shape
  · rw [h6, h4]; exact hs.val_buf
  · rw [h7]; exact hs.zero_buf

/-- On the ideal file, with at least one chunk below `file_max`, `domisc` returns and
leaves the worker sound. -/
theorem domisc_sound (s : State File) (m : Nat) (hs : Sound cfg s m)
    (hcs : cfg.csize ≠ 0) (hm : 1 ≤ m) :
    ∃ s' m', domisc cfg ideal rand s = .ok s' ∧ Sound cfg s' m' ∧ s'.val = s.val := by
  obtain ⟨w1, w2, w3, w4, w5, w6, w7, w8, w9⟩ := wrap_type_fields s
  have hw : Sound cfg (wrap_type s) m := hs.congr cfg w1 w2 w3 w4 w5 w6 w7
  unfold domisc misc_switch
  generalize wrap_type s = w at *
  by_cases ht0 : w.type = m_fsync
  · rw [if_pos ht0]
    refine ⟨_, m, rfl, ?_, w4⟩
    exact hw.congr cfg rfl rfl rfl rfl rfl rfl rfl
  · rw [if_neg ht0]
    by_cases ht1 : w.type = m_trunc
    · rw [if_pos ht1]
      have hdiv : w.file_max / cfg.csize = m := by
        rw [hw.file_max]
        exact Nat.mul_div_cancel m (Nat.pos_of_ne_zero hcs)
      have hcall : TruncCallOk cfg ideal rand w :=
        ⟨fun _ => Int.le_refl 0, fun _ => Int.le_refl 0⟩
      obtain ⟨s1, h1, hmax, hbits, -, -, -, -, -, -, hk, hv, hri, hvi, hzi⟩ :=
        trunc_case_ok cfg ideal rand w (by omega) hcall
      have hc : trunc_chunk cfg rand w < m := by
        unfold trunc_chunk
        rw [hdiv]
        exact Nat.mod_lt _ (by omega)
      have hk2 : s1.kern = (File.truncate w.kern (trunc_chunk cfg rand w * cfg.csize)).1 := by
        rw [hk]
        split <;> rfl
      rw [h1]
      refine ⟨_, trunc_chunk cfg rand w, rfl, ?_, ?_⟩
      · exact sound_truncate cfg w m _ hw hc _ hmax hk2 hbits hv hri hvi hzi
      · show s1.val = s.val
        rw [hv, w4]
    · rw [if_neg ht1]
      have hsz : ((ideal.fstat w.kern).2.2 : Int) = (w.file_max : Int) := by
        show ((w.kern.size : Nat) : Int) = _
        rw [hw.size, hw.file_max]
      have hf : fstat_case ideal w = .ok { w with trace := .fstat :: w.trace } := by
        unfold fstat_case
        simp only [hsz, ne_eq, not_true_eq_false, if_false]
        rfl
      rw [hf]
      refine ⟨_, m, rfl, ?_, w4⟩
      exact hw.congr cfg rfl rfl rfl rfl rfl rfl rfl

theorem misc_it_sound (s : State File) (m : Nat) (hs : Sound cfg s m)
    (hcs : cfg.csize ≠ 0) (hm : 1 ≤ m) :
    ∃ s' m', misc_it cfg ideal rand s = .ok s' ∧ Sound cfg s' m' ∧ s'.val = s.val := by
  unfold misc_it
  simp only
  split_ifs
  · obtain ⟨s1, m1, h1, h2, h3⟩ := domisc_sound cfg rand
      { s with whenmisc := s.whenmisc - 1,
               hold_bits := ft_orbits s.hold_bits s.bits cfg.nbytes } m
      (hs.congr cfg rfl rfl rfl rfl rfl rfl rfl) hcs hm
    rw [h1]
    exact ⟨_, m1, rfl, h2.congr cfg rfl rfl rfl rfl rfl rfl rfl, h3⟩
  · exact ⟨_, m, rfl, hs.congr cfg rfl rfl rfl rfl rfl rfl rfl, rfl⟩
  · exact ⟨_, m, rfl, hs, rfl⟩

/-- On the ideal file a pass begun in a sound state is completed, in a sound state. -/
theorem pass_sound (s : State File) (m : Nat) (hs : Sound cfg s m)
    (hdiv : cfg.csize % MAXIOVCNT = 0) (hcs : cfg.csize ≠ 0)
    (hloop : s.count < cfg.nchunks) :
    ∃ s' m', pass cfg ideal rand s = .ok s' ∧ Sound cfg s' m' ∧ s'.val = s.val := by
  obtain ⟨s3, h3, hs3, hv3, -⟩ := pass_body_sound cfg rand s m hs hdiv hcs hloop
  obtain ⟨s4, m4, h4, hs4, hv4⟩ := misc_it_sound cfg rand s3 _ hs3 hcs
    (Nat.le_trans (Nat.le_add_left 1 _) (Nat.le_max_right _ _))
  refine ⟨s4, m4, ?_, hs4, by rw [hv4, hv3]⟩
  unfold pass
  rw [h3]
  exact h4

/-- The top of an iteration is sound, with no chunk below `file_max`. -/
theorem iter_init_sound (s : State File)
    (hr : s.r_iovec.map List.length = List.replicate MAXIOVCNT (cfg.csize / MAXIOVCNT)) :
    Sound cfg (iter_init cfg ideal s) 0 ∧ (iter_init cfg ideal s).val = s.val := by
  refine ⟨?_, rfl⟩
  constructor
  · exact Nat.zero_le _
  · exact (Nat.zero_mul _).symm
  · exact (Nat.zero_mul _).symm
  · exact List.length_replicate _ _
  · intro i hi
    have : test_bit (List.replicate cfg.nbytes 0) i = true := hi
    rw [test_bit_replicate_zero] at this
    exact absurd this Bool.false_ne_true
  · intro i o hi
    omega
  · exact hr
  · rfl
  · rfl

theorem start_shape (testers me : Nat) (k : File) :
    (first_misc cfg rand (start cfg testers me k)).r_iovec.map List.length
      = List.replicate MAXIOVCNT (cfg.csize / MAXIOVCNT) := by
  have : (first_misc cfg rand (start cfg testers me k)).r_iovec
      = List.replicate MAXIOVCNT (List.replicate (cfg.csize / MAXIOVCNT) 0) := by
    unfold first_misc
    split <;> rfl
  rw [this, List.map_replicate, List.length_replicate]

/-- With `csize` divisible by `MAXIOVCNT`, the worker on the ideal file is in a sound state
at every pass boundary. -/
theorem reach_sound (testers me : Nat) (k : File) (s : State File)
    (hdiv : cfg.csize % MAXIOVCNT = 0)
    (h : Reach cfg ideal rand testers me k s) : ∃ m, Sound cfg s m := by
  induction h with
  | first _ _ => exact ⟨0, (iter_init_sound cfg _ (start_shape cfg rand testers me k)).1⟩
  | pass hr hloop _ hpass ih =>
    obtain ⟨m, hm⟩ := ih
    have hcs : cfg.csize ≠ 0 := by
      intro h0
      have : cfg.nchunks = 0 := by
        unfold Config.nchunks
        rw [h0, Nat.div_zero]
      omega
    obtain ⟨s', m', h1, h2, -⟩ := pass_sound cfg rand _ m hm hdiv hcs hloop
    rw [h1] at hpass
    cases hpass
    exact ⟨m', h2⟩
  | next hr _ ih =>
    obtain ⟨m, hm⟩ := ih
    exact ⟨0, (iter_init_sound cfg (iter_end ideal _) hm.r_shape).1⟩

/-- On the ideal file the inner loop, begun in a sound state, never ends through
`tst_exit`. -/
theorem chunk_loop_sound (fuel : Nat) (s : State File) (m : Nat) (hs : Sound cfg s m)
    (hdiv : cfg.csize % MAXIOVCNT = 0) (hcs : cfg.csize ≠ 0) :
    chunk_loop cfg ideal rand fuel s = .out_of_fuel ∨
      ∃ s' m', chunk_loop cfg ideal rand fuel s = .ok s' ∧ Sound cfg s' m' := by
  induction fuel generalizing s m with
  | zero =>
    unfold chunk_loop
    split
    · exact Or.inl rfl
    · exact Or.inr ⟨s, m, rfl, hs⟩
  | succ f ih =>
    unfold chunk_loop
    by_cases hloop : s.count < cfg.nchunks
    · rw [if_pos hloop]
      obtain ⟨s1, m1, h1, hs1, -⟩ := pass_sound cfg rand s m hs hdiv hcs hloop
      rw [h1]
      simp only
      split
      · exact Or.inr ⟨s1, m1, rfl, hs1⟩
      · exact ih s1 m1 hs1
    · rw [if_neg hloop]
      exact Or.inr ⟨s, m, rfl, hs⟩

theorem iteration_sound (s : State File)
    (hr : s.r_iovec.map List.length = List.replicate MAXIOVCNT (cfg.csize / MAXIOVCNT))
    (hdiv : cfg.csize % MAXIOVCNT = 0) (hcs : cfg.csize ≠ 0) :
    ∃ s', iteration cfg ideal rand s = .ok s' ∧
      s'.r_iovec.map List.length = List.replicate MAXIOVCNT (cfg.csize / MAXIOVCNT) := by
  have hb := (chunk_loop_bound cfg ideal rand (2 * cfg.nchunks + 1) (iter_init cfg ideal s)
    (Nat.zero_le _) (Nat.le_add_right _ _)).1
  rcases chunk_loop_sound cfg rand (2 * cfg.nchunks + 1) (iter_init cfg ideal s) 0
    (iter_init_sound cfg s hr).1 hdiv hcs with h | ⟨s1, m1, h1, hs1⟩
  · exact absurd h hb
  · refine ⟨iter_end ideal s1, ?_, hs1.r_shape⟩
    unfold iteration
    rw [h1]
    rfl

theorem iterate_sound (n : Nat) (s : State File)
    (hr : s.r_iovec.map List.length = List.replicate MAXIOVCNT (cfg.csize / MAXIOVCNT))
    (hdiv : cfg.csize % MAXIOVCNT = 0) (hcs : cfg.csize ≠ 0) :
    ∃ s', iterate cfg ideal rand n s = .ok s' := by
  induction n generalizing s with
  | zero => exact ⟨s, rfl⟩
  | succ n ih =>
    obtain ⟨s1, h1, hr1⟩ := iteration_sound cfg rand s hr hdiv hcs
    obtain ⟨s2, h2⟩ := ih s1 hr1
    refine ⟨s2, ?_⟩
    unfold iterate
    rw [h1]
    exact h2

/-- With `csize` a non-zero multiple of `MAXIOVCNT`, the whole worker on the ideal file runs
to its end. -/
theorem dotest_sound (testers me : Nat) (k : File) (hdiv : cfg.csize % MAXIOVCNT = 0)
    (hcs : cfg.csize ≠ 0) (ht : testers ≠ 0) :
    ∃ s', dotest cfg ideal rand testers me k = .ok s' := by
  unfold dotest
  rw [if_neg (by simp [hcs, ht])]
  exact iterate_sound cfg rand _ _ (start_shape cfg rand testers me k) hdiv hcs

end Ideal

/-! ### Reasons for which a pass can end -/

section Reasons
variable {K : Type} (cfg : Config) (sys : Sys K) (rand : Nat → Nat)

theorem read_it_fail (s : State K) (e : Fail) (h : (read_it cfg sys rand s).fail? = some e) :
    e.is_verify = false := by
  revert h
  unfold read_it
  simp only
  split_ifs <;> simp [Res.fail?] <;> (intro h; subst h; rfl)

theorem write_it_fail (s : State K) (e : Fail) (h : (write_it cfg sys s).fail? = some e) :
    e.is_verify = false := by
  revert h
  unfold write_it
  simp only
  split_ifs <;> simp [Res.fail?] <;> (intro h; subst h; rfl)

theorem bind_fail {σ : Type} (r : Res σ) (f : σ → Res σ) (e : Fail)
    (h : (r.bind f).fail? = some e) :
    r.fail? = some e ∨ ∃ s, r = .ok s ∧ (f s).fail? = some e := by
  cases r with
  | ok s => exact Or.inr ⟨s, rfl, h⟩
  | exit e1 s => exact Or.inl h
  | out_of_fuel => simp [Res.bind, Res.fail?] at h

theorem domisc_fail (s : State K) (e : Fail) (h : (domisc cfg sys rand s).fail? = some e) :
    e.is_verify = false := by
  unfold domisc at h
  rcases bind_fail _ _ _ h with h1 | ⟨s1, -, h1⟩
  · revert h1
    unfold misc_switch fsync_case trunc_case fstat_case
    simp only
    split_ifs <;> simp [Res.fail?] <;> (intro h; subst h; rfl)
  · simp [Res.fail?] at h1

theorem misc_it_fail (s : State K) (e : Fail) (h : (misc_it cfg sys rand s).fail? = some e) :
    e.is_verify = false := by
  revert h
  unfold misc_it
  simp only
  split_ifs
  · intro h
    rcases bind_fail _ _ _ h with h1 | ⟨s1, -, h1⟩
    · exact domisc_fail cfg sys rand _ e h1
    · simp [Res.fail?] at h1
  · simp [Res.fail?]
  · simp [Res.fail?]

/-- A pass that ends on a failed verification ends in the classification of the chunk it
read. -/
theorem pass_fail_verify (s : State K) (e : Fail)
    (h : (pass cfg sys rand s).fail? = some e) (hv : e.is_verify = true) :
    ∃ s1, read_it cfg sys rand s = .ok s1 ∧ (verify_it cfg s1).fail? = some e := by
  unfold pass pass_body at h
  rcases bind_fail _ _ _ h with h1 | ⟨s3, -, h1⟩
  · rcases bind_fail _ _ _ h1 with h2 | ⟨s2, -, h2⟩
    · rcases bind_fail _ _ _ h2 with h3 | ⟨s1, hs1, h3⟩
      · rw [read_it_fail cfg sys rand s e h3] at hv
        exact absurd hv Bool.false_ne_true
      · exact ⟨s1, hs1, h3⟩
    · rw [write_it_fail cfg sys s2 e h2] at hv
      exact absurd hv Bool.false_ne_true
  · rw [misc_it_fail cfg sys rand s3 e h1] at hv
    exact absurd hv Bool.false_ne_true

theorem read_it_keeps (s : State K) :
    (read_it cfg sys rand s).AllOk (fun s' =>
      s'.file_max = s.file_max ∧ s'.val_iovec = s.val_iovec ∧ s'.chunk = picked cfg rand s) := by
  unfold read_it picked
  simp only
  split_ifs <;> simp [Res.AllOk]

theorem verify_it_keeps (s : State K) :
    (verify_it cfg s).AllOk (fun s' => s'.val_iovec = s.val_iovec) := by
  unfold verify_it
  simp only
  split_ifs <;> simp [Res.AllOk]

/-- A body of a pass that reaches its end got there through a write that succeeded, from the
buffers the pass began with. -/
theorem pass_body_ok_write (s s' : State K) (h : pass_body cfg sys rand s = .ok s') :
    ∃ s2, write_it cfg sys s2 = .ok s' ∧ s2.val_iovec = s.val_iovec := by
  unfold pass_body at h
  have h1 := read_it_keeps cfg sys rand s
  cases hr : read_it cfg sys rand s with
  | ok s1 =>
    rw [hr] at h h1
    have h2 := verify_it_keeps cfg s1
    simp only [Res.bind] at h
    cases hv : verify_it cfg s1 with
    | ok s2 =>
      rw [hv] at h h2
      exact ⟨s2, h, by rw [h2, h1.2.1]⟩
    | exit e s2 => rw [hv] at h; simp at h
    | out_of_fuel => rw [hv] at h; simp at h
  | exit e s1 => rw [hr] at h; simp [Res.bind] at h
  | out_of_fuel => rw [hr] at h; simp [Res.bind] at h

end Reasons

section Short
variable (cfg : Config) (rand : Nat → Nat)

/-- On the ideal file a write from buffers shorter than `csize` never passes the test
`xfr < csize`. -/
theorem ideal_write_short (s : State File) (hlen : s.val_iovec.flatten.length < cfg.csize)
    (s' : State File) : write_it cfg ideal s ≠ .ok s' := by
  unfold write_it
  simp only
  split
  · simp
  · have hw : (ideal.writev (ideal.lseek s.kern (-s.xfr) 1).1 s.val_iovec.flatten).2.1
        < (cfg.csize : Int) := by
      show (File.writev _ _).2.1 < _
      unfold File.writev
      split
      · simp only
        omega
      · simp only
        omega
    simp only [hw, if_true]
    split <;> simp

theorem not_div_short (hnd : cfg.csize % MAXIOVCNT ≠ 0) :
    MAXIOVCNT * (cfg.csize / MAXIOVCNT) < cfg.csize := by
  unfold MAXIOVCNT at *
  omega

/-- When `csize` is not a multiple of `MAXIOVCNT`, no pass on the ideal file is completed:
every pass boundary is the top of an iteration, with `file_max = 0`. -/
theorem reach_top (testers me : Nat) (k : File) (s : State File)
    (hnd : cfg.csize % MAXIOVCNT ≠ 0) (h : Reach cfg ideal rand testers me k s) :
    s.file_max = 0 ∧
      s.val_iovec = List.replicate MAXIOVCNT (List.replicate (cfg.csize / MAXIOVCNT) s.val) := by
  induction h with
  | first _ _ => exact ⟨rfl, rfl⟩
  | pass hr hloop _ hpass ih =>
    exfalso
    unfold pass at hpass
    cases hb : pass_body cfg ideal rand _ with
    | ok s3 =>
      obtain ⟨s2, hw, hv⟩ := pass_body_ok_write cfg ideal rand _ s3 hb
      refine ideal_write_short cfg s2 ?_ s3 hw
      rw [hv, ih.2, flatten_replicate, List.length_replicate]
      exact not_div_short cfg hnd
    | exit e s3 => rw [hb] at hpass; simp [Res.bind] at hpass
    | out_of_fuel => rw [hb] at hpass; simp [Res.bind] at hpass
  | next hr _ ih => exact ⟨rfl, rfl⟩

theorem reach_config (testers me : Nat) (k : File) (s : State File)
    (h : Reach cfg ideal rand testers me k s) : cfg.csize ≠ 0 ∧ testers ≠ 0 := by
  induction h with
  | first h1 h2 => exact ⟨h1, h2⟩
  | pass _ _ _ _ ih => exact ih
  | next _ _ ih => exact ih

end Short

section Claims
variable (cfg : Config) (rand : Nat → Nat)

theorem below_lt (s : State File) (m : Nat) (hs : Sound cfg s m)
    (h : CHUNK cfg (picked cfg rand s) < s.file_max) : picked cfg rand s < m := by
  rw [hs.file_max] at h
  unfold CHUNK at h
  by_contra hc
  have : m * cfg.csize ≤ picked cfg rand s * cfg.csize := Nat.mul_le_mul_right _ (by omega)
  omega

/-- Claim C4 (zero-fill and pattern consistency on an ideal sparse file). At every pass
boundary of the worker running on the ideal file, whatever the random draws: if the chunk
picked lies below `file_max` with its bit clear, the read is full and delivers `csize` zero
bytes; if its bit is set, the read is full and delivers `csize` bytes of the iteration's
pattern `val`; the pass does not end on a failed verification; a chunk just written reads
back at once as `csize` bytes of the pattern; and when `csize` is a multiple of `MAXIOVCNT`
the pass is completed and the whole of `dotest` runs to its end. -/
theorem C4_ideal_file_verifies (testers me : Nat) (k : File) (s : State File)
    (h : Reach cfg ideal rand testers me k s) (hloop : s.count < cfg.nchunks) :
    (CHUNK cfg (picked cfg rand s) < s.file_max →
      test_bit s.bits (picked cfg rand s) = false →
      (read_res cfg ideal rand s).2.1 = (cfg.csize : Int) ∧
        (read_res cfg ideal rand s).2.2 = List.replicate cfg.csize 0) ∧
    (CHUNK cfg (picked cfg rand s) < s.file_max →
      test_bit s.bits (picked cfg rand s) = true →
      (read_res cfg ideal rand s).2.1 = (cfg.csize : Int) ∧
        (read_res cfg ideal rand s).2.2 = List.replicate cfg.csize s.val) ∧
    (∀ e, (pass cfg ideal rand s).fail? = some e → e.is_verify = false) ∧
    (∀ s1, pass_body cfg ideal rand s = .ok s1 →
      ∀ rand2 : Nat → Nat, picked cfg rand2 s1 = picked cfg rand s →
        (read_res cfg ideal rand2 s1).2.1 = (cfg.csize : Int) ∧
          (read_res cfg ideal rand2 s1).2.2 = List.replicate cfg.csize s.val) ∧
    (cfg.csize % MAXIOVCNT = 0 →
      (∃ s', pass cfg ideal rand s = .ok s') ∧
        ∃ s', dotest cfg ideal rand testers me k = .ok s') := by
  obtain ⟨hcs, ht⟩ := reach_config cfg rand testers me k s h
  by_cases hdiv : cfg.csize % MAXIOVCNT = 0
  · obtain ⟨m, hs⟩ := reach_sound cfg rand testers me k s hdiv h
    obtain ⟨s', m', hp, -, -⟩ := pass_sound cfg rand s m hs hdiv hcs hloop
    refine ⟨?_, ?_, ?_, ?_, fun _ => ⟨⟨s', hp⟩, dotest_sound cfg rand testers me k hdiv hcs ht⟩⟩
    · intro hb hbit
      obtain ⟨-, h1, h2⟩ := ideal_read_below cfg rand s m hs hdiv (below_lt cfg rand s m hs hb)
      rw [hbit] at h2
      exact ⟨h1, h2⟩
    · intro hb hbit
      obtain ⟨-, h1, h2⟩ := ideal_read_below cfg rand s m hs hdiv (below_lt cfg rand s m hs hb)
      rw [hbit] at h2
      exact ⟨h1, h2⟩
    · intro e he
      rw [hp] at he
      simp [Res.fail?] at he
    · intro s1 hb rand2 hpick
      obtain ⟨s3, h3, hs3, hv3, hbit3⟩ := pass_body_sound cfg rand s m hs hdiv hcs hloop
      rw [h3] at hb
      cases hb
      have hlt : picked cfg rand2 s1 < max m (picked cfg rand s + 1) := by
        rw [hpick]
        exact Nat.lt_of_lt_of_le (Nat.lt_succ_self _) (Nat.le_max_right _ _)
      obtain ⟨-, h1, h2⟩ := ideal_read_below cfg rand2 s1 _ hs3 hdiv hlt
      rw [hpick, hbit3, hv3] at h2
      exact ⟨h1, h2⟩
  · obtain ⟨hfm, hvi⟩ := reach_top cfg rand testers me k s hdiv h
    refine ⟨?_, ?_, ?_, ?_, fun hd => absurd hd hdiv⟩
    · intro hb
      omega
    · intro hb
      omega
    · intro e he
      by_contra hv
      have hv2 : e.is_verify = true := by simpa using hv
      obtain ⟨s1, hr, hf⟩ := pass_fail_verify cfg ideal rand s e he hv2
      have hk := read_it_keeps cfg ideal rand s
      rw [hr] at hk
      have hvir : CHUNK cfg s1.chunk ≥ s1.file_max := by
        rw [hk.1, hfm]
        exact Nat.zero_le _
      rw [verify_it_virgin cfg s1 hvir] at hf
      simp [Res.fail?] at hf
    · intro s1 hb
      exfalso
      obtain ⟨s2, hw, hv⟩ := pass_body_ok_write cfg ideal rand s s1 hb
      refine ideal_write_short cfg s2 ?_ s1 hw
      rw [hv, hvi, flatten_replicate, List.length_replicate]
      exact not_div_short cfg hdiv

theorem fstat_case_mismatch_iff (t : State File) :
    (∃ t', fstat_case ideal t = .exit .fstat_mismatch t')
      ↔ (t.kern.size : Int) ≠ (t.file_max : Int) := by
  unfold fstat_case
  have h0 : ¬ (ideal.fstat t.kern).2.1 < 0 := by
    show ¬ (0 : Int) < 0
    omega
  have h1 : (ideal.fstat t.kern).2.2 = (t.kern.size : Int) := rfl
  simp only [h0, if_false, h1]
  split
  · rename_i hne
    exact ⟨fun _ => hne, fun _ => ⟨_, rfl⟩⟩
  · rename_i heq
    constructor
    · intro ⟨t', ht'⟩
      simp at ht'
    · intro hne
      exact absurd hne heq

/-- Claim C5 (size consistency). When the worker runs on the ideal file, whose length becomes
`max(size, offset + csize)` on a chunk write and the argument on a truncation, then where
the body of a pass ends, which is where `domisc` is invoked, the tracked `file_max` equals
the length of the file: `fstat` reports `file_max`, the stat-check case passes, and the
perturbation step returns. The stat-check case fails with a mismatch exactly when the
reported size differs from `file_max`. This holds whatever the random draws. -/
theorem C5_file_max_is_size (testers me : Nat) (k : File) (s s1 : State File)
    (h : Reach cfg ideal rand testers me k s) (hloop : s.count < cfg.nchunks)
    (hbody : pass_body cfg ideal rand s = .ok s1) :
    s1.kern.size = s1.file_max ∧
    (ideal.fstat s1.kern).2.2 = (s1.file_max : Int) ∧
    (∃ s2, fstat_case ideal s1 = .ok s2) ∧
    (∃ s2, misc_it cfg ideal rand s1 = .ok s2) ∧
    (∀ t : State File, (∃ t', fstat_case ideal t = .exit .fstat_mismatch t')
      ↔ (t.kern.size : Int) ≠ (t.file_max : Int)) := by
  obtain ⟨hcs, ht⟩ := reach_config cfg rand testers me k s h
  by_cases hdiv : cfg.csize % MAXIOVCNT = 0
  · obtain ⟨m, hs⟩ := reach_sound cfg rand testers me k s hdiv h
    obtain ⟨s3, h3, hs3, -, -⟩ := pass_body_sound cfg rand s m hs hdiv hcs hloop
    rw [h3] at hbody
    cases hbody
    have hsz : s1.kern.size = s1.file_max := by rw [hs3.size, hs3.file_max]
    obtain ⟨s4, m4, h4, -, -⟩ := misc_it_sound cfg rand s1 _ hs3 hcs
      (Nat.le_trans (Nat.le_add_left 1 _) (Nat.le_max_right _ _))
    refine ⟨hsz, ?_, ?_, ⟨s4, h4⟩, fstat_case_mismatch_iff⟩
    · show ((s1.kern.size : Nat) : Int) = _
      rw [hsz]
    · have hno : ¬ ∃ t', fstat_case ideal s1 = .exit .fstat_mismatch t' := by
        rw [fstat_case_mismatch_iff, hsz]
        simp
      unfold fstat_case at hno ⊢
      have h0 : ¬ (ideal.fstat s1.kern).2.1 < 0 := by
        show ¬ (0 : Int) < 0
        omega
      simp only [h0, if_false] at hno ⊢
      split
      · rename_i hne
        exact absurd ⟨_, by rw [if_pos hne]⟩ hno
      · exact ⟨_, rfl⟩
  · exfalso
    obtain ⟨hfm, hvi⟩ := reach_top cfg rand testers me k s hdiv h
    obtain ⟨s2, hw, hv⟩ := pass_body_ok_write cfg ideal rand s s1 hbody
    refine ideal_write_short cfg s2 ?_ s1 hw
    rw [hv, hvi, flatten_replicate, List.length_replicate]
    exact not_div_short cfg hdiv

end Claims

/-! ## The small worker -/

theorem reach_tiny_top : Reach tiny ideal tiny_rand 5 0 File.empty tiny_top :=
  Reach.first (by decide) (by decide)

theorem reach_tiny_one : Reach tiny ideal tiny_rand 5 0 File.empty tiny_one :=
  Reach.pass reach_tiny_top (by decide) (by decide) rfl

theorem C3_witness :
    test_bit tiny_one.bits 3 = live_written 3 tiny_one.trace ∧
      live_written 3 tiny_one.trace = true :=
  ⟨C3_bitmap_tracks_writes tiny ideal tiny_rand 5 0 File.empty tiny_one reach_tiny_one 3
    (by decide), by decide⟩

theorem C4_witness :
    picked tiny tiny_rand tiny_one = 2 ∧ tiny_one.file_max = 64 ∧
    test_bit tiny_one.bits 2 = false ∧
    (read_res tiny ideal tiny_rand tiny_one).2.1 = (tiny.csize : Int) ∧
    (read_res tiny ideal tiny_rand tiny_one).2.2 = List.replicate tiny.csize 0 :=
  ⟨by decide, by decide, by decide,
    (C4_ideal_file_verifies tiny tiny_rand 5 0 File.empty tiny_one reach_tiny_one
      (by decide)).1 (by decide) (by decide)⟩

theorem C5_witness :
    tiny_body.kern.size = tiny_body.file_max ∧
    (ideal.fstat tiny_body.kern).2.2 = (tiny_body.file_max : Int) ∧
    (∃ s2, fstat_case ideal tiny_body = .ok s2) ∧
    (∃ s2, misc_it tiny ideal tiny_rand tiny_body = .ok s2) ∧
    (∀ t : State File, (∃ t', fstat_case ideal t = .exit .fstat_mismatch t')
      ↔ (t.kern.size : Int) ≠ (t.file_max : Int)) :=
  C5_file_max_is_size tiny tiny_rand 5 0 File.empty tiny_top tiny_body reach_tiny_top
    (by decide) rfl

/-! ## The collection of the children in `runtest` -/

/-- An interrupted `wait` changes nothing and the loop waits again. -/
theorem wait_loop_eintr (EINTR : Int) (w : WaitRes) (ws : List WaitRes) (c : Collect)
    (h1 : w.child < 0) (h2 : w.errno = EINTR) :
    wait_loop EINTR (w :: ws) c = wait_loop EINTR ws c := by
  rw [wait_loop, if_neg (by omega), if_neg (by simp [h2])]

/-- The loop on results that are children collected or interrupted waits, followed by a
failure that is not an interruption. -/
theorem wait_loop_run (EINTR : Int) (pre : List WaitRes) (last : WaitRes)
    (rest : List WaitRes) (c : Collect)
    (hpre : ∀ w ∈ pre, 0 ≤ w.child ∨ w.errno = EINTR)
    (hlast : last.child < 0 ∧ last.errno ≠ EINTR) :
    wait_loop EINTR (pre ++ last :: rest) c = some
      { count := c.count + (collected pre).length
        local_flag := if ∃ w ∈ collected pre, w.status ≠ 0 then FAILED else c.local_flag } := by
  induction pre generalizing c with
  | nil =>
    rw [List.nil_append, wait_loop, if_neg (by omega), if_pos hlast.2]
    simp [collected]
  | cons w ws ih =>
    have hws : ∀ w ∈ ws, 0 ≤ w.child ∨ w.errno = EINTR :=
      fun x hx => hpre x (List.mem_cons_of_mem _ hx)
    rw [List.cons_append, wait_loop]
    by_cases hw : 0 ≤ w.child
    · rw [if_pos hw, ih _ hws]
      have hc : collected (w :: ws) = w :: collected ws := by
        simp [collected, List.filter_cons, hw]
      rw [hc]
      congr 1
      simp only [List.length_cons, List.mem_cons, exists_eq_or_imp]
      congr 1
      · omega
      · by_cases hs : w.status ≠ 0
        · simp [hs]
        · simp [hs]
    · have he : w.errno = EINTR := (hpre w (List.mem_cons_self _ _)).resolve_left hw
      rw [if_neg hw, if_neg (by simp [he]), ih _ hws]
      have hc : collected (w :: ws) = collected ws := by
        simp [collected, List.filter_cons, hw]
      rw [hc]

theorem check_count_count (nwait : Nat) (c : Collect) :
    (check_count nwait c).count = c.count := by
  unfold check_count
  split <;> rfl

theorem check_count_flag (nwait : Nat) (c : Collect) :
    (check_count nwait c).local_flag = if c.count ≠ nwait then FAILED else c.local_flag := by
  unfold check_count
  split <;> rfl

/-- Claim C11 (collection of the workers). In `runtest`, on every sequence of results of
`wait` that are children collected or waits failed with `EINTR`, followed by a failure
other than `EINTR`, the loop ends at that failure with `count` the number of children
collected; after the check of the count, the run is marked `FAILED` if and only if some
collected status is non-zero or the number collected differs from `nwait`, and is left
`PASSED` otherwise. A wait that fails with `EINTR` changes neither the count nor the flag
and the loop waits again. -/
theorem C11_children_collected (EINTR : Int) (nwait : Nat) (pre : List WaitRes)
    (last : WaitRes) (rest : List WaitRes)
    (hpre : ∀ w ∈ pre, 0 ≤ w.child ∨ w.errno = EINTR)
    (hlast : last.child < 0 ∧ last.errno ≠ EINTR) :
    (∃ c, collect_children EINTR nwait (pre ++ last :: rest) PASSED = some c ∧
      c.count = (collected pre).length ∧
      (c.local_flag = FAILED ↔
        (∃ w ∈ collected pre, w.status ≠ 0) ∨ (collected pre).length ≠ nwait) ∧
      (c.local_flag = FAILED ∨ c.local_flag = PASSED)) ∧
    (∀ (w : WaitRes) (ws : List WaitRes) (c : Collect), w.child < 0 → w.errno = EINTR →
      wait_loop EINTR (w :: ws) c = wait_loop EINTR ws c) := by
  refine ⟨?_, fun w ws c h1 h2 => wait_loop_eintr EINTR w ws c h1 h2⟩
  unfold collect_children
  rw [wait_loop_run EINTR pre last rest _ hpre hlast]
  simp only [Option.map_some', Nat.zero_add]
  refine ⟨_, rfl, check_count_count _ _, ?_, ?_⟩
  · rw [check_count_flag]
    by_cases hn : (collected pre).length ≠ nwait
    · simp [hn]
    · by_cases hs : ∃ w ∈ collected pre, w.status ≠ 0
      · simp [hn, hs]
      · simp only [hn, if_false, hs, or_self, iff_false]
        decide
  · rw [check_count_flag]
    by_cases hn : (collected pre).length ≠ nwait
    · exact Or.inl (by simp [hn])
    · by_cases hs : ∃ w ∈ collected pre, w.status ≠ 0
      · exact Or.inl (by simp [hn, hs])
      · exact Or.inr (by simp [hn, hs])

theorem C11_witness :
    ∃ c, collect_children 4 3
        (three_waits ++ { child := -1, status := 0, errno := 10 } :: []) PASSED = some c ∧
      c.count = 3 ∧ c.local_flag = PASSED := by
  obtain ⟨⟨c, h1, h2, h3, h4⟩, -⟩ := C11_children_collected 4 3 three_waits
    { child := -1, status := 0, errno := 10 } [] (by decide) (by decide)
  refine ⟨c, h1, h2, ?_⟩
  rcases h4 with h | h
  · exact absurd (h3.mp h) (by decide)
  · exact h

/-! ## The pattern byte -/

section Pattern

variable {K : Type} (cfg : Config) (sys : Sys K) (rand : Nat → Nat)

theorem read_it_val (s : State K) :
    (read_it cfg sys rand s).AllOk (fun s' =>
      s'.val = s.val ∧ s'.val_iovec = s.val_iovec ∧ resets s'.trace = resets s.trace) := by
  unfold read_it
  simp only
  split_ifs <;> simp [Res.AllOk, resets]

theorem verify_it_val (s : State K) :
    (verify_it cfg s).AllOk (fun s' =>
      s'.val = s.val ∧ s'.val_iovec = s.val_iovec ∧ resets s'.trace = resets s.trace) := by
  unfold verify_it
  simp only
  split_ifs <;> simp [Res.AllOk, resets]

theorem write_it_val (s : State K) :
    (write_it cfg sys s).AllOk (fun s' =>
      s'.val = s.val ∧ s'.val_iovec = s.val_iovec ∧ resets s'.trace = resets s.trace) := by
  unfold write_it
  simp only
  split_ifs <;> simp [Res.AllOk, resets]

theorem domisc_val (s : State K) :
    (domisc cfg sys rand s).AllOk (fun s' =>
      s'.val = s.val ∧ s'.val_iovec = s.val_iovec ∧ resets s'.trace = resets s.trace) := by
  unfold domisc misc_switch wrap_type fsync_case trunc_case fstat_case next_type
  simp only
  split_ifs <;> simp [Res.AllOk, Res.bind, resets]

theorem misc_it_val (s : State K) :
    (misc_it cfg sys rand s).AllOk (fun s' =>
      s'.val = s.val ∧ s'.val_iovec = s.val_iovec ∧ resets s'.trace = resets s.trace) := by
  unfold misc_it
  simp only
  split_ifs
  · exact Res.AllOk.step (domisc_val cfg sys rand _) fun s1 h1 => h1
  · simp [Res.AllOk]
  · simp [Res.AllOk]

/-- A completed pass keeps the pattern byte, the pattern buffers and the number of
iterations begun. -/
theorem pass_val (s : State K) :
    (pass cfg sys rand s).AllOk (fun s' =>
      s'.val = s.val ∧ s'.val_iovec = s.val_iovec ∧ resets s'.trace = resets s.trace) := by
  unfold pass pass_body
  apply Res.AllOk.step (P := fun s' =>
    s'.val = s.val ∧ s'.val_iovec = s.val_iovec ∧ resets s'.trace = resets s.trace)
  · apply Res.AllOk.step (P := fun s' =>
      s'.val = s.val ∧ s'.val_iovec = s.val_iovec ∧ resets s'.trace = resets s.trace)
    · apply Res.AllOk.step (read_it_val cfg sys rand s)
      intro s1 ⟨h1, h2, h3⟩
      have := verify_it_val cfg s1
      revert this
      cases verify_it cfg s1 <;> simp only [Res.AllOk, imp_self]
      intro ⟨g1, g2, g3⟩
      exact ⟨g1.trans h1, g2.trans h2, g3.trans h3⟩
    · intro s1 ⟨h1, h2, h3⟩
      have := write_it_val cfg sys s1
      revert this
      cases write_it cfg sys s1 <;> simp only [Res.AllOk, imp_self]
      intro ⟨g1, g2, g3⟩
      exact ⟨g1.trans h1, g2.trans h2, g3.trans h3⟩
  · intro s1 ⟨h1, h2, h3⟩
    have := misc_it_val cfg sys rand s1
    revert this
    cases misc_it cfg sys rand s1 <;> simp only [Res.AllOk, imp_self]
    intro ⟨g1, g2, g3⟩
    exact ⟨g1.trans h1, g2.trans h2, g3.trans h3⟩

theorem first_misc_fields (testers me : Nat) (k : K) :
    (first_misc cfg rand (start cfg testers me k)).val = ((64 / testers) * me + 1) % 256 ∧
    (first_misc cfg rand (start cfg testers me k)).trace = [] := by
  unfold first_misc
  split <;> exact ⟨rfl, rfl⟩

/-- At every pass boundary the pattern byte is the initial one plus the number of
iterations completed, in a `char`, and the pattern buffers are filled with it. -/
theorem reach_val (testers me : Nat) (k : K) (s : State K)
    (h : Reach cfg sys rand testers me k s) :
    1 ≤ resets s.trace ∧
    s.val = ((64 / testers) * me + 1 + (resets s.trace - 1)) % 256 ∧
    s.val_iovec = List.replicate MAXIOVCNT (List.replicate (cfg.csize / MAXIOVCNT) s.val) := by
  induction h with
  | first _ _ =>
    obtain ⟨h1, h2⟩ := first_misc_fields cfg rand testers me k
    refine ⟨?_, ?_, rfl⟩
    · show 1 ≤ resets (.reset :: (first_misc cfg rand (start cfg testers me k)).trace)
      rw [h2]
      decide
    · show (first_misc cfg rand (start cfg testers me k)).val
        = ((64 / testers) * me + 1
            + (resets (.reset :: (first_misc cfg rand (start cfg testers me k)).trace) - 1))
          % 256
      rw [h1, h2]
      rfl
  | pass _ _ _ hpass ih =>
    obtain ⟨g1, g2, g3⟩ := (pass_val cfg sys rand _).of_eq hpass
    rw [g1, g2, g3]
    exact ih
  | @next s0 _ _ ih =>
    obtain ⟨i1, i2, -⟩ := ih
    refine ⟨?_, ?_, rfl⟩
    · show 1 ≤ resets s0.trace + 1
      omega
    · show (s0.val + 1) % 256 = ((64 / testers) * me + 1 + (resets s0.trace + 1 - 1)) % 256
      rw [i2]
      omega

theorem first_val_le (testers me : Nat) (hme : me < testers) :
    (64 / testers) * me + 1 ≤ 65 := by
  have h1 : (64 / testers) * me ≤ (64 / testers) * testers :=
    Nat.mul_le_mul_left _ (Nat.le_of_lt hme)
  have h2 : (64 / testers) * testers ≤ 64 := Nat.div_mul_le_self 64 testers
  omega


/-- Claim C12 (pattern bytes of the default run). With the configuration that `setup` fixes,
five workers and ten iterations, at every pass boundary of worker `me` in its iteration
number `k` (counted from `0`; the history holds `k + 1` iteration tops) the pattern byte
`val`, with which the pattern buffers are filled, is `(64 / 5) * me + 1 + k`; and two
different pairs of a worker in `0..4` and an iteration in `0..9` have different pattern
bytes. -/
theorem C12_default_pattern_bytes (me : Nat) (k : K) (s : State K)
    (h : Reach setup sys rand setup.nchild me k s) (hme : me < setup.nchild)
    (hit : resets s.trace ≤ setup.iterations) :
    setup.nchild = 5 ∧ setup.iterations = 10 ∧
    s.val = (64 / 5) * me + 1 + (resets s.trace - 1) ∧
    s.val_iovec = List.replicate MAXIOVCNT (List.replicate (setup.csize / MAXIOVCNT) s.val) ∧
    ∀ me1 k1 me2 k2, me1 < 5 → k1 < 10 → me2 < 5 → k2 < 10 →
      (64 / 5) * me1 + 1 + k1 = (64 / 5) * me2 + 1 + k2 → me1 = me2 ∧ k1 = k2 := by
  obtain ⟨h1, h2, h3⟩ := reach_val setup sys rand setup.nchild me k s h
  have hn : setup.nchild = 5 := rfl
  have hi : setup.iterations = 10 := rfl
  rw [hn] at hme h2
  rw [hi] at hit
  refine ⟨rfl, rfl, ?_, h3, ?_⟩
  · rw [h2]
    have : (64 : Nat) / 5 = 12 := by decide
    rw [this]
    omega
  · intro me1 k1 me2 k2 a1 b1 a2 b2 heq
    have : (64 : Nat) / 5 = 12 := by decide
    rw [this] at heq
    omega

/-- Claim C18 (range of the pattern byte). For every number of workers `testers` (so for
those from `1` to `MAXCHILD`), every worker `me < testers` and each of the first ten iterations,
at every pass boundary the pattern byte `val` is `(64 / testers) * me + 1` plus the number
of iterations completed, without any wrap of the `char`; it lies between `1` and `127`, so
it is never the zero byte of a hole; and the pattern buffers are filled with it. -/
theorem C18_pattern_byte_range (testers me : Nat) (k : K) (s : State K)
    (h : Reach cfg sys rand testers me k s) (hme : me < testers)
    (hit : resets s.trace ≤ 10) :
    s.val = (64 / testers) * me + 1 + (resets s.trace - 1) ∧
    1 ≤ s.val ∧ s.val ≤ 127 ∧ s.val ≠ 0 ∧
    s.val_iovec = List.replicate MAXIOVCNT (List.replicate (cfg.csize / MAXIOVCNT) s.val) := by
  obtain ⟨h1, h2, h3⟩ := reach_val cfg sys rand testers me k s h
  have hb := first_val_le testers me hme
  have hv : s.val = (64 / testers) * me + 1 + (resets s.trace - 1) := by
    rw [h2]
    omega
  refine ⟨hv, ?_, ?_, ?_, h3⟩ <;> omega

end Pattern

theorem reach_worker_three :
    Reach setup ideal (fun _ => 20) setup.nchild 3 File.empty
      (iter_init setup ideal (first_misc setup (fun _ => 20) (start setup 5 3 File.empty))) :=
  Reach.first (by decide) (by decide)

theorem C12_witness :
    (iter_init setup ideal (first_misc setup (fun _ => 20) (start setup 5 3 File.empty))).val
      = (64 / 5) * 3 + 1 + 0 :=
  (C12_default_pattern_bytes ideal (fun _ => 20) 3 File.empty _ reach_worker_three
    (by decide) (by decide)).2.2.1

theorem C18_witness :
    1 ≤ (iter_init setup ideal
          (first_misc setup (fun _ => 20) (start setup 5 3 File.empty))).val ∧
      (iter_init setup ideal
          (first_misc setup (fun _ => 20) (start setup 5 3 File.empty))).val ≤ 127 :=
  have h := C18_pattern_byte_range setup ideal (fun _ => 20) 5 3 File.empty _
    reach_worker_three (by decide) (by decide)
  ⟨h.2.1, h.2.2.1⟩


/-! ## The history bitmap -/

section Hold

variable {K : Type} (cfg : Config) (sys : Sys K) (rand : Nat → Nat)

theorem erase_eq {s t : State K} (h : s.erase = t.erase) :
    t = { s with hold_bits := t.hold_bits } := by
  cases s
  cases t
  simp only [State.erase, State.mk.injEq] at h
  obtain ⟨h1, h2, h3, h4, h5, h6, -, h8, h9, h10, h11, h12, h13, h14, h15, h16, h17, h18,
    h19⟩ := h
  subst h1 h2 h3 h4 h5 h6 h8 h9 h10 h11 h12 h13 h14 h15 h16 h17 h18 h19
  rfl

theorem erase_with {s : State K} (hb : List Nat) :
    ({ s with hold_bits := hb } : State K).erase = s.erase := rfl

theorem map_bind_congr {r1 r2 : Res (State K)} {f : State K → Res (State K)}
    (hr : r1.map State.erase = r2.map State.erase)
    (hf : ∀ s t : State K, s.erase = t.erase →
      (f s).map State.erase = (f t).map State.erase) :
    (r1.bind f).map State.erase = (r2.bind f).map State.erase := by
  cases r1 <;> cases r2 <;> simp only [Res.map, Res.ok.injEq, Res.exit.injEq, reduceCtorEq] at hr
  · exact hf _ _ hr
  · simp only [Res.bind, Res.map, hr.1, hr.2]
  · rfl

theorem read_it_hold (s t : State K) (h : s.erase = t.erase) :
    (read_it cfg sys rand s).map State.erase = (read_it cfg sys rand t).map State.erase := by
  rw [erase_eq h]
  unfold read_it
  simp only
  split_ifs <;> rfl

theorem verify_it_hold (s t : State K) (h : s.erase = t.erase) :
    (verify_it cfg s).map State.erase = (verify_it cfg t).map State.erase := by
  rw [erase_eq h]
  unfold verify_it
  simp only
  split_ifs <;> rfl

theorem write_it_hold (s t : State K) (h : s.erase = t.erase) :
    (write_it cfg sys s).map State.erase = (write_it cfg sys t).map State.erase := by
  rw [erase_eq h]
  unfold write_it
  simp only
  split_ifs <;> rfl

theorem domisc_hold (s t : State K) (h : s.erase = t.erase) :
    (domisc cfg sys rand s).map State.erase = (domisc cfg sys rand t).map State.erase := by
  rw [erase_eq h]
  unfold domisc misc_switch wrap_type fsync_case trunc_case fstat_case next_type
  simp only
  split_ifs <;> rfl

theorem misc_it_hold (s t : State K) (h : s.erase = t.erase) :
    (misc_it cfg sys rand s).map State.erase = (misc_it cfg sys rand t).map State.erase := by
  have hs := erase_eq h
  have hbits : t.bits = s.bits := by rw [hs]
  have hwm : t.whenmisc = s.whenmisc := by rw [hs]
  unfold misc_it
  simp only [hwm]
  split_ifs
  · apply map_bind_congr
    · apply domisc_hold
      rw [hs]
      rfl
    · intro a b hab
      rw [erase_eq hab]
      rfl
  · rw [hs]
    rfl
  · exact congrArg Res.ok h

theorem pass_hold (s t : State K) (h : s.erase = t.erase) :
    (pass cfg sys rand s).map State.erase = (pass cfg sys rand t).map State.erase := by
  unfold pass pass_body
  exact map_bind_congr (map_bind_congr (map_bind_congr (read_it_hold cfg sys rand s t h)
    (verify_it_hold cfg)) (write_it_hold cfg sys)) (misc_it_hold cfg sys rand)

theorem chunk_loop_hold (fuel : Nat) (s t : State K) (h : s.erase = t.erase) :
    (chunk_loop cfg sys rand fuel s).map State.erase
      = (chunk_loop cfg sys rand fuel t).map State.erase := by
  have hc : t.count = s.count := by rw [erase_eq h]
  induction fuel generalizing s t with
  | zero =>
    unfold chunk_loop
    rw [hc]
    split
    · rfl
    · exact congrArg Res.ok h
  | succ f ih =>
    unfold chunk_loop
    rw [hc]
    split
    · have hp := pass_hold cfg sys rand s t h
      cases h1 : pass cfg sys rand s <;> cases h2 : pass cfg sys rand t <;>
        rw [h1, h2] at hp <;>
        simp only [Res.map, Res.ok.injEq, Res.exit.injEq, reduceCtorEq] at hp
      · rename_i a b
        have e := erase_eq hp
        have e1 : b.count = a.count := by rw [e]
        have e2 : b.collide = a.collide := by rw [e]
        simp only [e1, e2]
        split
        · exact congrArg Res.ok hp
        · exact ih a b hp e1
      · simp only [Res.map, hp.1, hp.2]
    · exact congrArg Res.ok h

theorem iter_init_hold (s t : State K) (h : s.erase = t.erase) :
    (iter_init cfg sys s).erase = (iter_init cfg sys t).erase := by
  rw [erase_eq h]
  rfl

theorem iter_end_hold (s t : State K) (h : s.erase = t.erase) :
    (iter_end sys s).erase = (iter_end sys t).erase := by
  rw [erase_eq h]
  rfl

theorem iterate_hold (n : Nat) (s t : State K) (h : s.erase = t.erase) :
    (iterate cfg sys rand n s).map State.erase
      = (iterate cfg sys rand n t).map State.erase := by
  induction n generalizing s t with
  | zero => exact congrArg Res.ok h
  | succ n ih =>
    unfold iterate iteration
    apply map_bind_congr _ ih
    apply map_bind_congr
    · exact chunk_loop_hold cfg sys rand _ _ _ (iter_init_hold cfg sys s t h)
    · intro a b hab
      exact congrArg Res.ok (iter_end_hold sys a b hab)

/-- Claim C14 (the history bitmap decides nothing). Two states of the worker that differ at
most in `hold_bits`, given the same random draws and the same kernel, go through a pass,
through the rest of the inner loop and through any number of iterations with results of
the same kind (reached the end, or ended the process for the same reason) whose states
again differ at most in `hold_bits`: the same bitmap, `file_max`, `count` and `collide`, the
same kernel state, so the same writes and perturbations issued, and the same history of
classifications. -/
theorem C14_hold_bits_decide_nothing (s t : State K) (h : s.erase = t.erase) :
    (pass cfg sys rand s).map State.erase = (pass cfg sys rand t).map State.erase ∧
    (∀ fuel, (chunk_loop cfg sys rand fuel s).map State.erase
      = (chunk_loop cfg sys rand fuel t).map State.erase) ∧
    (∀ n, (iterate cfg sys rand n s).map State.erase
      = (iterate cfg sys rand n t).map State.erase) ∧
    (∀ a b : State K, a.erase = b.erase →
      a.bits = b.bits ∧ a.file_max = b.file_max ∧ a.count = b.count ∧
        a.collide = b.collide ∧ a.kern = b.kern ∧ a.trace = b.trace) :=
  ⟨pass_hold cfg sys rand s t h, fun fuel => chunk_loop_hold cfg sys rand fuel s t h,
    fun n => iterate_hold cfg sys rand n s t h,
    fun a b hab => by
      rw [erase_eq hab]
      exact ⟨rfl, rfl, rfl, rfl, rfl, rfl⟩⟩

end Hold

theorem C14_witness :
    tiny_top.hold_bits ≠ tiny_top_held.hold_bits ∧
    (pass tiny ideal tiny_rand tiny_top).map State.erase
      = (pass tiny ideal tiny_rand tiny_top_held).map State.erase :=
  ⟨by decide, (C14_hold_bits_decide_nothing tiny ideal tiny_rand tiny_top tiny_top_held rfl).1⟩

/-! ## Tidy bookkeeping -/

section TidyProofs

variable {K : Type} (cfg : Config) (sys : Sys K) (rand : Nat → Nat)

/-- Setting one more bit among the first `n` adds one to the number of set bits, setting a
bit that is set adds nothing. -/
theorem countP_or_eq (p q : Nat → Bool) (n c : Nat) (hc : c < n)
    (hq : ∀ i, q i = (p i || decide (i = c))) :
    (List.range n).countP q = (List.range n).countP p + if p c then 0 else 1 := by
  induction n with
  | zero => omega
  | succ n ih =>
    rw [List.range_succ, List.countP_append, List.countP_append]
    simp only [List.countP_cons, List.countP_nil, Nat.zero_add]
    by_cases hcn : c < n
    · rw [ih hcn]
      have : q n = p n := by
        rw [hq n]
        have : ¬ n = c := by omega
        simp [this]
      rw [this]
      omega
    · have hcn2 : c = n := by omega
      subst hcn2
      have h1 : (List.range c).countP q = (List.range c).countP p := by
        apply List.countP_congr
        intro i hi
        have hi2 : i < c := List.mem_range.mp hi
        have : ¬ i = c := by omega
        rw [hq i]
        simp [this]
      have h2 : q c = true := by
        rw [hq c]
        simp
      rw [h1, h2]
      cases p c <;> simp

theorem countP_le_of_imp (p q : Nat → Bool) (n : Nat)
    (h : ∀ i, i < n → q i = true → p i = true) :
    (List.range n).countP q ≤ (List.range n).countP p := by
  apply List.countP_mono_left
  intro i hi
  exact h i (List.mem_range.mp hi)

theorem iter_init_tidy (s : State K) : Tidy cfg (iter_init cfg sys s) 0 := by
  have hz : ∀ i, test_bit (iter_init cfg sys s).bits i = false :=
    fun i => test_bit_replicate_zero _ _
  have hsb : set_bits cfg (iter_init cfg sys s) = 0 := by
    unfold set_bits
    rw [List.countP_eq_zero]
    intro i _
    rw [hz i]
    simp
  constructor
  · exact Nat.zero_le _
  · exact (Nat.zero_mul _).symm
  · exact List.length_replicate _ _
  · intro i hi
    rw [hz i] at hi
    exact absurd hi Bool.false_ne_true
  · rw [hsb]
    exact Nat.zero_le _
  · intro _
    rw [hsb]
    rfl

theorem nchunks_pos_csize (h : 0 < cfg.nchunks) : cfg.csize ≠ 0 := by
  intro h0
  unfold Config.nchunks at h
  rw [h0, Nat.div_zero] at h
  omega

theorem read_it_tidy (s : State K) :
    (read_it cfg sys rand s).AllOk (fun s' =>
      s'.bits = s.bits ∧ s'.file_max = s.file_max ∧ s'.count = s.count ∧
        s'.chunk = picked cfg rand s ∧ truncated s'.trace = truncated s.trace) := by
  unfold read_it picked
  simp only
  split_ifs <;> simp [Res.AllOk, truncated]

/-- The classification either counts the chunk, whose bit was clear or which lies at or
beyond `file_max`, or finds its bit set below `file_max` and leaves `count`. -/
theorem verify_it_tidy (s : State K) (hin : s.chunk / 8 < s.bits.length) :
    (verify_it cfg s).AllOk (fun s' =>
      s'.bits.length = s.bits.length ∧ s'.file_max = s.file_max ∧ s'.chunk = s.chunk ∧
        (∀ i, test_bit s'.bits i = (test_bit s.bits i || decide (i = s.chunk))) ∧
        truncated s'.trace = truncated s.trace ∧
        ((s'.count = s.count + 1 ∧
            (CHUNK cfg s.chunk ≥ s.file_max ∨ test_bit s.bits s.chunk = false)) ∨
          (s'.count = s.count ∧ test_bit s.bits s.chunk = true ∧
            s'.trace = .seen s.chunk :: s.trace))) := by
  unfold verify_it
  simp only
  split_ifs with h1 h2 h3 h4 h5 h6
  · exact ⟨length_set_bit _ _, rfl, rfl, fun i => test_bit_set_bit _ _ _ hin, rfl,
      Or.inl ⟨rfl, Or.inl h1⟩⟩
  · trivial
  · trivial
  · exact ⟨length_set_bit _ _, rfl, rfl, fun i => test_bit_set_bit _ _ _ hin, rfl,
      Or.inl ⟨rfl, Or.inr h2⟩⟩
  · trivial
  · trivial
  · have hb : test_bit s.bits s.chunk = true := by simpa using h2
    refine ⟨rfl, rfl, rfl, ?_, rfl, Or.inr ⟨rfl, hb, rfl⟩⟩
    intro i
    by_cases hi : i = s.chunk
    · subst hi
      simp [hb]
    · simp [hi]

theorem write_it_tidy (s : State K) :
    (write_it cfg sys s).AllOk (fun s' =>
      s'.bits = s.bits ∧ s'.count = s.count ∧
        s'.file_max = max s.file_max (CHUNK cfg s.chunk + cfg.csize) ∧
        truncated s'.trace = truncated s.trace) := by
  unfold write_it
  simp only
  split_ifs with h1 h2 h3 h4
  · trivial
  · trivial
  · trivial
  · refine ⟨rfl, rfl, ?_, rfl⟩
    show CHUNK cfg s.chunk + cfg.csize = max s.file_max (CHUNK cfg s.chunk + cfg.csize)
    rw [Nat.max_eq_right]
    omega
  · refine ⟨rfl, rfl, ?_, rfl⟩
    show s.file_max = max s.file_max (CHUNK cfg s.chunk + cfg.csize)
    rw [Nat.max_eq_left]
    omega

theorem tidy_congr {s t : State K} {m : Nat} (hs : Tidy cfg s m)
    (h1 : t.file_max = s.file_max) (h2 : t.bits = s.bits) (h3 : t.count = s.count)
    (h4 : truncated t.trace = truncated s.trace) : Tidy cfg t m := by
  have hsb : set_bits cfg t = set_bits cfg s := by
    unfold set_bits
    rw [h2]
  constructor
  · exact hs.le
  · rw [h1]; exact hs.file_max
  · rw [h2]; exact hs.length
  · rw [h2]; exact hs.below
  · rw [hsb, h3]; exact hs.count_ge
  · rw [hsb, h3, h4]; exact hs.count_eq

/-- The body of a pass begun inside the loop in a tidy state ends, if it reaches its end, in
a tidy state whose `file_max` covers the chunk written. -/
theorem pass_body_tidy (s : State K) (m : Nat) (hs : Tidy cfg s m)
    (hloop : s.count < cfg.nchunks) :
    (pass_body cfg sys rand s).AllOk
      (fun s' => Tidy cfg s' (max m (picked cfg rand s + 1))) := by
  have hcn : picked cfg rand s < cfg.nchunks := picked_lt cfg rand s hloop
  unfold pass_body
  apply Res.AllOk.step
    (P := fun s2 => s2.bits.length = s.bits.length ∧ s2.file_max = s.file_max ∧
      s2.chunk = picked cfg rand s ∧
      (∀ i, test_bit s2.bits i = (test_bit s.bits i || decide (i = picked cfg rand s))) ∧
      truncated s2.trace = truncated s.trace ∧
      ((s2.count = s.count + 1 ∧ test_bit s.bits (picked cfg rand s) = false) ∨
        (s2.count = s.count ∧ test_bit s.bits (picked cfg rand s) = true)))
  · apply Res.AllOk.step (read_it_tidy cfg sys rand s)
    intro s1 ⟨hb, hf, hc, hch, ht⟩
    have hin : s1.chunk / 8 < s1.bits.length := by
      rw [hb, hch, hs.length]
      exact byte_in_bitmap _ _ hcn
    have := verify_it_tidy cfg s1 hin
    revert this
    cases verify_it cfg s1 with
    | ok s2 =>
      simp only [Res.AllOk]
      intro ⟨g1, g2, g3, g4, g5, g6⟩
      refine ⟨by rw [g1, hb], by rw [g2, hf], by rw [g3, hch],
        fun i => by rw [g4, hb, hch], by rw [g5, ht], ?_⟩
      rw [hb, hch, hf, hc] at g6
      rcases g6 with ⟨a, b⟩ | ⟨a, b, -⟩
      · refine Or.inl ⟨a, ?_⟩
        rcases b with b | b
        · by_contra hbit
          have hlt := hs.below _ (by simpa using hbit)
          rw [hs.file_max] at b
          unfold CHUNK at b
          have hcs := nchunks_pos_csize cfg (by omega)
          have := Nat.le_of_mul_le_mul_right b (Nat.pos_of_ne_zero hcs)
          omega
        · exact b
      · exact Or.inr ⟨a, b⟩
    | exit e s2 => intro _; trivial
    | out_of_fuel => intro _; trivial
  · intro s2 ⟨g1, g2, g3, g4, g5, g6⟩
    have := write_it_tidy cfg sys s2
    revert this
    cases write_it cfg sys s2 with
    | ok s3 =>
      simp only [Res.AllOk]
      intro ⟨w1, w2, w3, w4⟩
      have hsb : set_bits cfg s3
          = set_bits cfg s + if test_bit s.bits (picked cfg rand s) then 0 else 1 := by
        unfold set_bits
        rw [w1]
        exact countP_or_eq _ _ _ _ hcn g4
      have hmax : max (m * cfg.csize) (CHUNK cfg (picked cfg rand s) + cfg.csize)
          = max m (picked cfg rand s + 1) * cfg.csize := by
        unfold CHUNK
        rw [← Nat.succ_mul]
        rcases Nat.le_total m (picked cfg rand s + 1) with h | h
        · rw [Nat.max_eq_right h, Nat.max_eq_right (Nat.mul_le_mul_right _ h)]
        · rw [Nat.max_eq_left h, Nat.max_eq_left (Nat.mul_le_mul_right _ h)]
      constructor
      · exact Nat.max_le.mpr ⟨hs.le, hcn⟩
      · rw [w3, g2, g3, hs.file_max]
        exact hmax
      · rw [w1, g1]
        exact hs.length
      · intro i hi
        rw [w1, g4] at hi
        by_cases hic : i = picked cfg rand s
        · omega
        · have : test_bit s.bits i = true := by simpa [hic] using hi
          have := hs.below i this
          omega
      · rw [hsb, w2]
        have := hs.count_ge
        rcases g6 with ⟨a, b⟩ | ⟨a, b⟩
        · rw [a, b]
          simp
          omega
        · rw [a, b]
          simp
          omega
      · intro htr
        rw [w4, g5] at htr
        have := hs.count_eq htr
        rw [hsb, w2]
        rcases g6 with ⟨a, b⟩ | ⟨a, b⟩
        · rw [a, b]
          simp
          omega
        · rw [a, b]
          simp
          omega
    | exit e s3 => intro _; trivial
    | out_of_fuel => intro _; trivial

/-- The truncate case keeps the state tidy, below the chunk it picks. -/
theorem trunc_case_tidy (s : State K) (m : Nat) (hs : Tidy cfg s m) :
    (trunc_case cfg sys rand s).AllOk (fun s' =>
      Tidy cfg s' (trunc_chunk cfg rand s) ∧ s'.type = s.type) := by
  by_cases hdiv : cfg.csize = 0 ∨ s.file_max / cfg.csize = 0
  · unfold trunc_case
    rw [if_pos hdiv]
    trivial
  · have hcs : cfg.csize ≠ 0 := fun h => hdiv (Or.inl h)
    have hq : s.file_max / cfg.csize = m := by
      rw [hs.file_max]
      exact Nat.mul_div_cancel m (Nat.pos_of_ne_zero hcs)
    have hm : 1 ≤ m := by
      rw [← hq]
      exact Nat.pos_of_ne_zero fun h => hdiv (Or.inr h)
    have hc : trunc_chunk cfg rand s < m := by
      unfold trunc_chunk
      rw [hq]
      exact Nat.mod_lt _ (by omega)
    have hle := hs.le
    by_cases hcall : TruncCallOk cfg sys rand s
    · obtain ⟨s1, h1, hmax, hbits, hty, hcnt, -, -, -, htr, -⟩ :=
        trunc_case_ok cfg sys rand s (by omega) hcall
      rw [h1]
      refine ⟨?_, hty⟩
      have hbelow : ∀ i, test_bit s1.bits i = true → i < trunc_chunk cfg rand s := by
        intro i hi
        rw [hbits] at hi
        by_contra hge
        have := hs.below i (test_bit_clear_from_imp _ _ _ _ hi)
        rw [test_bit_clear_from_ge _ _ _ _ (by omega) (by omega)] at hi
        exact Bool.false_ne_true hi
      have hsb : set_bits cfg s1 ≤ set_bits cfg s := by
        unfold set_bits
        rw [hbits]
        exact countP_le_of_imp _ _ _ fun i _ hi => test_bit_clear_from_imp _ _ _ _ hi
      constructor
      · omega
      · exact hmax
      · rw [hbits, clear_from_length]
        exact hs.length
      · exact hbelow
      · rw [hcnt]
        exact Nat.le_trans hsb hs.count_ge
      · intro h
        rw [htr] at h
        exact absurd h (by simp [truncated])
    · obtain ⟨e, s1, h1, -⟩ := trunc_case_exit cfg sys rand s (by omega) hcall
      rw [h1]
      trivial

theorem domisc_tidy (s : State K) (m : Nat) (hs : Tidy cfg s m) :
    (domisc cfg sys rand s).AllOk (fun s' => ∃ m', Tidy cfg s' m') := by
  obtain ⟨w1, -, w3, -, -, -, -, -, -⟩ := wrap_type_fields s
  have w4 : (wrap_type s).count = s.count := by
    unfold wrap_type
    split <;> rfl
  have w5 : truncated (wrap_type s).trace = truncated s.trace := by
    unfold wrap_type
    split <;> rfl
  have hw : Tidy cfg (wrap_type s) m := tidy_congr cfg hs w1 w3 w4 w5
  unfold domisc misc_switch
  generalize wrap_type s = w at *
  split_ifs with h0 h1
  · unfold fsync_case
    simp only
    split_ifs
    · trivial
    · exact ⟨m, tidy_congr cfg hw rfl rfl rfl rfl⟩
  · have := trunc_case_tidy cfg sys rand w m hw
    revert this
    cases trunc_case cfg sys rand w with
    | ok s1 =>
      intro h
      exact ⟨_, tidy_congr cfg h.1 rfl rfl rfl rfl⟩
    | exit e s1 => intro _; trivial
    | out_of_fuel => intro _; trivial
  · unfold fstat_case
    simp only
    split_ifs
    · trivial
    · trivial
    · exact ⟨m, tidy_congr cfg hw rfl rfl rfl rfl⟩

theorem misc_it_tidy (s : State K) (m : Nat) (hs : Tidy cfg s m) :
    (misc_it cfg sys rand s).AllOk (fun s' => ∃ m', Tidy cfg s' m') := by
  unfold misc_it
  simp only
  split_ifs
  · have := domisc_tidy cfg sys rand
      { s with whenmisc := s.whenmisc - 1,
               hold_bits := ft_orbits s.hold_bits s.bits cfg.nbytes } m
      (tidy_congr cfg hs rfl rfl rfl rfl)
    revert this
    cases domisc cfg sys rand
      { s with whenmisc := s.whenmisc - 1,
               hold_bits := ft_orbits s.hold_bits s.bits cfg.nbytes } with
    | ok s1 =>
      intro ⟨m1, h1⟩
      exact ⟨m1, tidy_congr cfg h1 rfl rfl rfl rfl⟩
    | exit e s1 => intro _; trivial
    | out_of_fuel => intro _; trivial
  · exact ⟨m, tidy_congr cfg hs rfl rfl rfl rfl⟩
  · exact ⟨m, hs⟩

/-- A pass begun inside the loop in a tidy state ends, if it reaches its end, in a tidy
state. -/
theorem pass_tidy (s : State K) (m : Nat) (hs : Tidy cfg s m) (hloop : s.count < cfg.nchunks) :
    (pass cfg sys rand s).AllOk (fun s' => ∃ m', Tidy cfg s' m') := by
  unfold pass
  exact Res.AllOk.step (pass_body_tidy cfg sys rand s m hs hloop)
    fun s1 h1 => misc_it_tidy cfg sys rand s1 _ h1

/-- Every pass boundary is tidy, and lies in a run with a chunk size and a worker count
other than zero. -/
theorem reach_tidy (testers me : Nat) (k : K) (s : State K)
    (h : Reach cfg sys rand testers me k s) : cfg.csize ≠ 0 ∧ ∃ m, Tidy cfg s m := by
  induction h with
  | first h1 _ => exact ⟨h1, 0, iter_init_tidy cfg sys _⟩
  | pass hr hloop _ hpass ih =>
    obtain ⟨hcs, m, hm⟩ := ih
    exact ⟨hcs, (pass_tidy cfg sys rand _ m hm hloop).of_eq hpass⟩
  | next hr _ ih => exact ⟨ih.1, 0, iter_init_tidy cfg sys _⟩

/-- With a chunk size other than zero and at least one chunk below `file_max`, the truncate
case does not trap and leaves `file_max` at the chunk it picks, lower than it was, also
when its truncation call fails. -/
theorem trunc_case_lower (t : State K) (hcs : cfg.csize ≠ 0)
    (hq : 1 ≤ t.file_max / cfg.csize) :
    (trunc_case cfg sys rand t).fail? ≠ some .sigfpe ∧
      (trunc_case cfg sys rand t).All (fun t' =>
        t'.file_max = trunc_chunk cfg rand t * cfg.csize ∧ t'.file_max < t.file_max ∧
          t'.type = t.type) := by
  have hc : trunc_chunk cfg rand t < t.file_max / cfg.csize := Nat.mod_lt _ (by omega)
  have hlt : trunc_chunk cfg rand t * cfg.csize < t.file_max := by
    have h1 : (trunc_chunk cfg rand t + 1) * cfg.csize ≤ t.file_max / cfg.csize * cfg.csize :=
      Nat.mul_le_mul_right _ hc
    have h2 := Nat.div_mul_le_self t.file_max cfg.csize
    have h3 : 0 < cfg.csize := Nat.pos_of_ne_zero hcs
    rw [Nat.succ_mul] at h1
    omega
  have hdiv : ¬ (cfg.csize = 0 ∨ t.file_max / cfg.csize = 0) := by omega
  unfold trunc_case
  rw [if_neg hdiv]
  simp only
  split_ifs
  · exact ⟨by simp [Res.fail?], rfl, hlt, rfl⟩
  · exact ⟨by simp [Res.fail?], rfl, hlt, rfl⟩
  · exact ⟨by simp [Res.fail?], rfl, hlt, rfl⟩
  · exact ⟨by simp [Res.fail?], rfl, hlt, rfl⟩

theorem domisc_lower (t : State K) (hcs : cfg.csize ≠ 0)
    (hq : 1 ≤ t.file_max / cfg.csize) :
    (domisc cfg sys rand t).fail? ≠ some .sigfpe ∧
      ((wrap_type t).type = m_trunc → (domisc cfg sys rand t).All (fun t' =>
        t'.file_max = trunc_chunk cfg rand t * cfg.csize ∧ t'.file_max < t.file_max)) := by
  obtain ⟨w1, -, -, -, -, -, -, -, w9⟩ := wrap_type_fields t
  have hw := trunc_case_lower cfg sys rand (wrap_type t) hcs (by rw [w1]; exact hq)
  have htc : trunc_chunk cfg rand (wrap_type t) = trunc_chunk cfg rand t := by
    unfold trunc_chunk
    rw [w1, w9]
  rw [htc, w1] at hw
  unfold domisc misc_switch
  generalize wrap_type t = w at *
  constructor
  · split_ifs with h0 h1
    · unfold fsync_case
      simp only
      split_ifs <;> simp [Res.fail?, Res.bind]
    · have := hw.1
      revert this
      cases trunc_case cfg sys rand w <;> simp [Res.fail?, Res.bind]
    · unfold fstat_case
      simp only
      split_ifs <;> simp [Res.fail?, Res.bind]
  · intro hty
    rw [if_neg (by rw [hty]; decide), if_pos hty]
    have := hw.2
    revert this
    cases trunc_case cfg sys rand w with
    | ok s1 => exact fun h => ⟨h.1, h.2.1⟩
    | exit e s1 => exact fun h => ⟨h.1, h.2.1⟩
    | out_of_fuel => exact fun _ => trivial

/-- Claim C15 (the divisor of the truncate case). `dotest` invokes `domisc` only at the end
of a pass of the inner loop, after the body of the pass (read, classify, write) has
returned. For every pass begun inside the loop (`count < nchunks`) whose body returns in
state `s1`: the chunk size is not zero, `file_max >= csize`, so the divisor
`file_max / csize` is at least `1`, and the perturbation step of the pass does not trap.
For every state `t` with that `file_max`, `domisc` does not trap, and when its cursor is on
the truncate case it leaves `file_max` at `c * csize` for the chunk `c` it picks, a multiple
of `csize` strictly below the previous `file_max` (also when the truncation call fails). -/
theorem C15_truncate_divisor_positive (s s1 : State K) (hloop : s.count < cfg.nchunks)
    (hbody : pass_body cfg sys rand s = .ok s1) :
    cfg.csize ≠ 0 ∧ cfg.csize ≤ s1.file_max ∧ 1 ≤ s1.file_max / cfg.csize ∧
    (misc_it cfg sys rand s1).fail? ≠ some .sigfpe ∧
    ∀ t : State K, t.file_max = s1.file_max →
      (domisc cfg sys rand t).fail? ≠ some .sigfpe ∧
      ((wrap_type t).type = m_trunc → (domisc cfg sys rand t).All (fun t' =>
        t'.file_max = trunc_chunk cfg rand t * cfg.csize ∧ t'.file_max < t.file_max)) := by
  have hcs : cfg.csize ≠ 0 := nchunks_pos_csize cfg (by omega)
  obtain ⟨s2, hw, -⟩ := pass_body_ok_write cfg sys rand s s1 hbody
  have hmax := ((write_it_tidy cfg sys s2).of_eq hw).2.2.1
  have hge : cfg.csize ≤ s1.file_max := by
    rw [hmax]
    exact Nat.le_trans (Nat.le_add_left _ _) (Nat.le_max_right _ _)
  have hq : 1 ≤ s1.file_max / cfg.csize :=
    Nat.div_pos hge (Nat.pos_of_ne_zero hcs)
  refine ⟨hcs, hge, hq, ?_, fun t ht => domisc_lower cfg sys rand t hcs (by rw [ht]; exact hq)⟩
  unfold misc_it
  simp only
  split_ifs
  · have := (domisc_lower cfg sys rand
      { s1 with whenmisc := s1.whenmisc - 1,
                hold_bits := ft_orbits s1.hold_bits s1.bits cfg.nbytes } hcs hq).1
    revert this
    cases domisc cfg sys rand
      { s1 with whenmisc := s1.whenmisc - 1,
                hold_bits := ft_orbits s1.hold_bits s1.bits cfg.nbytes } <;>
      simp [Res.fail?, Res.bind]
  · simp [Res.fail?]
  · simp [Res.fail?]

/-- Claim C16 (set bits lie below `file_max`). At every pass boundary of the worker, which
is where every pass of the inner chunk loop starts: every chunk `i` whose bit is set has
`(i + 1) * csize <= file_max`; `file_max` is a multiple of `csize` and at most
`nchunks * csize`; for a chunk whose bit is set the virgin test `CHUNK(chunk) >= file_max`
is false; and in the pass begun there, when the chunk picked has its bit set, the
classification does not take the virgin branch: if it returns, it has recorded the chunk
as seen before. -/
theorem C16_set_bits_below_file_max (testers me : Nat) (k : K) (s : State K)
    (h : Reach cfg sys rand testers me k s) :
    (∀ i, test_bit s.bits i = true → (i + 1) * cfg.csize ≤ s.file_max) ∧
    s.file_max % cfg.csize = 0 ∧ s.file_max ≤ cfg.nchunks * cfg.csize ∧
    (∀ c, test_bit s.bits c = true → ¬ CHUNK cfg c ≥ s.file_max) ∧
    (∀ s1, read_it cfg sys rand s = .ok s1 → test_bit s.bits s1.chunk = true →
      ¬ CHUNK cfg s1.chunk ≥ s1.file_max ∧
      (verify_it cfg s1).AllOk (fun s2 => s2.trace = .seen s1.chunk :: s1.trace)) := by
  obtain ⟨hcs, m, hm⟩ := reach_tidy cfg sys rand testers me k s h
  have hnv : ∀ c, test_bit s.bits c = true → ¬ CHUNK cfg c ≥ s.file_max := by
    intro c hc
    rw [hm.file_max]
    unfold CHUNK
    rw [chunk_ge_iff _ _ _ hcs]
    have := hm.below c hc
    omega
  refine ⟨?_, ?_, ?_, hnv, ?_⟩
  · intro i hi
    rw [hm.file_max]
    exact Nat.mul_le_mul_right _ (hm.below i hi)
  · rw [hm.file_max]
    exact Nat.mul_mod_left _ _
  · rw [hm.file_max]
    exact Nat.mul_le_mul_right _ hm.le
  · intro s1 hr hbit
    obtain ⟨hb, hf, -, -, -⟩ := (read_it_tidy cfg sys rand s).of_eq hr
    have hv : ¬ CHUNK cfg s1.chunk ≥ s1.file_max := by
      rw [hf]
      exact hnv _ hbit
    refine ⟨hv, ?_⟩
    have hbit1 : ¬ test_bit s1.bits s1.chunk = false := by
      rw [hb, hbit]
      exact Bool.noConfusion
    unfold verify_it
    rw [if_neg hv, if_neg hbit1]
    simp only
    split_ifs
    · trivial
    · trivial
    · rfl

/-- Claim C17 (`count` and the set bits). At every pass boundary of the worker, so at the
end of every pass of every iteration, `count` is at least the number of set bits among the
`nchunks` bits of the bitmap, and equals it when no truncate perturbation has run since the
iteration began. The slack is real: on the ideal file, with five chunks and the draws
`leaky_rand`, the second iteration writes the five chunks in turn and its fifth pass ends
with a truncate perturbation to chunk `0`; the inner loop then stops at a pass boundary with
`count = nchunks` while bit `0` is clear, and `dotest` returns. -/
theorem C17_count_bounds_set_bits (testers me : Nat) (k : K) (s : State K)
    (h : Reach cfg sys rand testers me k s) :
    set_bits cfg s ≤ s.count ∧ (truncated s.trace = false → s.count = set_bits cfg s) ∧
    ∃ t : State File, Reach leaky ideal leaky_rand 1 0 File.empty t ∧
      dotest leaky ideal leaky_rand 1 0 File.empty = .ok (iter_end ideal t) ∧
      truncated t.trace = true ∧ t.count = leaky.nchunks ∧ test_bit t.bits 0 = false ∧
      set_bits leaky t < t.count := by
  obtain ⟨-, m, hm⟩ := reach_tidy cfg sys rand testers me k s h
  refine ⟨hm.count_ge, hm.count_eq, ?_⟩
  have hd : dotest leaky ideal leaky_rand 1 0 File.empty = .ok leaky_end := rfl
  obtain ⟨t, ht, -, heq⟩ := dotest_reach leaky ideal leaky_rand 1 0 File.empty leaky_end
    (by decide) hd
  have h1 : leaky_end.trace = t.trace := by rw [heq]; rfl
  have h2 : leaky_end.count = t.count := by rw [heq]; rfl
  have h3 : leaky_end.bits = t.bits := by rw [heq]; rfl
  have h4 : set_bits leaky leaky_end = set_bits leaky t := by
    unfold set_bits
    rw [h3]
  refine ⟨t, ht, by rw [hd, heq], ?_, ?_, ?_, ?_⟩
  · rw [← h1]
    decide
  · rw [← h2]
    decide
  · rw [← h3]
    decide
  · rw [← h4, ← h2]
    decide

end TidyProofs

theorem C15_witness :
    tiny_top.count < tiny.nchunks ∧ tiny.csize ≤ tiny_body.file_max ∧
      1 ≤ tiny_body.file_max / tiny.csize :=
  have h := C15_truncate_divisor_positive tiny ideal tiny_rand tiny_top tiny_body
    (by decide) rfl
  ⟨by decide, h.2.1, h.2.2.1⟩

theorem C16_witness :
    test_bit tiny_one.bits 3 = true ∧ (3 + 1) * tiny.csize ≤ tiny_one.file_max ∧
      tiny_one.file_max % tiny.csize = 0 ∧ ¬ CHUNK tiny 3 ≥ tiny_one.file_max :=
  have h := C16_set_bits_below_file_max tiny ideal tiny_rand 5 0 File.empty tiny_one
    reach_tiny_one
  ⟨by decide, h.1 3 (by decide), h.2.1, h.2.2.2.1 3 (by decide)⟩

theorem C17_witness :
    set_bits tiny tiny_one ≤ tiny_one.count ∧ truncated tiny_one.trace = false ∧
      tiny_one.count = set_bits tiny tiny_one :=
  have h := C17_count_bounds_set_bits tiny ideal tiny_rand 5 0 File.empty tiny_one
    reach_tiny_one
  ⟨h.1, by decide, h.2.1 (by decide)⟩

end Ftest03

/-! # Theorems on sysctl04 -/

namespace Sysctl04

/-- Claim C13, as the code has it. Whatever the kernel answers, both passes of the loop over
the test cases call `sysctl` with name length `0`, while the sizes in the table `TC` are `0`
and `CTL_MAXNAME + 1`: the field `size` is not used, and with the constants of Linux the
second call does not have the length its test case names. -/
theorem C13_name_length_is_zero (k : Consts) (kernel : Int → Int × Int) :
    (test_cases k kernel).map (fun p => p.nlen) = [0, 0] ∧
    (TC k).map (fun t => t.size) = [0, k.CTL_MAXNAME + 1] ∧
    (test_case linux kernel 1).nlen = 0 ∧
    ((TC linux).getD 1 { size := 0, error := 0 }).size = 11 :=
  ⟨rfl, rfl, rfl, rfl⟩

end Sysctl04
